import Mathlib

/-!
# Clink prompt session driver: directory history, directory shortcuts, history exclusion

A shallow embedding of `clink/app/src/host/host.cpp`, followed by the parts of
`clink/lua/src/rl_buffer_lua.cpp`, `clink/lib/src/line_editor_impl.h`,
`clink/lib/src/rl/rl_commands.cpp` and `clink/lib/src/rl/rl_help.cpp` that deal with the
Lua view of the line buffer, the generation cache, the splitting of a paste into lines and
the layout of the key binding help.

C strings are modelled as the list of the characters that precede the
terminating NUL, so the empty list is the empty string and "reading the
terminator" is reaching the end of the list.
-/

namespace Clink

/-- A NUL-terminated `char` string: the characters before the terminator. -/
abbrev CStr := List Char

/-! ## CRT and `core/` helpers used by `host.cpp` -/

/-- Sign of the CRT `_stricmp` (alias `_strcmpi`): compares the two strings
after ASCII lower-casing, stopping at the first difference.  Callers in
`host.cpp` only test the result against zero. -/
def _stricmp : CStr → CStr → Int
  | [], [] => 0
  | [], _ :: _ => -1
  | _ :: _, [] => 1
  | a :: as, b :: bs =>
    if a.toLower = b.toLower then _stricmp as bs
    else if a.toLower.toNat < b.toLower.toNat then -1 else 1

/-- Sign of the CRT `strcmp`. -/
def strcmp : CStr → CStr → Int
  | [], [] => 0
  | [], _ :: _ => -1
  | _ :: _, [] => 1
  | a :: as, b :: bs =>
    if a = b then strcmp as bs
    else if a.toNat < b.toNat then -1 else 1

/-! ## Directory history (`host.cpp` lines 163-193) -/

/-- Capacity of the directory history: `const int c_max_dir_history = 100;`. -/
def c_max_dir_history : Nat := 100

/-- The loop `while (s_dir_history.size() > c_max_dir_history) s_dir_history.pop_front();`. -/
def trim_overflow : List CStr → List CStr
  | [] => []
  | e :: rest =>
    if (e :: rest).length > c_max_dir_history then trim_overflow rest else e :: rest

/-- The function `update_dir_history`, with the result of `os::get_current_dir` passed as
`cwd` and the static list `s_dir_history` passed explicitly (oldest entry first). -/
def update_dir_history (cwd : CStr) (s_dir_history : List CStr) : List CStr :=
  -- Add cwd to tail.
  let pushed :=
    match s_dir_history.getLast? with
    | none => s_dir_history ++ [cwd]
    | some back => if _stricmp back cwd != 0 then s_dir_history ++ [cwd] else s_dir_history
  -- Trim overflow from head.
  trim_overflow pushed

/-- Modelled from the spec: `str_base::format(" cd /d \"%s\"", dir)` of `core/str.h`,
which is not among the sources; it produces the change-directory command for `dir`. -/
def format_cd (dir : CStr) : CStr :=
  " cd /d \"".toList ++ dir ++ "\"".toList

/-- The function `prev_dir_history`: clears `inout`, and when the ring has at least two
entries formats the change-directory command for the entry before the last one. -/
def prev_dir_history (s_dir_history : List CStr) (_inout : CStr) : CStr :=
  -- inout.clear();
  if s_dir_history.length < 2 then []
  else
    -- auto a = s_dir_history.rbegin(); a++;
    match s_dir_history.reverse with
    | _ :: a :: _ => format_cd a
    | _ => []

/-! ## Directory shortcuts (`host.cpp` lines 206-374) -/

/-- Modelled from the spec: `path::is_separator` of `core/path.h`, which is not among the
sources; the path separators are the backslash and the forward slash. -/
def is_separator (c : Char) : Bool :=
  c = '\\' || c = '/'

/-- Modelled from the spec: `path::normalise_separators` of `core/path.h`, which is not
among the sources; every path separator becomes the system separator (backslash). -/
def normalise_separators (s : CStr) : CStr :=
  s.map fun c => if is_separator c then '\\' else c

/-- Modelled from the spec: `str_base::iequals` of `core/str.h`, which is not among the
sources; equality ignoring case. -/
def iequals (a b : CStr) : Bool :=
  _stricmp a b == 0

/-- The test `*line == ' ' || *line == '\t'`. -/
def is_blank (c : Char) : Bool :=
  c = ' ' || c = '\t'

/-- The table `c_commands` of `parse_line_token`. -/
def c_commands : List CStr :=
  ["call".toList, "cd".toList, "chdir".toList, "dir".toList, "echo".toList, "md".toList,
   "mkdir".toList, "popd".toList, "pushd".toList]

/-- The `for (bool quoted = false; true; line++)` loop of `parse_line_token`.  The result
is the returned flag together with the contents of `out` at the return. -/
def parse_line_token_loop : CStr → Bool → Bool → CStr → Bool × CStr
  | [], _, _, out => (out.length != 0, out)
  | c :: rest, quoted, first_component, out =>
    if is_blank c ∧ quoted = false then
      -- Skip trailing whitespace; the parse fails if input is more than a single token.
      if rest.dropWhile is_blank ≠ [] then (false, out)
      else (out.length != 0, out)
    else if c = '^' ∨ c = '<' ∨ c = '|' ∨ c = '>' ∨ c = '%' then
      (false, out)
    else if c = '@' ∨ c = '(' ∨ c = ')' ∨ c = '&' ∨ c = '+' ∨ c = '=' ∨ c = ';' ∨ c = ',' then
      if quoted = false then (false, out)
      else parse_line_token_loop rest quoted first_component (out ++ [c])
    else if c = '"' then
      parse_line_token_loop rest (!quoted) false out
    else if c = '.' ∨ c = '/' ∨ c = '\\' then
      if first_component then
        if c_commands.any (fun name => iequals out name) then (false, out)
        else parse_line_token_loop rest quoted false (out ++ [c])
      else parse_line_token_loop rest quoted first_component (out ++ [c])
    else
      parse_line_token_loop rest quoted first_component (out ++ [c])

/-- The function `parse_line_token`: skips leading blanks, then runs the loop with
`quoted = false`, `first_component = true` and an empty `out`. -/
def parse_line_token (line : CStr) : Bool × CStr :=
  parse_line_token_loop (line.dropWhile is_blank) false true []

/-- The loop of `intercept_directory` that counts the dots of an all-dots token: the
result is the final `num_dots` (`-1` when the token is not all dots, a single trailing
separator being allowed). -/
def count_dots : CStr → Int → Int
  | [], num_dots => num_dots
  | c :: rest, num_dots =>
    if c ≠ '.' then
      if !is_separator c || rest ≠ [] then -1 else num_dots
    else count_dots rest (num_dots + 1)

/-- The loop `while (num_dots > 1) { tmp.concat("..\\"); --num_dots; }`, given the number
of iterations. -/
def concat_updirs : Nat → CStr → CStr
  | 0, tmp => tmp
  | k + 1, tmp => concat_updirs k (tmp ++ "..\\".toList)

/-- The special-case loop for `..\..` chains: `true` when it reaches `p[2] == '\0'` (a
separator is then appended), `false` when `intercept_directory` returns false. -/
def dotdot_chain : CStr → Bool
  | ['.', '.'] => true
  | '.' :: '.' :: s :: rest => if is_separator s then dotdot_chain rest else false
  | _ => false

/-- The file-system collaborators of `intercept_directory`: readline's `tilde_expand`
(`none` for a null result) and whether `os::get_path_type` reports `os::path_type_dir`. -/
structure DirEnv where
  tilde_expand : CStr → Option CStr
  is_dir : CStr → Bool

/-- The function `intercept_directory`: the returned flag and the contents of `inout`
afterwards. -/
def intercept_directory (env : DirEnv) (s_dir_history : List CStr) (inout : CStr) :
    Bool × CStr :=
  let line := inout
  -- Check for '-' (etc) to change to previous directory.
  if strcmp line "-".toList = 0 ∨ _stricmp line "cd -".toList = 0
      ∨ _stricmp line "chdir -".toList = 0 then
    (true, prev_dir_history s_dir_history inout)
  else
    -- Parse the input for a single token.
    match parse_line_token line with
    | (false, _) => (false, inout)
    | (true, tmp) =>
      -- If all dots, convert into valid path syntax moving N-1 levels.
      let num_dots := count_dots tmp 0
      let tmp := if num_dots ≥ 2 then concat_updirs (num_dots - 1).toNat [] else tmp
      -- If the input doesn't end with a separator, don't handle it, but allow "..\..".
      let ends_with_separator :=
        match tmp.getLast? with
        | some c => is_separator c
        | none => false
      if !ends_with_separator && !dotdot_chain tmp then (false, inout)
      else
        let tmp := if ends_with_separator then tmp else tmp ++ "\\".toList
        -- Tilde expansion.
        let tmp :=
          if '~' ∈ tmp then
            match env.tilde_expand tmp with
            | some expanded_path => expanded_path
            | none => tmp
          else tmp
        if !env.is_dir tmp then (false, inout)
        else (true, format_cd (normalise_separators tmp))

/-! ## History exclusion (`host.cpp` lines 900-925) -/

/-- Sign of the CRT `_strnicmp`: compares at most `n` characters after ASCII
lower-casing. -/
def _strnicmp : CStr → CStr → Nat → Int
  | _, _, 0 => 0
  | [], [], _ + 1 => 0
  | [], _ :: _, _ + 1 => -1
  | _ :: _, [], _ + 1 => 1
  | a :: as, b :: bs, n + 1 =>
    if a.toLower = b.toLower then _strnicmp as bs n
    else if a.toLower.toNat < b.toLower.toNat then -1 else 1

/-- The CRT `isalnum` in the "C" locale: ASCII letters and digits. -/
def isalnum (c : Char) : Bool :=
  c.isAlphanum

/-- The read `c[i]` of a C string: the terminating NUL at and past the end. -/
def char_at (s : CStr) (i : Nat) : Char :=
  s.getD i (Char.ofNat 0)

/-- Modelled from the spec: `str_tokeniser` of `core/str_tokeniser.h`, which is not among
the sources; successive `next` calls yield the maximal runs of characters that are not
delimiters.  The second argument is the token being collected. -/
def str_tokeniser (delims : CStr) : CStr → CStr → List CStr
  | [], token => if token = [] then [] else [token]
  | c :: rest, token =>
    if c ∈ delims then
      if token = [] then str_tokeniser delims rest []
      else token :: str_tokeniser delims rest []
    else str_tokeniser delims rest (token ++ [c])

/-- The loop `while (tokens.next(token))` of the exclusion check, `c` being the line after
its leading blanks: the final value of `exclude`. -/
def exclude_loop : List CStr → CStr → Bool
  | [], _ => false
  | token :: tokens, c =>
    if token.length != 0 && _strnicmp c token token.length == 0
        && !isalnum (char_at c token.length) && !is_separator (char_at c token.length) then
      true
    else exclude_loop tokens c

/-- The block "Should we skip adding certain commands?" of `host::edit_line`: whether
`exclude` is set for the line `out` under the setting `history.dont_add_to_history_cmds`. -/
def exclude_from_history (cmds out : CStr) : Bool :=
  if cmds ≠ [] then
    exclude_loop (str_tokeniser " ,;".toList cmds []) (out.dropWhile is_blank)
  else false

/-- The default of the setting `history.dont_add_to_history_cmds`. -/
def g_exclude_from_history_cmds : CStr :=
  "exit history".toList

/-! ## The prompt cycle `host::edit_line` (`host.cpp` lines 588-971)

The session is the `host` object together with the function-local statics of `host.cpp`.
Everything a cycle asks of its collaborators (settings, console, editor, history store,
scripts, doskey, file system) is an input of the cycle, and the calls a cycle makes to
them are recorded in a trace, oldest first. -/

/-- Outcome of `history_db::expand`. -/
inductive expand_result
  | expand_error
  | expand_none
  | expand_ok
  | expand_print
  deriving DecidableEq, Repr

/-- A call made by a cycle to one of its collaborators.  `history_add` is the call
`m_history->add(out.c_str())` of line 929, made by `edit_line` itself; `host_add_history`
is a call of `host::add_history` (lines 500-503) made by the editor while it edits, as
`edit_and_execute_command` does (`rl_commands.cpp` line 1052), which hands the line to
`m_history->add` without any test. -/
inductive Event
  | load_scripts
  | send_event (name : CStr)
  | filter_prompt
  | load_rl_history
  | fopen (path : CStr)
  | unlink (path : CStr)
  | set_errorlevel (code : Int)
  | editor_edit (buffer : CStr)
  | print (text : CStr)
  | puts (text : CStr)
  | clear_sticky_search_position
  | history_expand (line : CStr)
  | history_add (line : CStr)
  | host_add_history (line : CStr)
  | filter_input (line : CStr)
  | doskey_resolve (line : CStr)
  | intercept_directory (line : CStr)
  deriving DecidableEq, Repr

/-- The session: members of `host` and the statics `s_dir_history`, `s_autostart`,
`s_autostart_display`, `s_inspect_errorlevel` and `s_injected`.  Pointers are modelled by
whether they are set; `m_doskey_alias` is the list of commands still to be replayed;
`errorlevel` is the value last passed to `os::set_errorlevel`. -/
structure Session where
  s_dir_history : List CStr
  s_autostart : Bool
  s_autostart_display : Bool
  s_inspect_errorlevel : Bool
  s_injected : Bool
  m_doskey_alias : List CStr
  m_queued_lines : List CStr
  m_lua : Bool
  m_prompt_filter : Bool
  m_history : Bool
  m_prompt : Option CStr
  m_rprompt : Option CStr
  m_last_cwd : CStr
  m_can_transient : Bool
  errorlevel : Int
  deriving DecidableEq, Repr

/-- The session at process attach: the initial values of the statics and members. -/
def Session.initial : Session where
  s_dir_history := []
  s_autostart := true
  s_autostart_display := false
  s_inspect_errorlevel := true
  s_injected := false
  m_doskey_alias := []
  m_queued_lines := []
  m_lua := false
  m_prompt_filter := false
  m_history := false
  m_prompt := none
  m_rprompt := none
  m_last_cwd := []
  m_can_transient := false
  errorlevel := 0

/-- What the collaborators answer during one pass of the `while (1)` loop of
`host::edit_line`: the editor (`editor->edit(out)`: the result, the buffer afterwards, and
the lines enqueued through `host::enqueue_lines` while editing), readline's
`rl_has_saved_history`, the sticky-search queries, `history_db::expand`, and the lines the
editor passes to `host::add_history` while it edits the given buffer. -/
structure PassEnv where
  edit : CStr → Bool × CStr × List CStr
  has_saved_history : Bool
  sticky_search_history : Bool
  has_sticky_search_position : Bool
  sticky_search_add_history : CStr → Bool
  expand : CStr → expand_result × CStr
  host_add_history : CStr → List CStr

/-- The answers once the recorded passes are used up: the editor reports failure without
adding to the history, and history expansion changes nothing. -/
def PassEnv.eof : PassEnv where
  edit := fun buffer => (false, buffer, [])
  has_saved_history := false
  sticky_search_history := false
  has_sticky_search_position := false
  sticky_search_add_history := fun _ => true
  expand := fun line => (expand_result.expand_none, line)
  host_add_history := fun _ => []

/-- The inputs of one cycle: settings, process environment, the probe file as `fopen`
finds it (`none` when it cannot be opened), the stack contents of the uninitialised read
buffer, the passes of the loop, and the script and doskey collaborators. -/
structure CycleEnv where
  reset : Bool
  cwd : CStr
  g_get_errorlevel : Bool
  g_reload_scripts : Bool
  g_exclude_from_history_cmds : CStr
  s_prompt_transient : Nat
  autostart_command : CStr
  tmp_errfile : CStr
  errfile_content : Option CStr
  stack_buffer : CStr
  is_script_path_changed : Bool
  has_saved_history : Bool
  passes : List PassEnv
  filter_input : CStr → CStr
  doskey_resolve : CStr → List CStr
  dirs : DirEnv

/-- The locals of `host::edit_line` together with the session, the caller's `out` and the
trace so far. -/
structure Frame where
  session : Session
  out : CStr
  trace : List Event
  autostart : CStr
  interactive : Bool
  inspect_errorlevel : Bool
  send_event : Bool
  local_lua : Bool
  editor : Bool
  resolved : Bool
  ret : Bool
  deriving DecidableEq, Repr

/-- The C library `isspace` in the "C" locale. -/
def isspace (c : Char) : Bool :=
  c = ' ' || c = '\t' || c = '\n' || c = '\r' || c = Char.ofNat 11 || c = Char.ofNat 12

/-- The digits loop of `atoi`. -/
def atoi_digits : CStr → Nat → Nat
  | [], acc => acc
  | c :: rest, acc => if c.isDigit then atoi_digits rest (acc * 10 + (c.toNat - 48)) else acc

/-- The C library `atoi`, without the overflow of `int`. -/
def atoi (s : CStr) : Int :=
  match s.dropWhile isspace with
  | '-' :: rest => -(atoi_digits rest 0 : Int)
  | '+' :: rest => (atoi_digits rest 0 : Int)
  | rest => (atoi_digits rest 0 : Int)

/-- The characters `fgets(buffer, n, f)` stores: at most `n - 1`, up to and including the
first newline. -/
def fgets_chars : Nat → CStr → CStr
  | 0, _ => []
  | _ + 1, [] => []
  | n + 1, c :: rest => if c = '\n' then [c] else c :: fgets_chars n rest

/-- The contents of `buffer` after `fgets(buffer, _countof(buffer) - 1, f)`: the buffer is
left as it was found when nothing could be read (the preceding `memset` has its size and
value arguments swapped and clears nothing). -/
def fgets (stack_buffer content : CStr) : CStr :=
  if content = [] then stack_buffer else fgets_chars 30 content

/-- The hidden command of the errorlevel probe:
`out.format(" echo %%errorlevel%% 2>nul >\"%s\"", tmp_errfile.c_str())`. -/
def format_probe (tmp_errfile : CStr) : CStr :=
  " echo %errorlevel% 2>nul >\"".toList ++ tmp_errfile ++ "\"".toList

/-- The initial value of `interactive` (line 619). -/
def initial_interactive (s : Session) : Bool :=
  s.m_doskey_alias.isEmpty &&
    match s.m_queued_lines with
    | [] => true
    | [front] => front.length == 0 || char_at front (front.length - 1) != '\n'
    | _ => false

/-- The locals at entry of `host::edit_line`, `interactive` having its initial value. -/
def enter_cycle (s : Session) (out : CStr) : Frame :=
  { session := s, out := out, trace := [], autostart := [],
    interactive := initial_interactive s, inspect_errorlevel := false, send_event := false,
    local_lua := false, editor := false, resolved := false, ret := false }

/-- Lines 615-628: the autostart check. -/
def autostart_step (env : CycleEnv) (s : Session) (out : CStr) : Frame :=
  if initial_interactive s && s.s_autostart then
    { enter_cycle s out with
      session := { s with s_autostart := false }
      autostart := env.autostart_command
      interactive := env.autostart_command.isEmpty }
  else enter_cycle s out

/-- Lines 644-660: the exit status recovered from the probe file, zero when the file
cannot be opened. -/
def read_errorlevel (env : CycleEnv) : Int :=
  match env.errfile_content with
  | some content => atoi (fgets env.stack_buffer content)
  | none => 0

/-- Lines 644-660: the calls made to recover the exit status; the file is deleted only
when it could be opened. -/
def read_errorlevel_events (env : CycleEnv) : List Event :=
  match env.errfile_content with
  | some _ =>
    [Event.fopen env.tmp_errfile, Event.unlink env.tmp_errfile,
      Event.set_errorlevel (read_errorlevel env)]
  | none => [Event.fopen env.tmp_errfile, Event.set_errorlevel 0]

/-- Lines 630-668: the errorlevel protocol. -/
def errorlevel_step (env : CycleEnv) (fr : Frame) : Frame :=
  if env.g_get_errorlevel then
    if fr.interactive then
      if fr.session.s_inspect_errorlevel then
        { fr with
          session := { fr.session with
            s_inspect_errorlevel := !fr.session.s_inspect_errorlevel }
          inspect_errorlevel := true, interactive := false }
      else
        { fr with
          session := { fr.session with
            errorlevel := read_errorlevel env
            s_inspect_errorlevel := !fr.session.s_inspect_errorlevel }
          trace := fr.trace ++ read_errorlevel_events env }
    else fr
  else { fr with session := { fr.session with s_inspect_errorlevel := true } }

/-- The function `host::update_last_cwd`. -/
def update_last_cwd (when : Nat) (cwd : CStr) (s : Session) : Session :=
  if iequals cwd s.m_last_cwd then
    { s with m_can_transient := when != 0 }
  else
    { s with m_can_transient := when == 1, m_last_cwd := cwd }

/-- Lines 683-693: whether `m_lua` is still set after the reload check. -/
def lua_after_reload (env : CycleEnv) (s : Session) : Bool :=
  let local_lua := env.g_reload_scripts
  let reload_lua := local_lua || (s.m_lua && env.is_script_path_changed)
  if reload_lua || local_lua then false else s.m_lua

/-- Lines 672 and 694-695: the final value of `init_scripts`. -/
def init_scripts (env : CycleEnv) (interactive : Bool) (s : Session) : Bool :=
  if !env.g_reload_scripts then !lua_after_reload env s else env.reset || interactive

/-- Line 676: the value of `init_history`. -/
def init_history (env : CycleEnv) (interactive : Bool) : Bool :=
  env.reset || (interactive && !env.has_saved_history)

/-- Lines 670-770: the calls of the set-up: script load, the `oninject` and `onbeginedit`
events, prompt filtering and the history load. -/
def setup_events (env : CycleEnv) (interactive : Bool) (s : Session) : List Event :=
  (if init_scripts env interactive s then [Event.load_scripts] else [])
  -- Send oninject event; one time only.
  ++ (if !s.s_injected then [Event.send_event "oninject".toList] else [])
  -- Send onbeginedit event.
  ++ (if interactive then [Event.send_event "onbeginedit".toList] else [])
  -- Filter the prompt.  Unless processing a multiline doskey macro.
  ++ (if interactive then [Event.filter_prompt] else [])
  ++ (if init_history env interactive then [Event.load_rl_history] else [])

/-- Lines 670-770: the session after the set-up. -/
def setup_session (env : CycleEnv) (prompt rprompt : Option CStr) (interactive : Bool)
    (s : Session) : Session :=
  -- Update last cwd and whether transient prompt can be applied later.
  let s := if interactive then update_last_cwd env.s_prompt_transient env.cwd s else s
  { s with
    m_lua := true
    m_prompt_filter := true
    s_injected := true
    m_prompt := if interactive then some (prompt.getD []) else s.m_prompt
    m_rprompt := if interactive then some (rprompt.getD []) else s.m_rprompt
    m_history := if init_history env interactive then true else s.m_history }

/-- Lines 670-770: scripts, events, prompt, editor and history set-up; `send_event`,
`init_prompt` and `init_editor` all equal `interactive`. -/
def setup_step (env : CycleEnv) (prompt rprompt : Option CStr) (fr : Frame) : Frame :=
  { fr with
    session := setup_session env prompt rprompt fr.interactive fr.session
    trace := fr.trace ++ setup_events env fr.interactive fr.session
    send_event := fr.interactive
    local_lua := env.g_reload_scripts
    editor := fr.interactive }

/-- The loop `while (len && out.c_str()[len - 1] == '\n') { out.truncate(--len); edit = false; }`:
the line without its trailing newlines. -/
def strip_newlines (out : CStr) : CStr :=
  (out.reverse.dropWhile fun c => c = '\n').reverse

/-- Lines 832-844: the next queued line, if any, is appended to `out` and its trailing
newlines are removed; the flag is `edit`, cleared when a newline was removed. -/
def take_queued_line (fr : Frame) : Bool × Frame :=
  match fr.session.m_queued_lines with
  | [] => (true, fr)
  | front :: queued =>
    let out := fr.out ++ front
    (strip_newlines out == out,
      { fr with session := { fr.session with m_queued_lines := queued }, out := strip_newlines out })

/-- Lines 846-871: a line that ended in a newline is echoed and accepted, any other line
is handed to the editor (when there is one) as its starting buffer.  The calls of
`host::add_history` the editor makes while editing are recorded after the editor's. -/
def produce_line (pass : PassEnv) (edit : Bool) (fr : Frame) : Frame :=
  if !edit then
    { fr with trace := fr.trace ++ [Event.print fr.out], ret := true }
  else if fr.editor then
    let edited := pass.edit fr.out
    { fr with
      session := { fr.session with m_queued_lines := fr.session.m_queued_lines ++ edited.2.2 }
      out := edited.2.1
      trace := fr.trace
        ++ Event.editor_edit fr.out :: (pass.host_add_history fr.out).map Event.host_add_history
      ret := edited.1 }
  else { fr with ret := false }

/-- Lines 875-888: the value of `add_history` for the line `out`. -/
def add_history_decision (pass : PassEnv) (out : CStr) : Bool :=
  if pass.has_saved_history then
    -- Don't add to history when operate-and-get-next was used.
    false
  else if !out.isEmpty && pass.sticky_search_history && pass.has_sticky_search_position then
    pass.sticky_search_add_history out
  else true

/-- Lines 873-931: history admission, history expansion and the exclusion check; the flag
tells whether the pass ends in `continue`. -/
def admit_line (env : CycleEnv) (pass : PassEnv) (fr : Frame) : Bool × Frame :=
  let add_history := add_history_decision pass fr.out
  let fr := if add_history then
      { fr with trace := fr.trace ++ [Event.clear_sticky_search_position] }
    else fr
  -- Handle history event expansion.
  let expanded := pass.expand fr.out
  let fr := { fr with out := expanded.2, trace := fr.trace ++ [Event.history_expand fr.out] }
  if expanded.1 = expand_result.expand_print then
    (true, { fr with trace := fr.trace ++ [Event.puts fr.out] })
  -- Should we skip adding certain commands?
  else if exclude_from_history env.g_exclude_from_history_cmds fr.out then
    (false, fr)
  -- Add the line to the history.
  else if add_history then
    (false, { fr with trace := fr.trace ++ [Event.history_add fr.out] })
  else (false, fr)

/-- Lines 776-790: the autostart text is staged as the resolved line. -/
def stage_autostart (fr : Frame) : Frame :=
  { fr with
    session := { fr.session with s_autostart_display := true }
    out := fr.autostart, resolved := true, ret := true }

/-- Lines 792-814: the saved cursor position is dropped and the errorlevel probe is staged
as the resolved line. -/
def stage_probe (env : CycleEnv) (fr : Frame) : Frame :=
  { fr with
    session := { fr.session with s_autostart_display := false }
    out := format_probe env.tmp_errfile, resolved := true, ret := true }

/-- Lines 792-822 when nothing is staged: the saved cursor position is dropped, the
directory history gets the current directory, and `resolved` is cleared. -/
def enter_pass (env : CycleEnv) (fr : Frame) : Frame :=
  { fr with
    session := { fr.session with
      s_autostart_display := false
      s_dir_history := update_dir_history env.cwd fr.session.s_dir_history }
    resolved := false }

/-- Lines 823-829: the next command of a pending doskey alias is the resolved line. -/
def next_alias (command : CStr) (pending : List CStr) (fr : Frame) : Frame :=
  { fr with
    session := { fr.session with m_doskey_alias := pending }
    out := command, resolved := true, ret := true }

/-- Lines 830-931: a line is taken from the queue or the editor and, unless the editor
failed, goes through history admission. -/
def read_line (env : CycleEnv) (pass : PassEnv) (fr : Frame) : Bool × Frame :=
  if !(produce_line pass (take_queued_line fr).1 (take_queued_line fr).2).ret then
    (false, produce_line pass (take_queued_line fr).1 (take_queued_line fr).2)
  else admit_line env pass (produce_line pass (take_queued_line fr).1 (take_queued_line fr).2)

/-- One pass of the `while (1)` loop (lines 776-931): the flag tells whether the pass ended
in `continue`. -/
def edit_pass (env : CycleEnv) (pass : PassEnv) (fr : Frame) : Bool × Frame :=
  -- Auto-run clinkstart.cmd the first time the edit prompt is invoked.
  if fr.autostart.length != 0 then (false, stage_autostart fr)
  -- Before each interactive prompt, run an echo command to interrogate %ERRORLEVEL%.
  else if fr.inspect_errorlevel then (false, stage_probe env fr)
  else
    match fr.session.m_doskey_alias with
    | command :: pending => (false, next_alias command pending (enter_pass env fr))
    | [] => read_line env pass (enter_pass env fr)

/-- The `while (1)` loop over the recorded passes; past them the collaborators answer as
`PassEnv.eof`, with which no pass ends in `continue`. -/
def edit_loop (env : CycleEnv) : List PassEnv → Frame → Frame
  | [], fr => (edit_pass env PassEnv.eof fr).2
  | pass :: passes, fr =>
    let r := edit_pass env pass fr
    if r.1 then edit_loop env passes r.2 else r.2

/-- Lines 934-942: the `onendedit` and `onfilterinput` events; the latter may replace the
line. -/
def end_edit_events (env : CycleEnv) (fr : Frame) : Frame :=
  if fr.send_event then
    { fr with
      out := env.filter_input fr.out
      trace := fr.trace ++ [Event.send_event "onendedit".toList, Event.filter_input fr.out] }
  else fr

/-- Lines 944-948: `m_doskey.resolve(out.c_str(), m_doskey_alias); m_doskey_alias.next(out);`
for a line that is not yet resolved. -/
def resolve_doskey (env : CycleEnv) (fr : Frame) : Frame :=
  if !fr.resolved then
    match env.doskey_resolve fr.out with
    | command :: pending =>
      { fr with
        session := { fr.session with m_doskey_alias := pending }
        out := command
        trace := fr.trace ++ [Event.doskey_resolve fr.out] }
    | [] =>
      { fr with
        session := { fr.session with m_doskey_alias := [] }
        trace := fr.trace ++ [Event.doskey_resolve fr.out] }
  else fr

/-- Lines 950-955: the directory shortcut, unless the cycle failed or ran the autostart
command. -/
def directory_shortcut (env : CycleEnv) (fr : Frame) : Frame :=
  if fr.ret && fr.autostart.isEmpty then
    { fr with
      out := (intercept_directory env.dirs fr.session.s_dir_history fr.out).2
      trace := fr.trace ++ [Event.intercept_directory fr.out] }
  else fr

/-- Lines 957-968: the scripts are dropped when they are reloaded every cycle, and the
prompt pointers are reset. -/
def cleanup (fr : Frame) : Frame :=
  { fr with
    session := { fr.session with
      m_prompt_filter := if fr.local_lua then false else fr.session.m_prompt_filter
      m_lua := if fr.local_lua then false else fr.session.m_lua
      m_prompt := none
      m_rprompt := none } }

/-- Lines 934-970: events, doskey resolution, the directory shortcut and clean-up. -/
def finish_step (env : CycleEnv) (fr : Frame) : Frame :=
  cleanup (directory_shortcut env (resolve_doskey env (end_edit_events env fr)))

/-- The function `host::edit_line`: the frame at `return ret;`, whose `ret` is the
returned value, `out` the caller's buffer and `session` the session left behind. -/
def edit_line (env : CycleEnv) (s : Session) (prompt rprompt : Option CStr) (out : CStr) :
    Frame :=
  finish_step env (edit_loop env env.passes
    (setup_step env prompt rprompt (errorlevel_step env (autostart_step env s out))))

/-- What a cycle may record given the exclusion list and whether it has an editor: a line
that `edit_line` itself passes to the history store's `add` (line 929) is not excluded,
and the editor is only invoked when there is one. -/
def event_admissible (cmds : CStr) (editor : Bool) : Event → Prop
  | Event.history_add line => exclude_from_history cmds line = false
  | Event.editor_edit _ => editor = true
  | _ => True

/-- The frame `r` continues the frame `fr`: the errorlevel toggle, the staged texts and the
set-up flags are the same, and the trace of `r` extends that of `fr` by admissible events. -/
structure Frame.Continues (cmds : CStr) (fr r : Frame) : Prop where
  s_inspect_errorlevel : r.session.s_inspect_errorlevel = fr.session.s_inspect_errorlevel
  s_autostart : r.session.s_autostart = fr.session.s_autostart
  errorlevel : r.session.errorlevel = fr.session.errorlevel
  autostart : r.autostart = fr.autostart
  inspect_errorlevel : r.inspect_errorlevel = fr.inspect_errorlevel
  interactive : r.interactive = fr.interactive
  editor : r.editor = fr.editor
  send_event : r.send_event = fr.send_event
  local_lua : r.local_lua = fr.local_lua
  trace : ∃ added, r.trace = fr.trace ++ added ∧ ∀ e ∈ added, event_admissible cmds fr.editor e

/-- The events that neither add to the history nor invoke the editor. -/
def Event.quiet : Event → Prop
  | Event.history_add _ => False
  | Event.host_add_history _ => False
  | Event.editor_edit _ => False
  | _ => True

/-- The line an event hands to the history store's `add`, from `edit_line` itself or
through `host::add_history`. -/
def Event.added_line : Event → Option CStr
  | Event.history_add line => some line
  | Event.host_add_history line => some line
  | _ => none

/-- One call of `host::edit_line` in a run: its inputs and the caller's arguments. -/
structure Cycle where
  env : CycleEnv
  prompt : Option CStr
  rprompt : Option CStr
  out : CStr

/-- The record of one cycle of a run: the session before the call, the call, and the frame
at its return. -/
structure CycleRun where
  before : Session
  cycle : Cycle
  result : Frame

/-- A run: successive calls of `host::edit_line`, each starting from the session the
previous one left behind. -/
def run_cycles : List Cycle → Session → List CycleRun
  | [], _ => []
  | c :: cs, s =>
    ⟨s, c, edit_line c.env s c.prompt c.rprompt c.out⟩
      :: run_cycles cs (edit_line c.env s c.prompt c.rprompt c.out).session

/-- Whether the cycle reaches the errorlevel step (line 633) with `interactive` set. -/
def CycleRun.interactive_at_errorlevel (r : CycleRun) : Bool :=
  (autostart_step r.cycle.env r.before r.cycle.out).interactive

/-- The cycles of a run that reach the errorlevel step as interactive, in order. -/
def errorlevel_cycles (cycles : List Cycle) (s : Session) : List CycleRun :=
  (run_cycles cycles s).filter CycleRun.interactive_at_errorlevel

/-! ## Directory-history snapshot (`host.cpp` lines 561-574) -/

/-- The loop `for (auto const& it : s_dir_history) history[i++] = it.get();` over the
array `history`, whose slots are `none` while uninitialised: the array and `i` at its
end. -/
def copy_dir_history_loop : List CStr → List (Option CStr) → Nat → List (Option CStr) × Nat
  | [], history, i => (history, i)
  | it :: rest, history, i => copy_dir_history_loop rest (history.set i (some it)) (i + 1)

/-- The function `host::copy_dir_history`: `none` for the null result (`*total` is then
left untouched), otherwise the array of `s_dir_history.size()` slots obtained from
`malloc` after the loop, together with the value stored to `*total`. -/
def copy_dir_history (s_dir_history : List CStr) : Option (List (Option CStr) × Nat) :=
  if s_dir_history.length = 0 then none
  else
    some (copy_dir_history_loop s_dir_history (List.replicate s_dir_history.length none) 0)

/-- The calls of the errorlevel step, of the set-up and of the event notifications: none
of them produces, expands, records or rewrites a line. -/
def Event.preparatory : Event → Prop
  | Event.load_scripts => True
  | Event.send_event _ => True
  | Event.filter_prompt => True
  | Event.load_rl_history => True
  | Event.fopen _ => True
  | Event.unlink _ => True
  | Event.set_errorlevel _ => True
  | _ => False

/-- What the errorlevel protocol promises for the consumption cycle, in the words of the
specification: zero when the probe file cannot be opened, otherwise the integer parsed
from its first line. -/
def parsed_exit_status (errfile_content : Option CStr) : Int :=
  match errfile_content with
  | none => 0
  | some content => atoi (content.takeWhile fun c => c ≠ '\n')

/-- Whether the cycle takes the autostart check of line 623, `interactive && s_autostart`,
and so looks the autostart command up. -/
def CycleRun.looks_up_autostart (r : CycleRun) : Bool :=
  initial_interactive r.before && r.before.s_autostart

/-! ## Queued lines (`host.cpp` lines 482-497) -/

/-- The function `host::enqueue_lines`: the loop
`for (auto& line : lines) m_queued_lines.emplace_back(std::move(line));`. -/
def enqueue_lines : List CStr → Session → Session
  | [], s => s
  | line :: lines, s =>
    enqueue_lines lines { s with m_queued_lines := s.m_queued_lines ++ [line] }

/-- The function `host::dequeue_line`: the returned flag, the contents of `out` afterwards
and the session afterwards.  The caller's buffer is a wide string; the assignment converts
the queued text to it, and the model keeps the text. -/
def dequeue_line (s : Session) (out : CStr) : Bool × CStr × Session :=
  match s.m_queued_lines with
  | [] => (false, out, s)
  | front :: queued => (true, front, { s with m_queued_lines := queued })

/-- A sequence of `host::enqueue_lines` calls, one per batch of lines. -/
def enqueue_batches : List (List CStr) → Session → Session
  | [], s => s
  | lines :: batches, s => enqueue_batches batches (enqueue_lines lines s)

/-- Successive calls of `host::dequeue_line`, each on the buffer the previous one left: the
flag and the buffer after every call, oldest first, and the session after the last. -/
def dequeue_lines : Nat → Session → CStr → List (Bool × CStr) × Session
  | 0, s, _ => ([], s)
  | n + 1, s, out =>
    (((dequeue_line s out).1, (dequeue_line s out).2.1)
        :: (dequeue_lines n (dequeue_line s out).2.2 (dequeue_line s out).2.1).1,
      (dequeue_lines n (dequeue_line s out).2.2 (dequeue_line s out).2.1).2)

/-! ## The Lua binding of the line buffer (`rl_buffer_lua.cpp`) -/

/-- A call the binding forwards to the line buffer `m_rl_buffer`. -/
inductive buffer_call
  | set_cursor (pos : Nat)
  | begin_undo_group
  | end_undo_group
  | redraw
  deriving DecidableEq, Repr

/-- The object `rl_buffer_lua`: its counters, the cursor and length of the line buffer it
wraps, and the calls it has forwarded to that buffer, oldest first.  `m_num_undo` is
never negative; it is kept as a natural number, and stays below `2^31` on runs of fewer
than `2^31` calls. -/
structure rl_buffer_lua where
  m_num_undo : Nat
  m_began_output : Bool
  cursor : Nat
  length : Nat
  forwarded : List buffer_call
  deriving DecidableEq, Repr

/-- Modelled from the spec: the constructor with the member initialisers of
`rl_buffer_lua.h`, which is not among the sources: no undo group is open and no output
has begun; the wrapped buffer has the given cursor and length. -/
def rl_buffer_lua.create (cursor length : Nat) : rl_buffer_lua :=
  { m_num_undo := 0, m_began_output := false, cursor := cursor, length := length,
    forwarded := [] }

/-- What a bound C function hands back to Lua: the values it pushed on the stack, oldest
first, and the number of results it returns.  Lua gives the caller the topmost `nresults`
values. -/
structure lua_return where
  pushed : List Int
  nresults : Nat
  deriving DecidableEq, Repr

/-- The result values the Lua caller receives. -/
def lua_return.results (r : lua_return) : List Int :=
  r.pushed.drop (r.pushed.length - r.nresults)

/-- Modelled from the spec: `line_buffer::set_cursor` of `lib/line_buffer.h`, which is not
among the sources; the cursor moves to `pos`, limited to the length of the line. -/
def rl_buffer_lua.buffer_set_cursor (self : rl_buffer_lua) (pos : Nat) : rl_buffer_lua :=
  { self with
    cursor := min pos self.length
    forwarded := self.forwarded ++ [buffer_call.set_cursor pos] }

/-- The method `rl_buffer_lua::set_cursor`.  The argument is what `checkinteger(state, 1,
&isnum)` finds: `none` when it is not a number.  `set` is an `unsigned int`. -/
def rl_buffer_lua.set_cursor (self : rl_buffer_lua) (cursor : Option Int) :
    lua_return × rl_buffer_lua :=
  let old := self.cursor
  match cursor with
  | none => (⟨[], 0⟩, self)
  | some arg =>
    let set := ((arg - 1) % 2 ^ 32).toNat
    -- lua_pushinteger(state, old); return 0;
    (⟨[(old : Int)], 0⟩, self.buffer_set_cursor set)

/-- The method `rl_buffer_lua::get_cursor`, which pushes the cursor and returns 1. -/
def rl_buffer_lua.get_cursor (self : rl_buffer_lua) : lua_return × rl_buffer_lua :=
  (⟨[(self.cursor : Int)], 1⟩, self)

/-- The method `rl_buffer_lua::begin_undo_group`. -/
def rl_buffer_lua.begin_undo_group (self : rl_buffer_lua) : rl_buffer_lua :=
  { self with
    m_num_undo := self.m_num_undo + 1
    forwarded := self.forwarded ++ [buffer_call.begin_undo_group] }

/-- The method `rl_buffer_lua::end_undo_group`. -/
def rl_buffer_lua.end_undo_group (self : rl_buffer_lua) : rl_buffer_lua :=
  if self.m_num_undo > 0 then
    { self with
      m_num_undo := self.m_num_undo - 1
      forwarded := self.forwarded ++ [buffer_call.end_undo_group] }
  else self

/-- The loop `while (m_num_undo > 0) { m_rl_buffer.end_undo_group(); m_num_undo--; }` of
the destructor, by the value of `m_num_undo`. -/
def rl_buffer_lua.end_open_groups : Nat → rl_buffer_lua → rl_buffer_lua
  | 0, self => { self with m_num_undo := 0 }
  | n + 1, self =>
    rl_buffer_lua.end_open_groups n
      { self with forwarded := self.forwarded ++ [buffer_call.end_undo_group] }

/-- The destructor `rl_buffer_lua::~rl_buffer_lua`. -/
def rl_buffer_lua.destroy (self : rl_buffer_lua) : rl_buffer_lua :=
  let self := rl_buffer_lua.end_open_groups self.m_num_undo self
  if self.m_began_output then
    { self with forwarded := self.forwarded ++ [buffer_call.redraw] }
  else self

/-- The two undo-group methods a Lua script can call. -/
inductive undo_method
  | beginundogroup
  | endundogroup
  deriving DecidableEq, Repr

/-- A sequence of `beginundogroup` and `endundogroup` calls on the object. -/
def rl_buffer_lua.call_methods : List undo_method → rl_buffer_lua → rl_buffer_lua
  | [], self => self
  | undo_method.beginundogroup :: calls, self =>
    rl_buffer_lua.call_methods calls self.begin_undo_group
  | undo_method.endundogroup :: calls, self =>
    rl_buffer_lua.call_methods calls self.end_undo_group

/-- The number of undo groups the forwarded calls have opened. -/
def begins (calls : List buffer_call) : Nat :=
  calls.count buffer_call.begin_undo_group

/-- The number of undo groups the forwarded calls have ended. -/
def ends (calls : List buffer_call) : Nat :=
  calls.count buffer_call.end_undo_group

/-! ## The generation cache of the line editor (`line_editor_impl.h`) -/

/-- The struct `line_editor_impl::key_t`: four bit fields of 16 bits. -/
structure key_t where
  word_index : Nat
  word_offset : Nat
  word_length : Nat
  cursor_pos : Nat
  deriving DecidableEq, Repr

/-- A key as the bit fields store it: each value keeps its low 16 bits. -/
def key_t.store (word_index word_offset word_length cursor_pos : Nat) : key_t :=
  ⟨word_index % 2 ^ 16, word_offset % 2 ^ 16, word_length % 2 ^ 16, cursor_pos % 2 ^ 16⟩

/-- The method `key_t::reset`: `memset(this, 0xff, sizeof(*this))`. -/
def key_t.reset : key_t :=
  ⟨0xffff, 0xffff, 0xffff, 0xffff⟩

/-- The literal text of the word a key designates in a line. -/
def word_text (key : key_t) (line : CStr) : CStr :=
  (line.drop key.word_offset).take key.word_length

/-- Modelled from the spec: `line_editor_impl::is_key_same`, declared at lines 119-121 of
`line_editor_impl.h` and defined in `line_editor_impl.cpp`, which is not among the
sources.  The keys are the same when word index, word offset and word length agree, the
cursor position agrees when it is compared, and the literal text of the word is
unchanged. -/
def is_key_same (prev_key : key_t) (prev_line : CStr) (next_key : key_t) (next_line : CStr)
    (compare_cursor : Bool) : Bool :=
  prev_key.word_index == next_key.word_index
    && prev_key.word_offset == next_key.word_offset
    && prev_key.word_length == next_key.word_length
    && (!compare_cursor || prev_key.cursor_pos == next_key.cursor_pos)
    && word_text prev_key prev_line == word_text next_key next_line

/-- The members of `line_editor_impl` behind the generation cache: the key `m_prev_key`,
the buffer `m_prev_generate` (`none` while its pointer is null), the matches `m_matches`,
and how often regeneration ran and generators were called so far. -/
structure generation_cache where
  m_prev_key : key_t
  m_prev_generate : Option CStr
  m_matches : List CStr
  regenerations : Nat
  generator_calls : Nat
  deriving DecidableEq, Repr

/-- The cache after `reset_generate_matches`: the key is reset and no text is cached. -/
def generation_cache.reset : generation_cache :=
  { m_prev_key := key_t.reset, m_prev_generate := none, m_matches := [], regenerations := 0,
    generator_calls := 0 }

/-- Modelled from the spec: the regeneration request of `line_editor_impl::update_internal`,
defined in `line_editor_impl.cpp`, which is not among the sources.  The generation key and
the literal text of the current word are compared with those of the previous invocation;
when both are identical the matches computed before are reused as they are, otherwise the
generators are invoked in registration order, their outputs are concatenated, and the key
and the text are cached. -/
def update_matches (generators : List (CStr → List CStr)) (next_key : key_t) (line : CStr)
    (cache : generation_cache) : generation_cache :=
  match cache.m_prev_generate with
  | some prev_line =>
    if is_key_same cache.m_prev_key prev_line next_key line true then cache
    else
      { m_prev_key := next_key, m_prev_generate := some line
        m_matches := generators.flatMap fun generator => generator line
        regenerations := cache.regenerations + 1
        generator_calls := cache.generator_calls + generators.length }
  | none =>
    { m_prev_key := next_key, m_prev_generate := some line
      m_matches := generators.flatMap fun generator => generator line
      regenerations := cache.regenerations + 1
      generator_calls := cache.generator_calls + generators.length }

/-- A sequence of regeneration requests, one per keystroke, each with the key and the line
collected after that keystroke. -/
def update_matches_each (generators : List (CStr → List CStr)) :
    List (key_t × CStr) → generation_cache → generation_cache
  | [], cache => cache
  | request :: requests, cache =>
    update_matches_each generators requests
      (update_matches generators request.1 request.2 cache)

/-! ## Splitting a paste into lines (`rl_commands.cpp` lines 51-184) -/

/-- The value `paste_crlf_delete` of the enumeration of line 51. -/
def paste_crlf_delete : Nat := 0

/-- The value `paste_crlf_space` of the enumeration of line 51. -/
def paste_crlf_space : Nat := 1

/-- The value `paste_crlf_ampersand` of the enumeration of line 51. -/
def paste_crlf_ampersand : Nat := 2

/-- The value `paste_crlf_crlf` of the enumeration of line 51. -/
def paste_crlf_crlf : Nat := 3

/-- The first loop of `strip_crlf` (lines 101-141), over the characters still to read:
the characters written so far and `has_overflow` at its end.  The write position never
passes the read position, so the text written is kept apart from the text read. -/
def strip_crlf_copy (setting : Nat) : CStr → Bool → CStr → Bool → CStr × Bool
  | [], _, written, has_overflow => (written, has_overflow)
  | c :: read, prev_was_crlf, written, has_overflow =>
    if c ≠ '\n' ∧ c ≠ '\r' then
      strip_crlf_copy setting read false (written ++ [c]) has_overflow
    else if !prev_was_crlf then
      if setting = paste_crlf_space then
        strip_crlf_copy setting read true (written ++ [' ']) has_overflow
      else if setting = paste_crlf_ampersand then
        strip_crlf_copy setting read true (written ++ ['&']) has_overflow
      else if setting = paste_crlf_crlf then
        strip_crlf_copy setting read prev_was_crlf
          (if c = '\n' then written ++ ['\n'] else written) true
      else
        -- paste_crlf_delete, and the default case that falls through to it.
        strip_crlf_copy setting read prev_was_crlf written has_overflow
    else strip_crlf_copy setting read prev_was_crlf written has_overflow

/-- The inner loop of lines 152-163: the characters from `start` up to and including the
first newline, the characters after them, and whether a newline was met. -/
def scan_to_newline : CStr → CStr × CStr × Bool
  | [] => ([], [], false)
  | c :: rest =>
    if c = '\n' then ([c], rest, true)
    else (c :: (scan_to_newline rest).1, (scan_to_newline rest).2.1, (scan_to_newline rest).2.2)

/-- The loop `while (*start)` of lines 149-179, bounded by the number of passes it may
still make (`none` when that bound is used up): the string left at `line`, the overflow
list and `done` at its end.  The first piece stays at `line`, cut at its newline by the
NUL written over it; every later piece is appended to the overflow list. -/
def strip_crlf_split : Nat → CStr → Bool → CStr → List CStr → Bool →
    Option (CStr × List CStr × Bool)
  | _, [], _, line, overflow, done => some (line, overflow, done)
  | 0, _ :: _, _, _, _, _ => none
  | passes + 1, c :: rest, first, line, overflow, done =>
    if first then
      strip_crlf_split passes (scan_to_newline (c :: rest)).2.1 false
        (if (scan_to_newline (c :: rest)).2.2 then (scan_to_newline (c :: rest)).1.dropLast
          else line)
        overflow (done || (scan_to_newline (c :: rest)).2.2)
    else
      strip_crlf_split passes (scan_to_newline (c :: rest)).2.1 false line
        (overflow ++ [(scan_to_newline (c :: rest)).1])
        (done || (scan_to_newline (c :: rest)).2.2)

/-- The function `strip_crlf`: the string left at `line`, the overflow list and the value
stored through `_done`.  Every pass of the second loop consumes at least one character, so
the length of the text bounds its passes. -/
def strip_crlf (line : CStr) (overflow : List CStr) (setting : Nat) :
    Option (CStr × List CStr × Bool) :=
  if (strip_crlf_copy setting line false [] false).2 then
    strip_crlf_split (strip_crlf_copy setting line false [] false).1.length
      (strip_crlf_copy setting line false [] false).1 true
      (strip_crlf_copy setting line false [] false).1 overflow false
  else some ((strip_crlf_copy setting line false [] false).1, overflow, false)

/-! ## The token tested for a trailing separator (`host.cpp` lines 302-334) -/

/-- Lines 302-329 of `intercept_directory`: the contents of `tmp` when the test of line 334
reads its last character, `none` when `parse_line_token` fails and the function returns
before. -/
def token_at_separator_test (line : CStr) : Option CStr :=
  match parse_line_token line with
  | (false, _) => none
  | (true, tmp) =>
    some (if count_dots tmp 0 ≥ 2 then concat_updirs (count_dots tmp 0 - 1).toNat [] else tmp)

/-! ## Key binding help (`rl_help.cpp` lines 701-728 and 790-987) -/

/-- The `show_line` of a row of key bindings: the position of its first entry in the
category run (`m_entries` is `collector + index + sub_begin`), `m_count` and `m_step`. -/
structure show_line where
  index : Nat
  m_count : Nat
  m_step : Nat
  deriving DecidableEq, Repr

/-- The loop `for (int i = 0; i < rows; ++i)` of lines 826-833, by the number of rows
still to emit, with the current `i` and `sub_count`. -/
def emit_rows (vertical : Bool) (columns index_step : Nat) : Nat → Nat → Nat → List show_line
  | 0, _, _ => []
  | todo + 1, i, sub_count =>
    ⟨if vertical then i else i * columns, min sub_count columns, index_step⟩
      :: emit_rows vertical columns index_step todo (i + 1) (sub_count - min sub_count columns)

/-- Lines 812-833 for a category run of `sub_count` entries: the rows emitted for it. -/
def category_rows (vertical : Bool) (sub_count columns : Nat) : List show_line :=
  emit_rows vertical columns
    (if vertical then (sub_count + (columns - 1)) / columns else 1)
    ((sub_count + (columns - 1)) / columns) 0 sub_count

/-- The loop `for (int j = line.m_count; j-- > 0;)` of lines 924-987: the positions in the
run of the entries `line.m_entries[index]` it reads, `index` growing by `m_step`. -/
def row_entries (m_step : Nat) : Nat → Nat → List Nat
  | 0, _ => []
  | j + 1, index => index :: row_entries m_step j (index + m_step)

/-- The positions in the run of all the entries the rows of a category reference, in the
order they are printed. -/
def referenced_entries (vertical : Bool) (sub_count columns : Nat) : List Nat :=
  (category_rows vertical sub_count columns).flatMap fun line =>
    row_entries line.m_step line.m_count line.index

/-- The loop of `append_key_macro` over the characters of the macro still to read, with
`clink_wcwidth` as a parameter: `s`, `count` and `ellipsis` at its end.  `count` is an
`unsigned int`.  Lengths are counted in characters; `ellipsis` is always the length of `s`
at a character boundary. -/
def append_key_macro_loop (clink_wcwidth : Char → Int) :
    CStr → CStr → Nat → Nat → CStr × Nat × Nat
  | [], s, count, ellipsis => (s, count, ellipsis)
  | c :: rest, s, count, ellipsis =>
    if count > 30 then (s, count, if count ≤ 27 then s.length else ellipsis)
    else
      append_key_macro_loop clink_wcwidth rest (s ++ [c])
        (((count : Int) + clink_wcwidth c) % 2 ^ 32).toNat
        (if count ≤ 27 then s.length else ellipsis)

/-- The function `append_key_macro`: the contents of `s` afterwards. -/
def append_key_macro (clink_wcwidth : Char → Int) (s macro_text : CStr) : CStr :=
  if (append_key_macro_loop clink_wcwidth macro_text s 0 0).2.1 > 30 then
    (append_key_macro_loop clink_wcwidth macro_text s 0 0).1.take
        (append_key_macro_loop clink_wcwidth macro_text s 0 0).2.2
      ++ "...".toList
  else (append_key_macro_loop clink_wcwidth macro_text s 0 0).1

/-- The display width of a text: the sum of the widths of its characters. -/
def display_width (clink_wcwidth : Char → Int) (text : CStr) : Int :=
  (text.map clink_wcwidth).sum

/-! ## Inputs for concrete runs -/

/-- A file system without directories and without a home directory, for concrete runs. -/
def no_dirs : DirEnv :=
  ⟨fun _ => none, fun _ => false⟩

/-- A file system in which every path names a directory, for concrete runs. -/
def all_dirs : DirEnv :=
  ⟨fun _ => none, fun _ => true⟩

/-- For concrete runs: an editor that accepts the given line. -/
def PassEnv.typed (line : CStr) : PassEnv :=
  { PassEnv.eof with edit := fun _ => (true, line, []) }

/-- For concrete runs: an editor in which `edit_and_execute_command` is invoked on the given
line, which adds it to the history through `host::add_history`, and the line comes back
unchanged from the external editor and is accepted. -/
def PassEnv.edit_and_execute (line : CStr) : PassEnv :=
  { PassEnv.eof with edit := fun _ => (true, line, []), host_add_history := fun _ => [line] }

/-- For concrete runs: a cycle in `C:\work` with the default settings, no autostart
command, a probe file holding `3`, every path a directory, and a doskey alias `exit` that
expands to `echo bye`. -/
def CycleEnv.demo (passes : List PassEnv) : CycleEnv where
  reset := false
  cwd := "C:\\work".toList
  g_get_errorlevel := true
  g_reload_scripts := false
  g_exclude_from_history_cmds := "exit history".toList
  s_prompt_transient := 0
  autostart_command := []
  tmp_errfile := "C:\\tmp\\clink_errorlevel_1A2B.txt".toList
  errfile_content := some "3\n".toList
  stack_buffer := []
  is_script_path_changed := false
  has_saved_history := false
  passes := passes
  filter_input := fun line => line
  doskey_resolve := fun line => if line = "exit".toList then ["echo bye".toList] else []
  dirs := all_dirs

/-- For concrete runs: a session in the middle of a run, whose next interactive cycle
consumes the errorlevel probe and then edits. -/
def Session.editing : Session :=
  { Session.initial with
    s_dir_history := ["C:\\".toList, "C:\\work".toList]
    s_autostart := false
    s_inspect_errorlevel := false
    s_injected := true
    m_lua := true
    m_prompt_filter := true
    m_history := true }

/-- For concrete runs: a call with no prompt texts and an empty buffer. -/
def Cycle.demo (passes : List PassEnv) : Cycle :=
  ⟨CycleEnv.demo passes, none, none, []⟩

/-- For concrete runs: a session in the middle of a run whose next interactive cycle
injects the errorlevel probe, with the given lines queued. -/
def Session.queued (lines : List CStr) : Session :=
  { Session.editing with s_inspect_errorlevel := true, m_queued_lines := lines }

/-! ## Facts about the helpers -/

theorem stricmp_eq_zero_iff (a b : CStr) :
    _stricmp a b = 0 ↔ a.map Char.toLower = b.map Char.toLower := by
  induction a generalizing b with
  | nil => cases b <;> simp [_stricmp]
  | cons x xs ih =>
    cases b with
    | nil => simp [_stricmp]
    | cons y ys =>
      by_cases h : x.toLower = y.toLower
      · simp [_stricmp, h, ih]
      · simp only [_stricmp, h, if_false, List.map_cons, List.cons.injEq, false_and, iff_false]
        split <;> decide

theorem stricmp_self (a : CStr) : _stricmp a a = 0 :=
  (stricmp_eq_zero_iff a a).2 rfl

theorem stricmp_trans {a b c : CStr} (hab : _stricmp a b = 0) (hbc : _stricmp b c = 0) :
    _stricmp a c = 0 :=
  (stricmp_eq_zero_iff a c).2
    (((stricmp_eq_zero_iff a b).1 hab).trans ((stricmp_eq_zero_iff b c).1 hbc))

theorem trim_overflow_eq_drop (l : List CStr) :
    trim_overflow l = l.drop (l.length - c_max_dir_history) := by
  induction l with
  | nil => simp [trim_overflow]
  | cons e rest ih =>
    unfold trim_overflow
    by_cases h : (e :: rest).length > c_max_dir_history
    · rw [if_pos h, ih]
      have h1 : (e :: rest).length - c_max_dir_history
          = (rest.length - c_max_dir_history) + 1 := by
        simp only [List.length_cons] at h ⊢
        omega
      rw [h1, List.drop_succ_cons]
    · rw [if_neg h]
      have h1 : (e :: rest).length - c_max_dir_history = 0 := by omega
      rw [h1, List.drop_zero]

theorem trim_overflow_length_le (l : List CStr) :
    (trim_overflow l).length ≤ c_max_dir_history := by
  rw [trim_overflow_eq_drop, List.length_drop]
  omega

theorem trim_overflow_of_le {l : List CStr} (h : l.length ≤ c_max_dir_history) :
    trim_overflow l = l := by
  rw [trim_overflow_eq_drop, Nat.sub_eq_zero_of_le h, List.drop_zero]

theorem update_dir_history_length_le (cwd : CStr) (ring : List CStr) :
    (update_dir_history cwd ring).length ≤ c_max_dir_history :=
  trim_overflow_length_le _

/-- A push of a directory that is new for the ring (the ring is empty or its tail differs
ignoring case) keeps the last `c_max_dir_history` entries of `ring ++ [cwd]`. -/
theorem update_dir_history_new (cwd : CStr) (ring : List CStr)
    (hnew : ∀ back, ring.getLast? = some back → _stricmp back cwd ≠ 0) :
    update_dir_history cwd ring
      = (ring ++ [cwd]).drop (ring.length + 1 - c_max_dir_history) := by
  unfold update_dir_history
  cases hb : ring.getLast? with
  | none => simp [trim_overflow_eq_drop]
  | some back => simp [hnew back hb, trim_overflow_eq_drop]

/-- A push of a directory equal (ignoring case) to the tail of a ring within capacity
changes nothing. -/
theorem update_dir_history_same (cwd back : CStr) (ring : List CStr)
    (hlen : ring.length ≤ c_max_dir_history)
    (hback : ring.getLast? = some back) (heq : _stricmp back cwd = 0) :
    update_dir_history cwd ring = ring := by
  unfold update_dir_history
  simp [hback, heq, trim_overflow_of_le hlen]

/-- After any push the ring is non-empty and its tail equals the pushed directory
ignoring case. -/
theorem update_dir_history_back (cwd : CStr) (ring : List CStr) :
    ∃ back, (update_dir_history cwd ring).getLast? = some back ∧ _stricmp back cwd = 0 := by
  by_cases hnew : ∀ back, ring.getLast? = some back → _stricmp back cwd ≠ 0
  · refine ⟨cwd, ?_, stricmp_self cwd⟩
    rw [update_dir_history_new cwd ring hnew, List.getLast?_drop]
    have : ¬ ((ring ++ [cwd]).length ≤ ring.length + 1 - c_max_dir_history) := by
      simp only [List.length_append, List.length_singleton, c_max_dir_history]
      omega
    rw [if_neg this]
    simp
  · push_neg at hnew
    obtain ⟨back, hb, he⟩ := hnew
    refine ⟨back, ?_, he⟩
    unfold update_dir_history
    simp only [hb, he, bne_self_eq_false, Bool.false_eq_true, if_false]
    rw [trim_overflow_eq_drop, List.getLast?_drop]
    have hne : ring ≠ [] := by
      intro h; simp [h] at hb
    have hpos : 0 < ring.length := List.length_pos.2 hne
    have : ¬ (ring.length ≤ ring.length - c_max_dir_history) := by
      simp only [c_max_dir_history]
      omega
    rw [if_neg this, hb]

theorem strcmp_eq_zero_iff (a b : CStr) : strcmp a b = 0 ↔ a = b := by
  induction a generalizing b with
  | nil => cases b <;> simp [strcmp]
  | cons x xs ih =>
    cases b with
    | nil => simp [strcmp]
    | cons y ys =>
      by_cases h : x = y
      · simp [strcmp, h, ih]
      · simp only [strcmp, h, if_false, List.cons.injEq, false_and, iff_false]
        split <;> decide

/-- The entry before the last one is what `prev_dir_history` formats. -/
theorem prev_dir_history_of_two_le (ring : List CStr) (inout : CStr) (h : 2 ≤ ring.length) :
    ∃ dir, ring[ring.length - 2]? = some dir ∧ prev_dir_history ring inout = format_cd dir := by
  unfold prev_dir_history
  rw [if_neg (by omega)]
  rcases hr : ring.reverse with _ | ⟨a, _ | ⟨b, rest⟩⟩
  · have := congrArg List.length hr
    simp only [List.length_reverse, List.length_nil] at this
    omega
  · have := congrArg List.length hr
    simp only [List.length_reverse, List.length_cons, List.length_nil] at this
    omega
  · refine ⟨b, ?_, rfl⟩
    have hring : ring = rest.reverse ++ [b, a] := by
      have := congrArg List.reverse hr
      simpa using this
    subst hring
    have hlen : (rest.reverse ++ [b, a]).length - 2 = rest.reverse.length := by simp
    rw [hlen, List.getElem?_append_right (Nat.le_refl _)]
    simp

theorem dropWhile_is_blank_of_all (l : CStr) (h : ∀ c ∈ l, is_blank c = true) :
    l.dropWhile is_blank = [] := by
  induction l with
  | nil => rfl
  | cons c rest ih =>
    have hc : is_blank c = true := h c (List.mem_cons_self _ _)
    rw [List.dropWhile_cons, if_pos hc]
    exact ih fun d hd => h d (List.mem_cons_of_mem _ hd)

/-- Once the first component is over, a run of dots is copied to `out`. -/
theorem parse_line_token_loop_dots (k : Nat) (post out : CStr) :
    parse_line_token_loop (List.replicate k '.' ++ post) false false out
      = parse_line_token_loop post false false (out ++ List.replicate k '.') := by
  induction k generalizing out with
  | zero => simp
  | succ k ih =>
    rw [List.replicate_succ, List.cons_append, parse_line_token_loop]
    have hb : is_blank '.' = false := by decide
    simp only [hb, Bool.false_eq_true, false_and, if_false]
    rw [if_neg (by decide), if_neg (by decide), if_neg (by decide), if_pos (by decide)]
    rw [ih, List.append_assoc]
    rfl

/-- Trailing blanks end a non-empty token successfully. -/
theorem parse_line_token_loop_blanks (post out : CStr) (first_component : Bool)
    (hpost : ∀ c ∈ post, is_blank c = true) (hout : out ≠ []) :
    parse_line_token_loop post false first_component out = (true, out) := by
  have hlen : (out.length != 0) = true := by
    cases out with
    | nil => exact absurd rfl hout
    | cons c t => simp
  cases post with
  | nil => rw [parse_line_token_loop, hlen]
  | cons c rest =>
    have hc : is_blank c = true := hpost c (List.mem_cons_self _ _)
    have hrest : rest.dropWhile is_blank = [] :=
      dropWhile_is_blank_of_all rest fun d hd => hpost d (List.mem_cons_of_mem _ hd)
    rw [parse_line_token_loop]
    simp [hc, hrest, hlen]

/-- A line of `n ≥ 1` dots surrounded by blanks parses to the token of `n` dots. -/
theorem parse_line_token_dots (n : Nat) (pre post : CStr) (hn : 1 ≤ n)
    (hpre : ∀ c ∈ pre, is_blank c = true) (hpost : ∀ c ∈ post, is_blank c = true) :
    parse_line_token (pre ++ List.replicate n '.' ++ post) = (true, List.replicate n '.') := by
  obtain ⟨m, rfl⟩ : ∃ m, n = m + 1 := ⟨n - 1, by omega⟩
  unfold parse_line_token
  rw [List.append_assoc, List.dropWhile_append_of_pos hpre, List.replicate_succ,
    List.cons_append, List.dropWhile_cons, if_neg (by decide), parse_line_token_loop]
  have hb : is_blank '.' = false := by decide
  simp only [hb, Bool.false_eq_true, false_and, if_false]
  rw [if_neg (by decide), if_neg (by decide), if_neg (by decide), if_pos (by decide)]
  simp only [if_true]
  rw [if_neg (by decide), parse_line_token_loop_dots,
    parse_line_token_loop_blanks _ _ _ hpost (by simp)]
  rfl

theorem count_dots_replicate (n : Nat) (m : Int) :
    count_dots (List.replicate n '.') m = m + n := by
  induction n generalizing m with
  | zero => simp [count_dots]
  | succ k ih =>
    rw [List.replicate_succ, count_dots, if_neg (by simp), ih]
    push_cast
    omega

theorem concat_updirs_eq (k : Nat) (tmp : CStr) :
    concat_updirs k tmp = tmp ++ (List.replicate k "..\\".toList).flatten := by
  induction k generalizing tmp with
  | zero => simp [concat_updirs]
  | succ k ih =>
    rw [concat_updirs, ih, List.replicate_succ, List.flatten_cons, List.append_assoc]

/-- Every character of a chain of `..\` components is a dot or a backslash. -/
theorem mem_updirs {k : Nat} {c : Char}
    (h : c ∈ (List.replicate k "..\\".toList).flatten) : c = '.' ∨ c = '\\' := by
  rw [List.mem_flatten] at h
  obtain ⟨l, hl, hc⟩ := h
  rw [List.eq_of_mem_replicate hl] at hc
  simp only [String.toList, List.mem_cons, List.mem_singleton] at hc
  simpa using hc

theorem getLast?_updirs (k : Nat) :
    (List.replicate (k + 1) "..\\".toList).flatten.getLast? = some '\\' := by
  induction k with
  | zero => rfl
  | succ k ih =>
    rw [List.replicate_succ, List.flatten_cons, List.getLast?_append, ih]
    rfl

theorem normalise_separators_updirs (k : Nat) :
    normalise_separators (List.replicate k "..\\".toList).flatten
      = (List.replicate k "..\\".toList).flatten := by
  unfold normalise_separators
  conv_rhs => rw [← List.map_id (List.replicate k "..\\".toList).flatten]
  apply List.map_congr_left
  intro c hc
  rcases mem_updirs hc with rfl | rfl <;> rfl

/-! ### History exclusion -/

theorem stricmp_nil_left (b : CStr) : _stricmp [] b = 0 ↔ b = [] := by
  cases b <;> simp [_stricmp]

theorem stricmp_nil_right (a : CStr) : _stricmp a [] = 0 ↔ a = [] := by
  cases a <;> simp [_stricmp]

theorem stricmp_cons_cons (a b : Char) (as bs : CStr) :
    _stricmp (a :: as) (b :: bs) = 0 ↔ a.toLower = b.toLower ∧ _stricmp as bs = 0 := by
  by_cases h : a.toLower = b.toLower
  · simp [_stricmp, h]
  · simp only [_stricmp, h, if_false, false_and, iff_false]
    split <;> decide

/-- The comparison `_strnicmp(c, token, token.length()) == 0` holds exactly when `c` begins
with a string equal to the token ignoring case. -/
theorem strnicmp_eq_zero_iff (c token : CStr) :
    _strnicmp c token token.length = 0
      ↔ ∃ matched rest, c = matched ++ rest ∧ _stricmp matched token = 0 := by
  induction token generalizing c with
  | nil =>
    simp only [List.length_nil, _strnicmp, true_iff]
    exact ⟨[], c, rfl, rfl⟩
  | cons b bs ih =>
    cases c with
    | nil =>
      simp only [List.length_cons, _strnicmp]
      constructor
      · intro h
        exact absurd h (by decide)
      · rintro ⟨matched, rest, hc, hm⟩
        have hnil : matched = [] := (List.append_eq_nil.1 hc.symm).1
        rw [hnil] at hm
        exact absurd ((stricmp_nil_left _).1 hm) (by simp)
    | cons a as =>
      simp only [List.length_cons, _strnicmp]
      by_cases h : a.toLower = b.toLower
      · rw [if_pos h, ih]
        constructor
        · rintro ⟨matched, rest, hc, hm⟩
          exact ⟨a :: matched, rest, by rw [hc]; rfl, (stricmp_cons_cons _ _ _ _).2 ⟨h, hm⟩⟩
        · rintro ⟨matched, rest, hc, hm⟩
          cases matched with
          | nil => exact absurd ((stricmp_nil_left _).1 hm) (by simp)
          | cons x xs =>
            rw [List.cons_append, List.cons.injEq] at hc
            exact ⟨xs, rest, hc.2, ((stricmp_cons_cons _ _ _ _).1 hm).2⟩
      · rw [if_neg h]
        constructor
        · intro h0
          have hne : (if a.toLower.toNat < b.toLower.toNat then (-1 : Int) else 1) ≠ 0 := by
            split <;> decide
          exact absurd h0 hne
        · rintro ⟨matched, rest, hc, hm⟩
          cases matched with
          | nil => exact absurd ((stricmp_nil_left _).1 hm) (by simp)
          | cons x xs =>
            rw [List.cons_append, List.cons.injEq] at hc
            rw [← hc.1] at hm
            exact absurd ((stricmp_cons_cons _ _ _ _).1 hm).1 h

theorem stricmp_length {a b : CStr} (h : _stricmp a b = 0) : a.length = b.length := by
  have := congrArg List.length ((stricmp_eq_zero_iff a b).1 h)
  simpa using this

/-- The character read right after a matched prefix is the first one of the rest. -/
theorem char_at_after_match {matched token : CStr} (rest : CStr)
    (h : _stricmp matched token = 0) :
    char_at (matched ++ rest) token.length = char_at rest 0 := by
  unfold char_at
  rw [← stricmp_length h, List.getD_eq_getElem?_getD, List.getD_eq_getElem?_getD,
    List.getElem?_append_right (Nat.le_refl _), Nat.sub_self]

/-- The tokeniser yields no empty token. -/
theorem str_tokeniser_ne_nil (delims s token : CStr) :
    ∀ t ∈ str_tokeniser delims s token, t ≠ [] := by
  induction s generalizing token with
  | nil =>
    intro t ht
    unfold str_tokeniser at ht
    split at ht
    · simp at ht
    · rw [List.mem_singleton] at ht
      rw [ht]
      assumption
  | cons c rest ih =>
    intro t ht
    unfold str_tokeniser at ht
    split at ht
    · split at ht
      · exact ih [] t ht
      · rcases List.mem_cons.1 ht with h | h
        · rw [h]
          assumption
        · exact ih [] t h
    · exact ih _ t ht

/-- The loop over the tokens sets `exclude` exactly when some non-empty token matches the
start of `c` ignoring case and is followed by a character that is neither alphanumeric nor
a path separator. -/
theorem exclude_loop_eq_true_iff (tokens : List CStr) (c : CStr) :
    exclude_loop tokens c = true
      ↔ ∃ name ∈ tokens, name ≠ [] ∧ ∃ matched rest, c = matched ++ rest
          ∧ _stricmp matched name = 0
          ∧ isalnum (char_at rest 0) = false ∧ is_separator (char_at rest 0) = false := by
  induction tokens with
  | nil => simp [exclude_loop]
  | cons token tokens ih =>
    have hhead : (token.length != 0 && _strnicmp c token token.length == 0
          && !isalnum (char_at c token.length) && !is_separator (char_at c token.length)) = true
        ↔ token ≠ [] ∧ ∃ matched rest, c = matched ++ rest ∧ _stricmp matched token = 0
          ∧ isalnum (char_at rest 0) = false ∧ is_separator (char_at rest 0) = false := by
      simp only [Bool.and_eq_true, bne_iff_ne, ne_eq, List.length_eq_zero, beq_iff_eq,
        Bool.not_eq_true', strnicmp_eq_zero_iff]
      constructor
      · rintro ⟨⟨⟨hne, matched, rest, hc, hm⟩, ha⟩, hs⟩
        rw [hc, char_at_after_match rest hm] at ha hs
        exact ⟨hne, matched, rest, hc, hm, ha, hs⟩
      · rintro ⟨hne, matched, rest, hc, hm, ha, hs⟩
        rw [← char_at_after_match rest hm, ← hc] at ha hs
        exact ⟨⟨⟨hne, matched, rest, hc, hm⟩, ha⟩, hs⟩
    unfold exclude_loop
    by_cases h : (token.length != 0 && _strnicmp c token token.length == 0
          && !isalnum (char_at c token.length) && !is_separator (char_at c token.length)) = true
    · rw [if_pos h]
      simp only [true_iff]
      exact ⟨token, List.mem_cons_self _ _, hhead.1 h⟩
    · rw [if_neg h, ih]
      constructor
      · rintro ⟨name, hmem, hrest⟩
        exact ⟨name, List.mem_cons_of_mem _ hmem, hrest⟩
      · rintro ⟨name, hmem, hrest⟩
        rcases List.mem_cons.1 hmem with rfl | hmem
        · exact absurd (hhead.2 hrest) h
        · exact ⟨name, hmem, hrest⟩

/-- The exclusion check in terms of the listed names. -/
theorem exclude_from_history_eq_true_iff (cmds line : CStr) :
    exclude_from_history cmds line = true
      ↔ ∃ name ∈ str_tokeniser " ,;".toList cmds [], ∃ matched rest,
          line.dropWhile is_blank = matched ++ rest ∧ _stricmp matched name = 0
          ∧ isalnum (char_at rest 0) = false ∧ is_separator (char_at rest 0) = false := by
  unfold exclude_from_history
  by_cases h : cmds = []
  · subst h
    simp [str_tokeniser]
  · rw [if_pos h, exclude_loop_eq_true_iff]
    constructor
    · rintro ⟨name, hmem, _, hrest⟩
      exact ⟨name, hmem, hrest⟩
    · rintro ⟨name, hmem, hrest⟩
      exact ⟨name, hmem, str_tokeniser_ne_nil _ _ _ name hmem, hrest⟩

/-- First characters of two strings that are equal ignoring case. -/
theorem stricmp_head {a b : Char} {as bs : CStr} (h : _stricmp (a :: as) (b :: bs) = 0) :
    a.toLower = b.toLower :=
  ((stricmp_cons_cons a b as bs).1 h).1

/-- Under the default list `"exit history"`, a line that starts (after blanks, ignoring
case) with one of the two names is excluded exactly when the character after the name is
neither alphanumeric nor a path separator. -/
theorem exclude_default_iff (pre name rest : CStr)
    (hpre : ∀ c ∈ pre, is_blank c = true)
    (hname : _stricmp name "exit".toList = 0 ∨ _stricmp name "history".toList = 0) :
    exclude_from_history g_exclude_from_history_cmds (pre ++ name ++ rest) = true
      ↔ isalnum (char_at rest 0) = false ∧ is_separator (char_at rest 0) = false := by
  have htok : str_tokeniser " ,;".toList g_exclude_from_history_cmds []
      = ["exit".toList, "history".toList] := by decide
  have hexit : "exit".toList = 'e' :: "xit".toList := rfl
  have hhist : "history".toList = 'h' :: "istory".toList := rfl
  cases name with
  | nil =>
    rcases hname with h | h
    · exact absurd ((stricmp_nil_left _).1 h) (by decide)
    · exact absurd ((stricmp_nil_left _).1 h) (by decide)
  | cons a as =>
    have hlow : a.toLower = 'e' ∧ _stricmp (a :: as) "exit".toList = 0
        ∨ a.toLower = 'h' ∧ _stricmp (a :: as) "history".toList = 0 := by
      rcases hname with h | h
      · have h1 : a.toLower = ('e').toLower := stricmp_head (hexit ▸ h)
        exact Or.inl ⟨h1.trans (by decide), h⟩
      · have h1 : a.toLower = ('h').toLower := stricmp_head (hhist ▸ h)
        exact Or.inr ⟨h1.trans (by decide), h⟩
    have hblank : ¬ is_blank a = true := by
      intro hb
      have hc : a = ' ' ∨ a = '\t' := by simpa [is_blank] using hb
      rcases hc with rfl | rfl
      · rcases hlow with h | h <;> exact absurd h.1 (by decide)
      · rcases hlow with h | h <;> exact absurd h.1 (by decide)
    have hdrop : (pre ++ (a :: as) ++ rest).dropWhile is_blank = (a :: as) ++ rest := by
      rw [List.append_assoc, List.dropWhile_append_of_pos hpre, List.cons_append,
        List.dropWhile_cons, if_neg hblank]
    rw [exclude_from_history_eq_true_iff, htok, hdrop]
    constructor
    · rintro ⟨t, ht, matched, rest2, hc, hm, ha, hs⟩
      cases matched with
      | nil =>
        simp only [List.mem_cons, List.mem_singleton, List.not_mem_nil, or_false] at ht
        rcases ht with rfl | rfl <;> exact absurd ((stricmp_nil_left _).1 hm) (by decide)
      | cons x xs =>
        have hx : a = x := by
          rw [List.cons_append, List.cons_append, List.cons.injEq] at hc
          exact hc.1
        subst hx
        have hsame : _stricmp (a :: as) t = 0 := by
          simp only [List.mem_cons, List.mem_singleton, List.not_mem_nil, or_false] at ht
          rcases ht with rfl | rfl
          · rcases hlow with h | h
            · exact h.2
            · have : a.toLower = ('e').toLower := stricmp_head (hexit ▸ hm)
              rw [h.1] at this
              exact absurd this (by decide)
          · rcases hlow with h | h
            · have : a.toLower = ('h').toLower := stricmp_head (hhist ▸ hm)
              rw [h.1] at this
              exact absurd this (by decide)
            · exact h.2
        have hlen : (a :: as).length = (a :: xs).length := by
          rw [stricmp_length hsame, stricmp_length hm]
        have hrest : rest = rest2 := (List.append_inj hc hlen).2
        rw [hrest]
        exact ⟨ha, hs⟩
    · rintro ⟨ha, hs⟩
      rcases hlow with h | h
      · exact ⟨"exit".toList, by simp, a :: as, rest, rfl, h.2, ha, hs⟩
      · exact ⟨"history".toList, by simp, a :: as, rest, rfl, h.2, ha, hs⟩

/-! ### The phases of a cycle -/

theorem Frame.Continues.refl (cmds : CStr) (fr : Frame) : Frame.Continues cmds fr fr :=
  ⟨rfl, rfl, rfl, rfl, rfl, rfl, rfl, rfl, rfl, [], by simp, by simp⟩

theorem Frame.Continues.trans {cmds : CStr} {a b c : Frame}
    (hab : Frame.Continues cmds a b) (hbc : Frame.Continues cmds b c) :
    Frame.Continues cmds a c := by
  obtain ⟨x, hx, hxa⟩ := hab.trace
  obtain ⟨y, hy, hya⟩ := hbc.trace
  refine ⟨hbc.s_inspect_errorlevel.trans hab.s_inspect_errorlevel,
    hbc.s_autostart.trans hab.s_autostart, hbc.errorlevel.trans hab.errorlevel,
    hbc.autostart.trans hab.autostart, hbc.inspect_errorlevel.trans hab.inspect_errorlevel,
    hbc.interactive.trans hab.interactive,
    hbc.editor.trans hab.editor, hbc.send_event.trans hab.send_event,
    hbc.local_lua.trans hab.local_lua, x ++ y, ?_, ?_⟩
  · rw [hy, hx, List.append_assoc]
  · intro e he
    rcases List.mem_append.1 he with h | h
    · exact hxa e h
    · have := hya e h
      rwa [hab.editor] at this

theorem take_queued_line_continues (cmds : CStr) (fr : Frame) :
    Frame.Continues cmds fr (take_queued_line fr).2 := by
  unfold take_queued_line
  split
  · exact Frame.Continues.refl cmds fr
  · exact ⟨rfl, rfl, rfl, rfl, rfl, rfl, rfl, rfl, rfl, [], by simp, by simp⟩

theorem produce_line_continues (cmds : CStr) (pass : PassEnv) (edit : Bool) (fr : Frame) :
    Frame.Continues cmds fr (produce_line pass edit fr) := by
  unfold produce_line
  split_ifs with h1 h2
  · exact ⟨rfl, rfl, rfl, rfl, rfl, rfl, rfl, rfl, rfl, [Event.print fr.out], rfl, by simp [event_admissible]⟩
  · refine ⟨rfl, rfl, rfl, rfl, rfl, rfl, rfl, rfl, rfl, _, rfl, ?_⟩
    intro e he
    rcases List.mem_cons.1 he with rfl | he
    · exact h2
    · obtain ⟨l, -, rfl⟩ := List.mem_map.1 he
      trivial
  · exact ⟨rfl, rfl, rfl, rfl, rfl, rfl, rfl, rfl, rfl, [], by simp, by simp⟩

theorem admit_line_continues (env : CycleEnv) (pass : PassEnv) (fr : Frame) :
    Frame.Continues env.g_exclude_from_history_cmds fr (admit_line env pass fr).2 := by
  unfold admit_line
  by_cases hadd : add_history_decision pass fr.out = true
  · simp only [hadd, if_true]
    split_ifs with h1 h2
    · exact ⟨rfl, rfl, rfl, rfl, rfl, rfl, rfl, rfl, rfl, _, by simp only [List.append_assoc]; rfl,
        by simp [event_admissible]⟩
    · exact ⟨rfl, rfl, rfl, rfl, rfl, rfl, rfl, rfl, rfl, _, by simp only [List.append_assoc]; rfl,
        by simp [event_admissible]⟩
    · exact ⟨rfl, rfl, rfl, rfl, rfl, rfl, rfl, rfl, rfl, _, by simp only [List.append_assoc]; rfl,
        by simpa [event_admissible] using h2⟩
  · simp only [hadd, Bool.false_eq_true, if_false]
    split_ifs with h1 h2
    · exact ⟨rfl, rfl, rfl, rfl, rfl, rfl, rfl, rfl, rfl, _, by simp only [List.append_assoc]; rfl,
        by simp [event_admissible]⟩
    · exact ⟨rfl, rfl, rfl, rfl, rfl, rfl, rfl, rfl, rfl, _, rfl, by simp [event_admissible]⟩
    · exact ⟨rfl, rfl, rfl, rfl, rfl, rfl, rfl, rfl, rfl, _, rfl, by simp [event_admissible]⟩

theorem read_line_continues (env : CycleEnv) (pass : PassEnv) (fr : Frame) :
    Frame.Continues env.g_exclude_from_history_cmds fr (read_line env pass fr).2 := by
  have hline := (take_queued_line_continues env.g_exclude_from_history_cmds fr).trans
    (produce_line_continues env.g_exclude_from_history_cmds pass (take_queued_line fr).1
      (take_queued_line fr).2)
  unfold read_line
  split_ifs with h
  · exact hline
  · exact hline.trans (admit_line_continues env pass _)

theorem enter_pass_continues (env : CycleEnv) (fr : Frame) :
    Frame.Continues env.g_exclude_from_history_cmds fr (enter_pass env fr) :=
  ⟨rfl, rfl, rfl, rfl, rfl, rfl, rfl, rfl, rfl, [], by simp [enter_pass], by simp⟩

theorem edit_pass_continues (env : CycleEnv) (pass : PassEnv) (fr : Frame) :
    Frame.Continues env.g_exclude_from_history_cmds fr (edit_pass env pass fr).2 := by
  unfold edit_pass
  split_ifs with h1 h2
  · exact ⟨rfl, rfl, rfl, rfl, rfl, rfl, rfl, rfl, rfl, [], by simp [stage_autostart], by simp⟩
  · exact ⟨rfl, rfl, rfl, rfl, rfl, rfl, rfl, rfl, rfl, [], by simp [stage_probe], by simp⟩
  · split
    · exact (enter_pass_continues env fr).trans
        ⟨rfl, rfl, rfl, rfl, rfl, rfl, rfl, rfl, rfl, [], by simp [next_alias], by simp⟩
    · exact (enter_pass_continues env fr).trans (read_line_continues env pass _)

theorem edit_loop_continues (env : CycleEnv) (passes : List PassEnv) (fr : Frame) :
    Frame.Continues env.g_exclude_from_history_cmds fr (edit_loop env passes fr) := by
  induction passes generalizing fr with
  | nil => exact edit_pass_continues env PassEnv.eof fr
  | cons pass passes ih =>
    unfold edit_loop
    simp only []
    split_ifs with h
    · exact (edit_pass_continues env pass fr).trans (ih _)
    · exact edit_pass_continues env pass fr

theorem end_edit_events_continues (cmds : CStr) (env : CycleEnv) (fr : Frame) :
    Frame.Continues cmds fr (end_edit_events env fr) := by
  unfold end_edit_events
  split_ifs
  · exact ⟨rfl, rfl, rfl, rfl, rfl, rfl, rfl, rfl, rfl, _, rfl, by simp [event_admissible]⟩
  · exact Frame.Continues.refl cmds fr

theorem resolve_doskey_continues (cmds : CStr) (env : CycleEnv) (fr : Frame) :
    Frame.Continues cmds fr (resolve_doskey env fr) := by
  unfold resolve_doskey
  split_ifs
  · split
    · exact ⟨rfl, rfl, rfl, rfl, rfl, rfl, rfl, rfl, rfl, _, rfl, by simp [event_admissible]⟩
    · exact ⟨rfl, rfl, rfl, rfl, rfl, rfl, rfl, rfl, rfl, _, rfl, by simp [event_admissible]⟩
  · exact Frame.Continues.refl cmds fr

theorem directory_shortcut_continues (cmds : CStr) (env : CycleEnv) (fr : Frame) :
    Frame.Continues cmds fr (directory_shortcut env fr) := by
  unfold directory_shortcut
  split_ifs
  · exact ⟨rfl, rfl, rfl, rfl, rfl, rfl, rfl, rfl, rfl, _, rfl, by simp [event_admissible]⟩
  · exact Frame.Continues.refl cmds fr

theorem cleanup_continues (cmds : CStr) (fr : Frame) :
    Frame.Continues cmds fr (cleanup fr) :=
  ⟨rfl, rfl, rfl, rfl, rfl, rfl, rfl, rfl, rfl, [], by simp [cleanup], by simp⟩

theorem finish_step_continues (cmds : CStr) (env : CycleEnv) (fr : Frame) :
    Frame.Continues cmds fr (finish_step env fr) :=
  (((end_edit_events_continues cmds env fr).trans (resolve_doskey_continues cmds env _)).trans
    (directory_shortcut_continues cmds env _)).trans (cleanup_continues cmds _)

theorem admissible_of_quiet (cmds : CStr) (editor : Bool) {e : Event} (h : e.quiet) :
    event_admissible cmds editor e := by
  cases e <;> trivial

theorem autostart_step_trace (env : CycleEnv) (s : Session) (out : CStr) :
    (autostart_step env s out).trace = [] := by
  unfold autostart_step
  split_ifs <;> rfl

theorem autostart_step_inspect (env : CycleEnv) (s : Session) (out : CStr) :
    (autostart_step env s out).session.s_inspect_errorlevel = s.s_inspect_errorlevel
    ∧ (autostart_step env s out).inspect_errorlevel = false := by
  unfold autostart_step
  split_ifs <;> exact ⟨rfl, rfl⟩

/-- A cycle that is interactive after the autostart check has no autostart text. -/
theorem autostart_step_interactive (env : CycleEnv) (s : Session) (out : CStr)
    (h : (autostart_step env s out).interactive = true) :
    (autostart_step env s out).autostart = [] := by
  unfold autostart_step at h ⊢
  split_ifs at h ⊢
  · exact List.isEmpty_iff.1 h
  · rfl

theorem read_errorlevel_events_quiet (env : CycleEnv) :
    ∀ e ∈ read_errorlevel_events env, e.quiet := by
  unfold read_errorlevel_events
  split <;> simp [Event.quiet]

theorem setup_events_quiet (env : CycleEnv) (interactive : Bool) (s : Session) :
    ∀ e ∈ setup_events env interactive s, e.quiet := by
  intro e he
  unfold setup_events at he
  simp only [List.mem_append] at he
  rcases he with (((he | he) | he) | he) | he <;> split_ifs at he <;>
    first
      | exact absurd he (List.not_mem_nil _)
      | (rw [List.mem_singleton] at he; rw [he]; trivial)

theorem errorlevel_step_trace_quiet (env : CycleEnv) (fr : Frame)
    (h : ∀ e ∈ fr.trace, e.quiet) : ∀ e ∈ (errorlevel_step env fr).trace, e.quiet := by
  unfold errorlevel_step
  split_ifs
  · exact h
  · intro e he
    rcases List.mem_append.1 he with h1 | h1
    · exact h e h1
    · exact read_errorlevel_events_quiet env e h1
  · exact h
  · exact h

theorem setup_session_inspect (env : CycleEnv) (prompt rprompt : Option CStr)
    (interactive : Bool) (s : Session) :
    (setup_session env prompt rprompt interactive s).s_inspect_errorlevel
      = s.s_inspect_errorlevel := by
  unfold setup_session update_last_cwd
  split_ifs <;> rfl

/-- The frame a cycle has when it enters the `while (1)` loop. -/
theorem edit_line_eq (env : CycleEnv) (s : Session) (prompt rprompt : Option CStr)
    (out : CStr) :
    Frame.Continues env.g_exclude_from_history_cmds
      (setup_step env prompt rprompt (errorlevel_step env (autostart_step env s out)))
      (edit_line env s prompt rprompt out) :=
  (edit_loop_continues env env.passes _).trans
    (finish_step_continues env.g_exclude_from_history_cmds env _)

/-- Every call recorded by a cycle is admissible: the lines `edit_line` itself passes to
the history store are not excluded, and the editor is invoked only in a cycle that is
interactive after the errorlevel step. -/
theorem edit_line_trace_admissible (env : CycleEnv) (s : Session)
    (prompt rprompt : Option CStr) (out : CStr) :
    ∀ e ∈ (edit_line env s prompt rprompt out).trace,
      event_admissible env.g_exclude_from_history_cmds
        (errorlevel_step env (autostart_step env s out)).interactive e := by
  obtain ⟨added, htrace, hadd⟩ := (edit_line_eq env s prompt rprompt out).trace
  intro e he
  rw [htrace] at he
  rcases List.mem_append.1 he with h | h
  · apply admissible_of_quiet
    have hq : ∀ e ∈ (errorlevel_step env (autostart_step env s out)).trace, e.quiet :=
      errorlevel_step_trace_quiet env _ (by rw [autostart_step_trace]; simp)
    rcases List.mem_append.1 h with h1 | h1
    · exact hq e h1
    · exact setup_events_quiet env _ _ e h1
  · exact hadd e h

/-- The errorlevel toggle a cycle leaves behind. -/
theorem edit_line_inspect (env : CycleEnv) (s : Session) (prompt rprompt : Option CStr)
    (out : CStr) :
    (edit_line env s prompt rprompt out).session.s_inspect_errorlevel
      = if env.g_get_errorlevel then
          if (autostart_step env s out).interactive then !s.s_inspect_errorlevel
          else s.s_inspect_errorlevel
        else true := by
  rw [(edit_line_eq env s prompt rprompt out).s_inspect_errorlevel]
  show (setup_session env prompt rprompt _ _).s_inspect_errorlevel = _
  rw [setup_session_inspect]
  have h0 := (autostart_step_inspect env s out).1
  unfold errorlevel_step
  split_ifs with h1 h2 h3 <;> simp_all

/-! ### The errorlevel protocol -/

/-- The directory shortcut leaves the errorlevel probe command alone. -/
theorem intercept_directory_probe (dirs : DirEnv) (ring : List CStr) (tmp_errfile : CStr) :
    intercept_directory dirs ring (format_probe tmp_errfile)
      = (false, format_probe tmp_errfile) := by
  have hprobe : format_probe tmp_errfile
      = ' ' :: 'e' :: 'c' :: 'h' :: 'o' :: ' ' :: '%'
        :: ("errorlevel% 2>nul >\"".toList ++ tmp_errfile ++ "\"".toList) := rfl
  have hminus : "-".toList = ['-'] := rfl
  have hcd : "cd -".toList = 'c' :: "d -".toList := rfl
  have hchdir : "chdir -".toList = 'c' :: "hdir -".toList := rfl
  have hparse : parse_line_token (format_probe tmp_errfile) = (false, "echo".toList) := by
    rw [hprobe]
    simp [parse_line_token, parse_line_token_loop, is_blank]
  unfold intercept_directory
  simp only [hparse]
  rw [if_neg]
  rw [hprobe, hminus, hcd, hchdir]
  rintro (h | h | h)
  · revert h
    simp [strcmp]
  · exact absurd (stricmp_head h) (by decide)
  · exact absurd (stricmp_head h) (by decide)

/-- With the probe staged, every pass ends the loop at once. -/
theorem edit_loop_probe (env : CycleEnv) (passes : List PassEnv) (fr : Frame)
    (ha : fr.autostart = []) (hi : fr.inspect_errorlevel = true) :
    edit_loop env passes fr = stage_probe env fr := by
  have hp : ∀ pass, edit_pass env pass fr = (false, stage_probe env fr) := by
    intro pass
    unfold edit_pass
    simp [ha, hi]
  cases passes with
  | nil => simp [edit_loop, hp]
  | cons pass passes => simp [edit_loop, hp]

/-- The flag `inspect_errorlevel` of a cycle. -/
theorem edit_line_inspect_flag (env : CycleEnv) (s : Session) (prompt rprompt : Option CStr)
    (out : CStr) :
    (edit_line env s prompt rprompt out).inspect_errorlevel
      = (env.g_get_errorlevel && (autostart_step env s out).interactive
          && s.s_inspect_errorlevel) := by
  rw [(edit_line_eq env s prompt rprompt out).inspect_errorlevel]
  show (errorlevel_step env (autostart_step env s out)).inspect_errorlevel = _
  obtain ⟨h0, h1⟩ := autostart_step_inspect env s out
  unfold errorlevel_step
  split_ifs with h2 h3 h4 <;> simp_all

/-- An injection cycle: the probe is returned and the editor is not invoked. -/
theorem edit_line_injects (env : CycleEnv) (s : Session) (prompt rprompt : Option CStr)
    (out : CStr) (hon : env.g_get_errorlevel = true)
    (hint : (autostart_step env s out).interactive = true)
    (hs : s.s_inspect_errorlevel = true) :
    (edit_line env s prompt rprompt out).interactive = false
    ∧ (edit_line env s prompt rprompt out).ret = true
    ∧ (edit_line env s prompt rprompt out).out = format_probe env.tmp_errfile
    ∧ ∀ buffer, Event.editor_edit buffer ∉ (edit_line env s prompt rprompt out).trace := by
  have hs0 : (autostart_step env s out).session.s_inspect_errorlevel = true := by
    rw [(autostart_step_inspect env s out).1, hs]
  have hauto := autostart_step_interactive env s out hint
  have hstep : errorlevel_step env (autostart_step env s out)
      = { autostart_step env s out with
          session := { (autostart_step env s out).session with
            s_inspect_errorlevel := !(autostart_step env s out).session.s_inspect_errorlevel }
          inspect_errorlevel := true, interactive := false } := by
    unfold errorlevel_step
    rw [if_pos hon, if_pos hint, if_pos hs0]
  have hi : (errorlevel_step env (autostart_step env s out)).interactive = false := by
    rw [hstep]
  have hie : (errorlevel_step env (autostart_step env s out)).inspect_errorlevel = true := by
    rw [hstep]
  have ha1 : (errorlevel_step env (autostart_step env s out)).autostart = [] := by
    rw [hstep]
    exact hauto
  have hnoedit : ∀ buffer,
      Event.editor_edit buffer ∉ (edit_line env s prompt rprompt out).trace := by
    intro buffer hmem
    have := edit_line_trace_admissible env s prompt rprompt out _ hmem
    rw [hi] at this
    exact absurd this (by simp [event_admissible])
  refine ⟨?_, ?_, ?_, hnoedit⟩
  · rw [(edit_line_eq env s prompt rprompt out).interactive]
    exact hi
  · unfold edit_line
    generalize errorlevel_step env (autostart_step env s out) = f1 at hi hie ha1
    rw [edit_loop_probe env env.passes (setup_step env prompt rprompt f1) ha1 hie]
    simp [finish_step, cleanup, directory_shortcut, resolve_doskey, end_edit_events,
      stage_probe, setup_step, hi, ha1]
  · unfold edit_line
    generalize errorlevel_step env (autostart_step env s out) = f1 at hi hie ha1
    rw [edit_loop_probe env env.passes (setup_step env prompt rprompt f1) ha1 hie]
    simp [finish_step, cleanup, directory_shortcut, resolve_doskey, end_edit_events,
      stage_probe, setup_step, hi, ha1, intercept_directory_probe]

/-- A consumption cycle: the probe file is opened, and deleted when it could be opened. -/
theorem edit_line_consumes (env : CycleEnv) (s : Session) (prompt rprompt : Option CStr)
    (out : CStr) (hon : env.g_get_errorlevel = true)
    (hint : (autostart_step env s out).interactive = true)
    (hs : s.s_inspect_errorlevel = false) :
    Event.fopen env.tmp_errfile ∈ (edit_line env s prompt rprompt out).trace
    ∧ (env.errfile_content ≠ none →
        Event.unlink env.tmp_errfile ∈ (edit_line env s prompt rprompt out).trace) := by
  have hs0 : ¬ (autostart_step env s out).session.s_inspect_errorlevel = true := by
    rw [(autostart_step_inspect env s out).1, hs]
    decide
  obtain ⟨added, htrace, -⟩ := (edit_line_eq env s prompt rprompt out).trace
  have hstep : (errorlevel_step env (autostart_step env s out)).trace
      = read_errorlevel_events env := by
    unfold errorlevel_step
    rw [if_pos hon, if_pos hint, if_neg hs0]
    simp [autostart_step_trace]
  have hsub : ∀ e ∈ read_errorlevel_events env,
      e ∈ (edit_line env s prompt rprompt out).trace := by
    intro e he
    rw [htrace]
    refine List.mem_append_left _ ?_
    show e ∈ (errorlevel_step env (autostart_step env s out)).trace ++ _
    rw [hstep]
    exact List.mem_append_left _ he
  constructor
  · apply hsub
    unfold read_errorlevel_events
    split <;> simp
  · intro hfile
    apply hsub
    unfold read_errorlevel_events
    split
    · simp
    · rename_i h
      exact absurd h hfile

theorem mem_run_cycles {cycles : List Cycle} {s : Session} {r : CycleRun}
    (h : r ∈ run_cycles cycles s) :
    r.cycle ∈ cycles
    ∧ r.result = edit_line r.cycle.env r.before r.cycle.prompt r.cycle.rprompt r.cycle.out := by
  induction cycles generalizing s with
  | nil => simp [run_cycles] at h
  | cons c cs ih =>
    rw [run_cycles, List.mem_cons] at h
    rcases h with rfl | h
    · exact ⟨List.mem_cons_self _ _, rfl⟩
    · exact ⟨List.mem_cons_of_mem _ (ih h).1, (ih h).2⟩

/-- Along a run with errorlevel retrieval enabled, the cycles that reach the errorlevel
step as interactive inject and consume in turn, starting from the toggle of the session. -/
theorem errorlevel_cycles_alternate (cycles : List Cycle) (s : Session)
    (hon : ∀ c ∈ cycles, c.env.g_get_errorlevel = true) (k : Nat) (r : CycleRun)
    (hk : (errorlevel_cycles cycles s)[k]? = some r) :
    r.result.inspect_errorlevel
      = if k % 2 = 0 then s.s_inspect_errorlevel else !s.s_inspect_errorlevel := by
  induction cycles generalizing s k with
  | nil => simp [errorlevel_cycles, run_cycles] at hk
  | cons c cs ih =>
    have hc : c.env.g_get_errorlevel = true := hon c (List.mem_cons_self _ _)
    have hcs : ∀ c ∈ cs, c.env.g_get_errorlevel = true :=
      fun d hd => hon d (List.mem_cons_of_mem _ hd)
    have hflag := edit_line_inspect_flag c.env s c.prompt c.rprompt c.out
    have hnext := edit_line_inspect c.env s c.prompt c.rprompt c.out
    rw [hc] at hflag hnext
    simp only [if_true, Bool.true_and] at hflag hnext
    unfold errorlevel_cycles at hk
    rw [run_cycles, List.filter_cons] at hk
    by_cases hp : (autostart_step c.env s c.out).interactive = true
    · have hp2 : CycleRun.interactive_at_errorlevel
          ⟨s, c, edit_line c.env s c.prompt c.rprompt c.out⟩ = true := hp
      rw [if_pos hp2] at hk
      rw [hp] at hflag hnext
      simp only [if_true, Bool.true_and] at hflag hnext
      cases k with
      | zero =>
        simp only [List.getElem?_cons_zero, Option.some.injEq] at hk
        subst hk
        simpa using hflag
      | succ j =>
        rw [List.getElem?_cons_succ] at hk
        have := ih _ hcs j hk
        rw [this, hnext]
        rcases Nat.mod_two_eq_zero_or_one j with h | h
        · have h2 : (j + 1) % 2 = 1 := by omega
          simp [h, h2]
        · have h2 : (j + 1) % 2 = 0 := by omega
          simp [h, h2]
    · have hp2 : ¬ CycleRun.interactive_at_errorlevel
          ⟨s, c, edit_line c.env s c.prompt c.rprompt c.out⟩ = true := hp
      rw [if_neg hp2] at hk
      rw [if_neg hp] at hnext
      have := ih _ hcs k hk
      rw [this, hnext]

/-! ### A cycle whose line comes from the editor -/

theorem setup_session_fields (env : CycleEnv) (prompt rprompt : Option CStr)
    (interactive : Bool) (s : Session) :
    (setup_session env prompt rprompt interactive s).m_doskey_alias = s.m_doskey_alias
    ∧ (setup_session env prompt rprompt interactive s).m_queued_lines = s.m_queued_lines
    ∧ (setup_session env prompt rprompt interactive s).s_dir_history = s.s_dir_history := by
  unfold setup_session update_last_cwd
  split_ifs <;> exact ⟨rfl, rfl, rfl⟩

/-- The frame with which a cycle enters the loop when no alias is pending, no line is
queued, the autostart check is over and the errorlevel step does not inject. -/
theorem editing_cycle_frame (env : CycleEnv) (s : Session) (prompt rprompt : Option CStr)
    (out : CStr) (halias : s.m_doskey_alias = []) (hqueue : s.m_queued_lines = [])
    (hauto : s.s_autostart = false)
    (herr : env.g_get_errorlevel = false ∨ s.s_inspect_errorlevel = false) :
    (setup_step env prompt rprompt (errorlevel_step env (autostart_step env s out))).autostart
      = []
    ∧ (setup_step env prompt rprompt
        (errorlevel_step env (autostart_step env s out))).inspect_errorlevel = false
    ∧ (setup_step env prompt rprompt
        (errorlevel_step env (autostart_step env s out))).session.m_doskey_alias = []
    ∧ (setup_step env prompt rprompt
        (errorlevel_step env (autostart_step env s out))).session.m_queued_lines = []
    ∧ (setup_step env prompt rprompt
        (errorlevel_step env (autostart_step env s out))).session.s_dir_history
          = s.s_dir_history
    ∧ (setup_step env prompt rprompt (errorlevel_step env (autostart_step env s out))).editor
      = true
    ∧ (setup_step env prompt rprompt
        (errorlevel_step env (autostart_step env s out))).send_event = true
    ∧ (setup_step env prompt rprompt (errorlevel_step env (autostart_step env s out))).out
      = out := by
  have hinit : initial_interactive s = true := by
    simp [initial_interactive, halias, hqueue]
  have h0 : autostart_step env s out = enter_cycle s out := by
    unfold autostart_step
    simp [hauto]
  have h1 : (errorlevel_step env (enter_cycle s out)).autostart = []
      ∧ (errorlevel_step env (enter_cycle s out)).inspect_errorlevel = false
      ∧ (errorlevel_step env (enter_cycle s out)).session.m_doskey_alias = []
      ∧ (errorlevel_step env (enter_cycle s out)).session.m_queued_lines = []
      ∧ (errorlevel_step env (enter_cycle s out)).session.s_dir_history = s.s_dir_history
      ∧ (errorlevel_step env (enter_cycle s out)).interactive = true
      ∧ (errorlevel_step env (enter_cycle s out)).out = out := by
    unfold errorlevel_step
    rcases herr with h | h
    · simp [h, enter_cycle, halias, hqueue, hinit]
    · by_cases hg : env.g_get_errorlevel = true
      · simp [hg, h, enter_cycle, halias, hqueue, hinit]
      · simp [hg, enter_cycle, halias, hqueue, hinit]
  rw [h0]
  obtain ⟨a1, a2, a3, a4, a5, a6, a7⟩ := h1
  obtain ⟨b1, b2, b3⟩ := setup_session_fields env prompt rprompt
    (errorlevel_step env (enter_cycle s out)).interactive
    (errorlevel_step env (enter_cycle s out)).session
  exact ⟨a1, a2, b1.trans a3, b2.trans a4, b3.trans a5, a6, a6, a7⟩

/-- History admission of a line that is on the exclusion list after expansion: the pass
ends without `continue` and without a call of the history store's `add`. -/
theorem admit_line_excluded (env : CycleEnv) (pass : PassEnv) (fr : Frame)
    (hprint : (pass.expand fr.out).1 ≠ expand_result.expand_print)
    (hexcl : exclude_from_history env.g_exclude_from_history_cmds (pass.expand fr.out).2
      = true) :
    admit_line env pass fr
      = (false, { fr with
          out := (pass.expand fr.out).2
          trace := fr.trace
            ++ (if add_history_decision pass fr.out then
                [Event.clear_sticky_search_position] else [])
            ++ [Event.history_expand fr.out] }) := by
  unfold admit_line
  by_cases hadd : add_history_decision pass fr.out = true
  · simp [hadd, hprint, hexcl]
  · simp [hadd, hprint, hexcl]

/-! ### Directory-history snapshot -/

/-- The copy loop fills the slots from index `pre.length` on with the remaining entries. -/
theorem copy_dir_history_loop_eq (pre rest : List CStr) :
    copy_dir_history_loop rest (pre.map some ++ List.replicate rest.length none) pre.length
      = ((pre ++ rest).map some, pre.length + rest.length) := by
  induction rest generalizing pre with
  | nil => simp [copy_dir_history_loop]
  | cons it rest ih =>
    have hset : (pre.map some ++ List.replicate (it :: rest).length none).set pre.length
          (some it)
        = (pre ++ [it]).map some ++ List.replicate rest.length none := by
      have hlen : (pre.map some).length ≤ pre.length := by simp
      rw [List.set_append_right _ _ hlen]
      simp [List.replicate_succ]
    rw [copy_dir_history_loop, hset]
    have := ih (pre ++ [it])
    simp only [List.length_append, List.length_singleton] at this
    rw [this]
    simp [Nat.add_assoc, Nat.add_comm 1]

/-- Every `return false` of `intercept_directory` leaves `inout` as it was. -/
theorem intercept_directory_false_or_true (env : DirEnv) (ring : List CStr) (line : CStr) :
    intercept_directory env ring line = (false, line)
      ∨ (intercept_directory env ring line).1 = true := by
  unfold intercept_directory
  dsimp only
  split_ifs
  · exact Or.inr rfl
  · split
    · exact Or.inl rfl
    · split_ifs <;> first | exact Or.inl rfl | exact Or.inr rfl

/-- The initial value of `interactive` in terms of the pending alias and the queue. -/
theorem initial_interactive_eq_true_iff (s : Session) :
    initial_interactive s = true
      ↔ s.m_doskey_alias = []
        ∧ (s.m_queued_lines = []
          ∨ ∃ front, s.m_queued_lines = [front] ∧ front.getLast? ≠ some '\n') := by
  have hlast : ∀ front : CStr,
      (front.length == 0 || char_at front (front.length - 1) != '\n') = true
        ↔ front.getLast? ≠ some '\n' := by
    intro front
    rcases List.eq_nil_or_concat front with rfl | ⟨init, last, rfl⟩
    · simp
    · rw [List.concat_eq_append]
      have hget : char_at (init ++ [last]) ((init ++ [last]).length - 1) = last := by
        unfold char_at
        simp [List.getD_eq_getElem?_getD]
      rw [hget]
      simp
  unfold initial_interactive
  rcases hq : s.m_queued_lines with _ | ⟨front, _ | ⟨second, rest⟩⟩
  · simp
  · simp only [Bool.and_eq_true, List.isEmpty_iff, hlast front]
    simp
  · simp

/-! ### The frame at the entry of the loop -/

theorem autostart_step_fields (env : CycleEnv) (s : Session) (out : CStr) :
    (autostart_step env s out).out = out
    ∧ (autostart_step env s out).session.m_doskey_alias = s.m_doskey_alias
    ∧ (autostart_step env s out).session.m_queued_lines = s.m_queued_lines
    ∧ (autostart_step env s out).session.s_dir_history = s.s_dir_history
    ∧ (autostart_step env s out).resolved = false
    ∧ (autostart_step env s out).ret = false := by
  unfold autostart_step
  split_ifs <;> exact ⟨rfl, rfl, rfl, rfl, rfl, rfl⟩

theorem errorlevel_step_fields (env : CycleEnv) (fr : Frame) :
    (errorlevel_step env fr).out = fr.out
    ∧ (errorlevel_step env fr).session.m_doskey_alias = fr.session.m_doskey_alias
    ∧ (errorlevel_step env fr).session.m_queued_lines = fr.session.m_queued_lines
    ∧ (errorlevel_step env fr).session.s_dir_history = fr.session.s_dir_history
    ∧ (errorlevel_step env fr).resolved = fr.resolved
    ∧ (errorlevel_step env fr).ret = fr.ret
    ∧ (errorlevel_step env fr).autostart = fr.autostart
    ∧ (errorlevel_step env fr).session.s_autostart = fr.session.s_autostart := by
  unfold errorlevel_step
  split_ifs <;> exact ⟨rfl, rfl, rfl, rfl, rfl, rfl, rfl, rfl⟩

/-- What the steps before the loop leave alone: the caller's buffer, the pending alias,
the queue and the directory history; and the locals `resolved` and `ret` are still
false. -/
theorem loop_entry_fields (env : CycleEnv) (s : Session) (prompt rprompt : Option CStr)
    (out : CStr) :
    (setup_step env prompt rprompt (errorlevel_step env (autostart_step env s out))).out = out
    ∧ (setup_step env prompt rprompt
        (errorlevel_step env (autostart_step env s out))).session.m_doskey_alias
      = s.m_doskey_alias
    ∧ (setup_step env prompt rprompt
        (errorlevel_step env (autostart_step env s out))).session.m_queued_lines
      = s.m_queued_lines
    ∧ (setup_step env prompt rprompt
        (errorlevel_step env (autostart_step env s out))).session.s_dir_history
      = s.s_dir_history
    ∧ (setup_step env prompt rprompt
        (errorlevel_step env (autostart_step env s out))).resolved = false
    ∧ (setup_step env prompt rprompt
        (errorlevel_step env (autostart_step env s out))).ret = false := by
  obtain ⟨a1, a2, a3, a4, a5, a6⟩ := autostart_step_fields env s out
  obtain ⟨b1, b2, b3, b4, b5, b6, -, -⟩ := errorlevel_step_fields env (autostart_step env s out)
  obtain ⟨c1, c2, c3⟩ := setup_session_fields env prompt rprompt
    (errorlevel_step env (autostart_step env s out)).interactive
    (errorlevel_step env (autostart_step env s out)).session
  exact ⟨b1.trans a1, c1.trans (b2.trans a2), c2.trans (b3.trans a3), c3.trans (b4.trans a4),
    b5.trans a5, b6.trans a6⟩

/-- The flags of the frame at the entry of the loop: the editor exists and the events are
sent exactly when the cycle is interactive after the errorlevel step. -/
theorem loop_entry_flags (env : CycleEnv) (s : Session) (prompt rprompt : Option CStr)
    (out : CStr) :
    (setup_step env prompt rprompt (errorlevel_step env (autostart_step env s out))).editor
      = (errorlevel_step env (autostart_step env s out)).interactive
    ∧ (setup_step env prompt rprompt
        (errorlevel_step env (autostart_step env s out))).send_event
      = (errorlevel_step env (autostart_step env s out)).interactive
    ∧ (setup_step env prompt rprompt
        (errorlevel_step env (autostart_step env s out))).interactive
      = (errorlevel_step env (autostart_step env s out)).interactive
    ∧ (setup_step env prompt rprompt
        (errorlevel_step env (autostart_step env s out))).autostart
      = (autostart_step env s out).autostart
    ∧ (setup_step env prompt rprompt
        (errorlevel_step env (autostart_step env s out))).inspect_errorlevel
      = (errorlevel_step env (autostart_step env s out)).inspect_errorlevel :=
  ⟨rfl, rfl, rfl, (errorlevel_step_fields env _).2.2.2.2.2.2.1, rfl⟩

theorem preparatory_quiet {e : Event} (h : e.preparatory) : e.quiet := by
  cases e <;> trivial

theorem read_errorlevel_events_preparatory (env : CycleEnv) :
    ∀ e ∈ read_errorlevel_events env, e.preparatory := by
  unfold read_errorlevel_events
  split <;> simp [Event.preparatory]

theorem setup_events_preparatory (env : CycleEnv) (interactive : Bool) (s : Session) :
    ∀ e ∈ setup_events env interactive s, e.preparatory := by
  intro e he
  unfold setup_events at he
  simp only [List.mem_append] at he
  rcases he with (((he | he) | he) | he) | he <;> split_ifs at he <;>
    first
      | exact absurd he (List.not_mem_nil _)
      | (rw [List.mem_singleton] at he; rw [he]; trivial)

/-- Everything recorded before the loop is preparatory. -/
theorem loop_entry_trace (env : CycleEnv) (s : Session) (prompt rprompt : Option CStr)
    (out : CStr) :
    ∀ e ∈ (setup_step env prompt rprompt
        (errorlevel_step env (autostart_step env s out))).trace, e.preparatory := by
  intro e he
  rcases List.mem_append.1 he with h1 | h1
  · have h0 := autostart_step_trace env s out
    unfold errorlevel_step at h1
    split_ifs at h1
    · rw [h0] at h1
      exact absurd h1 (List.not_mem_nil _)
    · rw [h0, List.nil_append] at h1
      exact read_errorlevel_events_preparatory env e h1
    · rw [h0] at h1
      exact absurd h1 (List.not_mem_nil _)
    · rw [h0] at h1
      exact absurd h1 (List.not_mem_nil _)
  · exact setup_events_preparatory env _ _ e h1

/-! ### The directory history across a cycle -/

/-- Pushing the same directory again changes nothing. -/
theorem update_dir_history_idem (cwd : CStr) (ring : List CStr) :
    update_dir_history cwd (update_dir_history cwd ring) = update_dir_history cwd ring := by
  obtain ⟨back, hb, he⟩ := update_dir_history_back cwd ring
  exact update_dir_history_same cwd back _ (update_dir_history_length_le cwd ring) hb he

theorem take_queued_line_ring (fr : Frame) :
    (take_queued_line fr).2.session.s_dir_history = fr.session.s_dir_history := by
  unfold take_queued_line
  split <;> rfl

theorem produce_line_ring (pass : PassEnv) (edit : Bool) (fr : Frame) :
    (produce_line pass edit fr).session.s_dir_history = fr.session.s_dir_history := by
  unfold produce_line
  split_ifs <;> rfl

theorem admit_line_ring (env : CycleEnv) (pass : PassEnv) (fr : Frame) :
    (admit_line env pass fr).2.session.s_dir_history = fr.session.s_dir_history := by
  unfold admit_line
  dsimp only
  split_ifs <;> rfl

theorem read_line_ring (env : CycleEnv) (pass : PassEnv) (fr : Frame) :
    (read_line env pass fr).2.session.s_dir_history = fr.session.s_dir_history := by
  unfold read_line
  split_ifs
  · rw [produce_line_ring, take_queued_line_ring]
  · rw [admit_line_ring, produce_line_ring, take_queued_line_ring]

/-- A pass in which nothing is staged pushes the current directory. -/
theorem edit_pass_ring (env : CycleEnv) (pass : PassEnv) (fr : Frame)
    (h1 : fr.autostart = []) (h2 : fr.inspect_errorlevel = false) :
    (edit_pass env pass fr).2.session.s_dir_history
      = update_dir_history env.cwd fr.session.s_dir_history := by
  unfold edit_pass
  simp only [h1, h2, List.length_nil, bne_self_eq_false, Bool.false_eq_true, if_false]
  split
  · rfl
  · rw [read_line_ring]
    rfl

/-- A loop in which nothing is staged pushes the current directory, once in effect. -/
theorem edit_loop_ring (env : CycleEnv) (passes : List PassEnv) (fr : Frame)
    (h1 : fr.autostart = []) (h2 : fr.inspect_errorlevel = false) :
    (edit_loop env passes fr).session.s_dir_history
      = update_dir_history env.cwd fr.session.s_dir_history := by
  induction passes generalizing fr with
  | nil => exact edit_pass_ring env PassEnv.eof fr h1 h2
  | cons pass passes ih =>
    have hc := edit_pass_continues env pass fr
    unfold edit_loop
    dsimp only
    split_ifs
    · rw [ih _ (hc.autostart.trans h1) (hc.inspect_errorlevel.trans h2),
        edit_pass_ring env pass fr h1 h2, update_dir_history_idem]
    · exact edit_pass_ring env pass fr h1 h2

/-- With the autostart text staged, every pass ends the loop at once. -/
theorem edit_loop_autostart (env : CycleEnv) (passes : List PassEnv) (fr : Frame)
    (ha : fr.autostart ≠ []) : edit_loop env passes fr = stage_autostart fr := by
  have hlen : (fr.autostart.length != 0) = true := by
    simpa using ha
  have hp : ∀ pass, edit_pass env pass fr = (false, stage_autostart fr) := by
    intro pass
    unfold edit_pass
    rw [if_pos hlen]
  cases passes with
  | nil => simp [edit_loop, hp]
  | cons pass passes => simp [edit_loop, hp]

theorem finish_step_fields (env : CycleEnv) (fr : Frame) :
    (finish_step env fr).session.s_dir_history = fr.session.s_dir_history
    ∧ (finish_step env fr).session.m_queued_lines = fr.session.m_queued_lines
    ∧ (finish_step env fr).ret = fr.ret := by
  unfold finish_step cleanup directory_shortcut resolve_doskey end_edit_events
  split_ifs <;> (try split) <;> exact ⟨rfl, rfl, rfl⟩

/-- A cycle that looked up a non-empty autostart command is no longer interactive. -/
theorem autostart_step_staged (env : CycleEnv) (s : Session) (out : CStr)
    (h : (autostart_step env s out).autostart ≠ []) :
    (autostart_step env s out).interactive = false
    ∧ (autostart_step env s out).autostart = env.autostart_command
    ∧ (initial_interactive s && s.s_autostart) = true := by
  unfold autostart_step at h ⊢
  split_ifs at h ⊢ with h1
  · refine ⟨?_, rfl, h1⟩
    show env.autostart_command.isEmpty = false
    cases hc : env.autostart_command with
    | nil => exact absurd hc h
    | cons c cs => rfl
  · exact absurd rfl h

theorem errorlevel_step_not_interactive (env : CycleEnv) (fr : Frame)
    (h : fr.interactive = false) :
    (errorlevel_step env fr).interactive = false
    ∧ (errorlevel_step env fr).inspect_errorlevel = fr.inspect_errorlevel := by
  unfold errorlevel_step
  split_ifs <;> simp_all

/-- An autostart cycle: the frame at the return is the staged one after clean-up; no
event is sent, no alias is resolved and the directory shortcut is not applied. -/
theorem edit_line_autostart (env : CycleEnv) (s : Session) (prompt rprompt : Option CStr)
    (out : CStr) (h : (autostart_step env s out).autostart ≠ []) :
    edit_line env s prompt rprompt out
      = cleanup (stage_autostart
          (setup_step env prompt rprompt (errorlevel_step env (autostart_step env s out)))) := by
  obtain ⟨hi, -, -⟩ := autostart_step_staged env s out h
  obtain ⟨e1, e2, e3, e4, e5⟩ := loop_entry_flags env s prompt rprompt out
  rw [(errorlevel_step_not_interactive env _ hi).1] at e2
  rw [← e4] at h
  unfold edit_line
  generalize setup_step env prompt rprompt (errorlevel_step env (autostart_step env s out))
    = fr at e2 h
  rw [edit_loop_autostart env env.passes fr h]
  have hne : fr.autostart.isEmpty = false := by
    cases hc : fr.autostart with
    | nil => exact absurd hc h
    | cons c cs => rfl
  simp [finish_step, directory_shortcut, resolve_doskey, end_edit_events, stage_autostart,
    e2, hne]

/-- A probe-injection cycle: the frame at the return is the staged one after the
directory shortcut, which leaves the probe alone, and the clean-up. -/
theorem edit_line_probe (env : CycleEnv) (s : Session) (prompt rprompt : Option CStr)
    (out : CStr)
    (h : (errorlevel_step env (autostart_step env s out)).inspect_errorlevel = true) :
    edit_line env s prompt rprompt out
      = cleanup
          { stage_probe env
              (setup_step env prompt rprompt (errorlevel_step env (autostart_step env s out)))
            with
            trace := (setup_step env prompt rprompt
                (errorlevel_step env (autostart_step env s out))).trace
              ++ [Event.intercept_directory (format_probe env.tmp_errfile)] } := by
  have hint : (autostart_step env s out).interactive = true := by
    by_contra hn
    have hn2 : (autostart_step env s out).interactive = false := by simpa using hn
    rw [(errorlevel_step_not_interactive env _ hn2).2, (autostart_step_inspect env s out).2]
      at h
    exact absurd h (by decide)
  have hauto := autostart_step_interactive env s out hint
  have h0 := (autostart_step_inspect env s out).2
  have hi : (errorlevel_step env (autostart_step env s out)).interactive = false := by
    unfold errorlevel_step at h ⊢
    split_ifs at h ⊢ <;> simp_all
  obtain ⟨e1, e2, e3, e4, e5⟩ := loop_entry_flags env s prompt rprompt out
  rw [hi] at e2
  rw [hauto] at e4
  rw [h] at e5
  unfold edit_line
  generalize setup_step env prompt rprompt (errorlevel_step env (autostart_step env s out))
    = fr at e2 e4 e5
  rw [edit_loop_probe env env.passes fr e4 e5]
  simp [finish_step, directory_shortcut, resolve_doskey, end_edit_events, stage_probe,
    e2, e4, intercept_directory_probe]

/-! ### The autostart command across a run -/

theorem setup_session_s_autostart (env : CycleEnv) (prompt rprompt : Option CStr)
    (interactive : Bool) (s : Session) :
    (setup_session env prompt rprompt interactive s).s_autostart = s.s_autostart := by
  unfold setup_session update_last_cwd
  split_ifs <;> rfl

/-- The flag `s_autostart` a cycle leaves behind: cleared by the first cycle that starts
interactive. -/
theorem edit_line_s_autostart (env : CycleEnv) (s : Session) (prompt rprompt : Option CStr)
    (out : CStr) :
    (edit_line env s prompt rprompt out).session.s_autostart
      = (s.s_autostart && !initial_interactive s) := by
  rw [(edit_line_eq env s prompt rprompt out).s_autostart]
  show (setup_session env prompt rprompt _ _).s_autostart = _
  rw [setup_session_s_autostart, (errorlevel_step_fields env _).2.2.2.2.2.2.2]
  unfold autostart_step
  split_ifs with h
  · simp only [Bool.and_eq_true] at h
    simp [h.1, h.2]
  · show s.s_autostart = _
    cases h1 : s.s_autostart <;> cases h2 : initial_interactive s <;> simp_all

/-- The local `autostart` of a cycle: the looked-up command, or empty without look-up. -/
theorem edit_line_autostart_local (env : CycleEnv) (s : Session)
    (prompt rprompt : Option CStr) (out : CStr) :
    (edit_line env s prompt rprompt out).autostart
      = if (initial_interactive s && s.s_autostart) = true then env.autostart_command
        else [] := by
  rw [(edit_line_eq env s prompt rprompt out).autostart,
    (loop_entry_flags env s prompt rprompt out).2.2.2.1]
  unfold autostart_step
  split_ifs <;> rfl

/-- Along a run, `s_autostart` is still set before a cycle exactly when it was set at the
start and no earlier cycle started interactive. -/
theorem run_cycles_s_autostart (cycles : List Cycle) (s : Session) (k : Nat) (r : CycleRun)
    (hk : (run_cycles cycles s)[k]? = some r) :
    r.before.s_autostart = true
      ↔ s.s_autostart = true
        ∧ ∀ (j : Nat) (rj : CycleRun), j < k → (run_cycles cycles s)[j]? = some rj →
            initial_interactive rj.before = false := by
  induction cycles generalizing s k with
  | nil => simp [run_cycles] at hk
  | cons c cs ih =>
    rw [run_cycles] at hk ⊢
    cases k with
    | zero =>
      simp only [List.getElem?_cons_zero, Option.some.injEq] at hk
      subst hk
      simp
    | succ k =>
      rw [List.getElem?_cons_succ] at hk
      rw [ih _ k hk, edit_line_s_autostart]
      constructor
      · rintro ⟨h1, h2⟩
        simp only [Bool.and_eq_true, Bool.not_eq_true'] at h1
        refine ⟨h1.1, ?_⟩
        intro j rj hj hrj
        cases j with
        | zero =>
          simp only [List.getElem?_cons_zero, Option.some.injEq] at hrj
          subst hrj
          exact h1.2
        | succ j =>
          rw [List.getElem?_cons_succ] at hrj
          exact h2 j rj (by omega) hrj
      · rintro ⟨h1, h2⟩
        have h0 := h2 0 _ (by omega) (List.getElem?_cons_zero)
        refine ⟨by simp [h1, h0], ?_⟩
        intro j rj hj hrj
        exact h2 (j + 1) rj (by omega) (by rw [List.getElem?_cons_succ]; exact hrj)

theorem not_mem_of_preparatory {trace : List Event} (h : ∀ e ∈ trace, e.preparatory)
    {e : Event} (he : ¬ e.preparatory) : e ∉ trace :=
  fun hmem => he (h e hmem)

/-! ### Lines from the queue and from a failing editor -/

/-- The queue after `enqueue_lines`: the new lines follow the ones already queued. -/
theorem enqueue_lines_queue (lines : List CStr) (s : Session) :
    (enqueue_lines lines s).m_queued_lines = s.m_queued_lines ++ lines := by
  induction lines generalizing s with
  | nil => simp [enqueue_lines]
  | cons line lines ih => simp [enqueue_lines, ih]

/-- The queue after a sequence of `enqueue_lines` calls. -/
theorem enqueue_batches_queue (batches : List (List CStr)) (s : Session) :
    (enqueue_batches batches s).m_queued_lines = s.m_queued_lines ++ batches.flatten := by
  induction batches generalizing s with
  | nil => simp [enqueue_batches]
  | cons lines batches ih => simp [enqueue_batches, ih, enqueue_lines_queue]

/-- As many `dequeue_line` calls as there are queued lines return them front to back and
leave the queue empty. -/
theorem dequeue_lines_queue (queue : List CStr) (s : Session) (out : CStr)
    (h : s.m_queued_lines = queue) :
    (dequeue_lines queue.length s out).1 = queue.map (fun line => (true, line))
    ∧ (dequeue_lines queue.length s out).2.m_queued_lines = [] := by
  induction queue generalizing s out with
  | nil => simpa [dequeue_lines] using h
  | cons front queue ih =>
    have hd : dequeue_line s out = (true, front, { s with m_queued_lines := queue }) := by
      unfold dequeue_line
      rw [h]
    have := ih { s with m_queued_lines := queue } front rfl
    simp only [List.length_cons, dequeue_lines, hd, List.map_cons]
    exact ⟨by rw [this.1], this.2⟩

/-- Appending one forwarded call: the initial segments of the longer list. -/
theorem take_concat_cases (calls : List buffer_call) (call : buffer_call) (k : Nat) :
    (calls ++ [call]).take k = calls.take k ∨ (calls ++ [call]).take k = calls ++ [call] := by
  by_cases hk : k ≤ calls.length
  · left
    rw [List.take_append_of_le_length hk]
  · right
    apply List.take_of_length_le
    simp
    omega

/-- The invariant of the undo counter is kept by `beginundogroup`. -/
theorem begin_undo_group_balance (self : rl_buffer_lua)
    (h1 : begins self.forwarded = ends self.forwarded + self.m_num_undo)
    (h2 : ∀ k, ends (self.forwarded.take k) ≤ begins (self.forwarded.take k)) :
    begins self.begin_undo_group.forwarded
      = ends self.begin_undo_group.forwarded + self.begin_undo_group.m_num_undo
    ∧ ∀ k, ends (self.begin_undo_group.forwarded.take k)
        ≤ begins (self.begin_undo_group.forwarded.take k) := by
  constructor
  · simp only [rl_buffer_lua.begin_undo_group, begins, ends, List.count_append] at h1 ⊢
    simp
    omega
  · intro k
    rcases take_concat_cases self.forwarded buffer_call.begin_undo_group k with h | h
    · simp only [rl_buffer_lua.begin_undo_group, h]
      exact h2 k
    · simp only [rl_buffer_lua.begin_undo_group, h]
      simp only [begins, ends, List.count_append] at h1 ⊢
      simp
      omega

/-- The invariant of the undo counter is kept by `endundogroup`. -/
theorem end_undo_group_balance (self : rl_buffer_lua)
    (h1 : begins self.forwarded = ends self.forwarded + self.m_num_undo)
    (h2 : ∀ k, ends (self.forwarded.take k) ≤ begins (self.forwarded.take k)) :
    begins self.end_undo_group.forwarded
      = ends self.end_undo_group.forwarded + self.end_undo_group.m_num_undo
    ∧ ∀ k, ends (self.end_undo_group.forwarded.take k)
        ≤ begins (self.end_undo_group.forwarded.take k) := by
  unfold rl_buffer_lua.end_undo_group
  split_ifs with hpos
  · constructor
    · simp only [begins, ends, List.count_append] at h1 ⊢
      simp
      omega
    · intro k
      rcases take_concat_cases self.forwarded buffer_call.end_undo_group k with h | h
      · simp only [h]
        exact h2 k
      · simp only [h]
        simp only [begins, ends, List.count_append] at h1 ⊢
        simp
        omega
  · exact ⟨h1, h2⟩

/-- The invariant of the undo counter holds after every sequence of calls, and the
counter grows by at most the number of calls. -/
theorem call_methods_balance (calls : List undo_method) (self : rl_buffer_lua)
    (h1 : begins self.forwarded = ends self.forwarded + self.m_num_undo)
    (h2 : ∀ k, ends (self.forwarded.take k) ≤ begins (self.forwarded.take k)) :
    begins (self.call_methods calls).forwarded
      = ends (self.call_methods calls).forwarded + (self.call_methods calls).m_num_undo
    ∧ (∀ k, ends ((self.call_methods calls).forwarded.take k)
        ≤ begins ((self.call_methods calls).forwarded.take k))
    ∧ (self.call_methods calls).m_num_undo ≤ self.m_num_undo + calls.length
    ∧ (self.call_methods calls).m_began_output = self.m_began_output := by
  induction calls generalizing self with
  | nil => exact ⟨h1, h2, by simp [rl_buffer_lua.call_methods], rfl⟩
  | cons call calls ih =>
    cases call with
    | beginundogroup =>
      obtain ⟨b1, b2⟩ := begin_undo_group_balance self h1 h2
      obtain ⟨i1, i2, i3, i4⟩ := ih self.begin_undo_group b1 b2
      refine ⟨i1, i2, ?_, i4⟩
      simp only [rl_buffer_lua.call_methods, List.length_cons]
      have : self.begin_undo_group.m_num_undo = self.m_num_undo + 1 := rfl
      omega
    | endundogroup =>
      obtain ⟨b1, b2⟩ := end_undo_group_balance self h1 h2
      obtain ⟨i1, i2, i3, i4⟩ := ih self.end_undo_group b1 b2
      refine ⟨i1, i2, ?_, ?_⟩
      · simp only [rl_buffer_lua.call_methods, List.length_cons]
        have : self.end_undo_group.m_num_undo ≤ self.m_num_undo := by
          unfold rl_buffer_lua.end_undo_group
          split_ifs
          · simp
          · exact Nat.le_refl _
        omega
      · simp only [rl_buffer_lua.call_methods]
        rw [i4]
        unfold rl_buffer_lua.end_undo_group
        split_ifs <;> rfl

/-- The loop of the destructor ends every group that is still open. -/
theorem end_open_groups_balance (n : Nat) (self : rl_buffer_lua)
    (h1 : begins self.forwarded = ends self.forwarded + n)
    (h2 : ∀ k, ends (self.forwarded.take k) ≤ begins (self.forwarded.take k)) :
    begins (rl_buffer_lua.end_open_groups n self).forwarded
      = ends (rl_buffer_lua.end_open_groups n self).forwarded
    ∧ (∀ k, ends ((rl_buffer_lua.end_open_groups n self).forwarded.take k)
        ≤ begins ((rl_buffer_lua.end_open_groups n self).forwarded.take k))
    ∧ (rl_buffer_lua.end_open_groups n self).m_began_output = self.m_began_output := by
  induction n generalizing self with
  | zero => exact ⟨by simpa [rl_buffer_lua.end_open_groups] using h1, h2, rfl⟩
  | succ n ih =>
    unfold rl_buffer_lua.end_open_groups
    apply ih
    · simp only [begins, ends, List.count_append] at h1 ⊢
      simp
      omega
    · intro k
      rcases take_concat_cases self.forwarded buffer_call.end_undo_group k with h | h
      · simp only [h]
        exact h2 k
      · simp only [h]
        simp only [begins, ends, List.count_append] at h1 ⊢
        simp
        omega

/-- The destructor leaves as many forwarded ends as begins. -/
theorem destroy_balance (self : rl_buffer_lua)
    (h1 : begins self.forwarded = ends self.forwarded + self.m_num_undo)
    (h2 : ∀ k, ends (self.forwarded.take k) ≤ begins (self.forwarded.take k)) :
    begins self.destroy.forwarded = ends self.destroy.forwarded
    ∧ ∀ k, ends (self.destroy.forwarded.take k) ≤ begins (self.destroy.forwarded.take k) := by
  obtain ⟨e1, e2, -⟩ := end_open_groups_balance self.m_num_undo self h1 h2
  unfold rl_buffer_lua.destroy
  simp only
  split_ifs
  · constructor
    · simp only [begins, ends, List.count_append] at e1 ⊢
      simp
      omega
    · intro k
      rcases take_concat_cases (rl_buffer_lua.end_open_groups self.m_num_undo self).forwarded
        buffer_call.redraw k with h | h
      · simp only [h]
        exact e2 k
      · simp only [h]
        simp only [begins, ends, List.count_append] at e1 ⊢
        simp
        omega
  · exact ⟨e1, e2⟩

/-- The keys and word texts that `is_key_same` accepts with the cursor compared. -/
theorem is_key_same_iff (prev_key : key_t) (prev_line : CStr) (next_key : key_t)
    (next_line : CStr) :
    is_key_same prev_key prev_line next_key next_line true = true
      ↔ prev_key = next_key ∧ word_text prev_key prev_line = word_text next_key next_line := by
  cases prev_key
  cases next_key
  simp [is_key_same, and_assoc]

/-- A request whose key and word text equal the cached ones leaves the cache as it is. -/
theorem update_matches_cached (generators : List (CStr → List CStr)) (key : key_t)
    (line prev_line : CStr) (cache : generation_cache)
    (h1 : cache.m_prev_generate = some prev_line) (h2 : cache.m_prev_key = key)
    (h3 : word_text key prev_line = word_text key line) :
    update_matches generators key line cache = cache := by
  unfold update_matches
  rw [h1]
  simp only
  rw [if_pos]
  rw [is_key_same_iff]
  exact ⟨h2, by rw [h2, h3]⟩

/-- After a request the cache holds the key and the word text of that request, and at
most one regeneration has run. -/
theorem update_matches_caches (generators : List (CStr → List CStr)) (key : key_t)
    (line : CStr) (cache : generation_cache) :
    (∃ prev_line, (update_matches generators key line cache).m_prev_generate = some prev_line
      ∧ word_text key prev_line = word_text key line)
    ∧ (update_matches generators key line cache).m_prev_key = key
    ∧ (update_matches generators key line cache).regenerations ≤ cache.regenerations + 1
    ∧ (update_matches generators key line cache).generator_calls
        ≤ cache.generator_calls + generators.length := by
  unfold update_matches
  cases hprev : cache.m_prev_generate with
  | none => exact ⟨⟨line, rfl, rfl⟩, rfl, Nat.le_refl _, Nat.le_refl _⟩
  | some prev_line =>
    simp only
    by_cases hsame : is_key_same cache.m_prev_key prev_line key line true = true
    · rw [if_pos hsame]
      obtain ⟨hk, ht⟩ := (is_key_same_iff _ _ _ _).1 hsame
      exact ⟨⟨prev_line, hprev, by rw [← ht, hk]⟩, hk, Nat.le_succ _, Nat.le_add_right _ _⟩
    · rw [if_neg hsame]
      exact ⟨⟨line, rfl, rfl⟩, rfl, Nat.le_refl _, Nat.le_refl _⟩

/-- Requests that all carry the cached key and word text leave the cache as it is. -/
theorem update_matches_each_cached (generators : List (CStr → List CStr)) (key : key_t)
    (text : CStr) (requests : List (key_t × CStr)) (cache : generation_cache)
    (prev_line : CStr) (h1 : cache.m_prev_generate = some prev_line)
    (h2 : cache.m_prev_key = key) (h3 : word_text key prev_line = text)
    (hsame : ∀ r ∈ requests, r.1 = key ∧ word_text r.1 r.2 = text) :
    update_matches_each generators requests cache = cache := by
  induction requests with
  | nil => rfl
  | cons request requests ih =>
    obtain ⟨hk, ht⟩ := hsame request (List.mem_cons_self _ _)
    unfold update_matches_each
    rw [hk, update_matches_cached generators key request.2 prev_line cache h1 h2
      (by rw [h3, ← ht, hk])]
    exact ih fun r hr => hsame r (List.mem_cons_of_mem _ hr)

/-- In `crlf` mode the first loop of `strip_crlf` drops every carriage return, keeps every
other character, and sets `has_overflow` when it meets a carriage return or a newline. -/
theorem strip_crlf_copy_crlf (read written : CStr) (has_overflow : Bool) :
    strip_crlf_copy paste_crlf_crlf read false written has_overflow
      = (written ++ read.filter (fun c => c ≠ '\r'),
          has_overflow || read.any (fun c => c = '\n' || c = '\r')) := by
  induction read generalizing written has_overflow with
  | nil => simp [strip_crlf_copy]
  | cons c read ih =>
    simp only [paste_crlf_crlf] at ih
    by_cases hn : c = '\n'
    · subst hn
      simp [strip_crlf_copy, paste_crlf_crlf, paste_crlf_space, paste_crlf_ampersand, ih]
    · by_cases hr : c = '\r'
      · subst hr
        simp [strip_crlf_copy, paste_crlf_crlf, paste_crlf_space, paste_crlf_ampersand, ih]
      · simp [strip_crlf_copy, paste_crlf_crlf, hn, hr, ih]

/-- The inner loop on a text with a newline: the piece is the text before the first
newline together with that newline. -/
theorem scan_to_newline_found (text : CStr) (h : '\n' ∈ text) :
    scan_to_newline text
      = (text.takeWhile (fun c => c ≠ '\n') ++ ['\n'],
          (text.dropWhile (fun c => c ≠ '\n')).tail, true) := by
  induction text with
  | nil => simp at h
  | cons c rest ih =>
    by_cases hc : c = '\n'
    · subst hc
      simp [scan_to_newline]
    · have hrest : '\n' ∈ rest := by
        rcases List.mem_cons.1 h with h1 | h1
        · exact absurd h1.symm hc
        · exact h1
      simp [scan_to_newline, hc, ih hrest]

/-- The inner loop on a text without a newline: the piece is the whole text. -/
theorem scan_to_newline_not_found (text : CStr) (h : '\n' ∉ text) :
    scan_to_newline text = (text, [], false) := by
  induction text with
  | nil => rfl
  | cons c rest ih =>
    have hc : c ≠ '\n' := fun hc => h (by simp [hc])
    have hrest : '\n' ∉ rest := fun hr => h (List.mem_cons_of_mem _ hr)
    simp [scan_to_newline, hc, ih hrest]

/-- No newline before the first newline. -/
theorem not_mem_takeWhile_ne (text : CStr) : '\n' ∉ text.takeWhile (fun c => c ≠ '\n') := by
  intro h
  have := List.mem_takeWhile_imp h
  simp at this

/-- What the inner loop hands to the outer one for a non-empty text: a non-empty piece
that, with the rest, makes up the text, has a newline only as its last character, and ends
in a newline whenever something is left after it. -/
theorem scan_to_newline_piece (c : Char) (text : CStr) :
    (scan_to_newline (c :: text)).1 ≠ []
    ∧ (scan_to_newline (c :: text)).1 ++ (scan_to_newline (c :: text)).2.1 = c :: text
    ∧ '\n' ∉ (scan_to_newline (c :: text)).1.dropLast
    ∧ ((scan_to_newline (c :: text)).2.1 ≠ [] →
        (scan_to_newline (c :: text)).1.getLast? = some '\n')
    ∧ (scan_to_newline (c :: text)).2.1.length ≤ text.length
    ∧ (scan_to_newline (c :: text)).2.2 = decide ('\n' ∈ (scan_to_newline (c :: text)).1) := by
  by_cases h : '\n' ∈ c :: text
  · rw [scan_to_newline_found _ h]
    refine ⟨by simp, ?_, ?_, by simp, ?_, by simp⟩
    · have h1 : List.dropWhile (fun c => decide (c ≠ '\n')) (c :: text) ≠ [] := by
        intro h0
        rw [List.dropWhile_eq_nil_iff] at h0
        have := h0 _ h
        simp at this
      have h2 : (List.dropWhile (fun c => decide (c ≠ '\n')) (c :: text)).head h1 = '\n' := by
        have := List.head_dropWhile_not (fun c => decide (c ≠ '\n')) (c :: text) h1
        simpa using this
      have h3 := List.head_cons_tail _ h1
      rw [h2] at h3
      calc (List.takeWhile (fun c => decide (c ≠ '\n')) (c :: text) ++ ['\n'])
            ++ (List.dropWhile (fun c => decide (c ≠ '\n')) (c :: text)).tail
          = List.takeWhile (fun c => decide (c ≠ '\n')) (c :: text)
            ++ ('\n' :: (List.dropWhile (fun c => decide (c ≠ '\n')) (c :: text)).tail) := by
            simp
        _ = List.takeWhile (fun c => decide (c ≠ '\n')) (c :: text)
            ++ List.dropWhile (fun c => decide (c ≠ '\n')) (c :: text) := by rw [h3]
        _ = c :: text := List.takeWhile_append_dropWhile _ _
    · simp only [List.dropLast_concat]
      exact not_mem_takeWhile_ne _
    · have := (List.dropWhile_suffix (fun c => decide (c ≠ '\n')) (l := c :: text)).length_le
      simp only [List.length_tail, List.length_cons] at this ⊢
      omega
  · rw [scan_to_newline_not_found _ h]
    refine ⟨by simp, by simp, ?_, by simp, by simp, by simp [h]⟩
    intro hmem
    exact h (List.dropLast_subset _ hmem)

/-- The outer loop of `strip_crlf` after its first pass, with enough passes left: every
piece of the text goes to the overflow list, the pieces make up the text, each is
non-empty with a newline only as its last character, and all but the last end in one. -/
theorem strip_crlf_split_rest (passes : Nat) (text line : CStr) (overflow : List CStr)
    (done : Bool) (hpasses : text.length ≤ passes) :
    ∃ pieces,
      strip_crlf_split passes text false line overflow done
        = some (line, overflow ++ pieces, done || decide ('\n' ∈ text))
      ∧ pieces.flatten = text
      ∧ (∀ piece ∈ pieces, piece ≠ [] ∧ '\n' ∉ piece.dropLast)
      ∧ ∀ piece ∈ pieces.dropLast, piece.getLast? = some '\n' := by
  induction passes generalizing text overflow done with
  | zero =>
    have : text = [] := List.length_eq_zero.1 (Nat.le_zero.1 hpasses)
    subst this
    exact ⟨[], by simp [strip_crlf_split], rfl, by simp, by simp⟩
  | succ n ih =>
    cases text with
    | nil => exact ⟨[], by simp [strip_crlf_split], rfl, by simp, by simp⟩
    | cons c rest =>
      obtain ⟨p1, p2, p3, p4, p5, p6⟩ := scan_to_newline_piece c rest
      have hlen : (scan_to_newline (c :: rest)).2.1.length ≤ n := by
        simp only [List.length_cons] at hpasses
        omega
      obtain ⟨pieces, q1, q2, q3, q4⟩ := ih (scan_to_newline (c :: rest)).2.1
        (overflow ++ [(scan_to_newline (c :: rest)).1])
        (done || (scan_to_newline (c :: rest)).2.2) hlen
      refine ⟨(scan_to_newline (c :: rest)).1 :: pieces, ?_, ?_, ?_, ?_⟩
      · rw [strip_crlf_split]
        simp only [Bool.false_eq_true, if_false]
        rw [q1, p6]
        have hmem : decide ('\n' ∈ c :: rest)
            = (decide ('\n' ∈ (scan_to_newline (c :: rest)).1)
              || decide ('\n' ∈ (scan_to_newline (c :: rest)).2.1)) := by
          conv_lhs => rw [← p2]
          simp
        rw [hmem]
        simp [Bool.or_assoc]
      · rw [List.flatten_cons, q2, p2]
      · intro piece hpiece
        rcases List.mem_cons.1 hpiece with h | h
        · rw [h]
          exact ⟨p1, p3⟩
        · exact q3 piece h
      · intro piece hpiece
        cases pieces with
        | nil => simp at hpiece
        | cons first others =>
          rw [List.dropLast_cons_of_ne_nil (List.cons_ne_nil _ _)] at hpiece
          rcases List.mem_cons.1 hpiece with h | h
          · rw [h]
            apply p4
            rw [← q2]
            have := (q3 first (List.mem_cons_self _ _)).1
            cases first with
            | nil => exact absurd rfl this
            | cons a as => simp
          · exact q4 piece h

/-- Dropping the carriage returns and cutting at the first newline commute. -/
theorem takeWhile_filter_cr (text : CStr) :
    (text.filter (fun c => c ≠ '\r')).takeWhile (fun c => c ≠ '\n')
      = (text.takeWhile (fun c => c ≠ '\n')).filter (fun c => c ≠ '\r') := by
  induction text with
  | nil => rfl
  | cons c rest ih =>
    simp only [ne_eq, decide_not] at ih ⊢
    by_cases hr : c = '\r'
    · subst hr
      simp [List.takeWhile_cons, ih]
    · by_cases hn : c = '\n'
      · subst hn
        simp [List.takeWhile_cons]
      · simp [List.takeWhile_cons, hr, hn, ih]

/-- A row with step one references consecutive entries. -/
theorem row_entries_step_one (j index : Nat) : row_entries 1 j index = List.range' index j := by
  induction j generalizing index with
  | zero => rfl
  | succ j ih => rw [row_entries, ih, List.range'_succ]

/-- In horizontal layout the rows still to emit reference the entries still to show, in
order, provided the rows can hold them. -/
theorem emit_rows_horizontal (columns todo i sub_count : Nat)
    (hfit : sub_count ≤ todo * columns) :
    ((emit_rows false columns 1 todo i sub_count).flatMap fun line =>
        row_entries line.m_step line.m_count line.index)
      = List.range' (i * columns) sub_count := by
  induction todo generalizing i sub_count with
  | zero =>
    have : sub_count = 0 := by omega
    subst this
    rfl
  | succ todo ih =>
    rw [emit_rows, List.flatMap_cons, ih]
    · simp only [Bool.false_eq_true, if_false, row_entries_step_one]
      by_cases hle : sub_count ≤ columns
      · rw [Nat.min_eq_left hle, Nat.sub_self]
        simp
      · have hc : columns ≤ sub_count := by omega
        rw [Nat.min_eq_right hc]
        have := List.range'_append (i * columns) columns (sub_count - columns) 1
        rw [Nat.one_mul] at this
        rw [Nat.succ_mul, this]
        congr 1
        omega
    · rw [Nat.succ_mul] at hfit
      omega

/-- The number of rows of a category run holds the run. -/
theorem rows_hold_run (sub_count columns : Nat) (hcolumns : 1 ≤ columns) :
    sub_count ≤ (sub_count + (columns - 1)) / columns * columns := by
  have h1 := Nat.div_add_mod (sub_count + (columns - 1)) columns
  have h2 := Nat.mod_lt (sub_count + (columns - 1)) (by omega : columns > 0)
  rw [Nat.mul_comm]
  omega

/-- The display width of a text whose characters have no negative width. -/
theorem display_width_nonneg (clink_wcwidth : Char → Int) (text : CStr)
    (h : ∀ c ∈ text, 0 ≤ clink_wcwidth c) : 0 ≤ display_width clink_wcwidth text := by
  induction text with
  | nil => simp [display_width]
  | cons c rest ih =>
    have h1 := h c (List.mem_cons_self _ _)
    have h2 := ih fun x hx => h x (List.mem_cons_of_mem _ hx)
    simp only [display_width, List.map_cons, List.sum_cons] at h2 ⊢
    omega

/-- The display width of two texts put together. -/
theorem display_width_append (clink_wcwidth : Char → Int) (a b : CStr) :
    display_width clink_wcwidth (a ++ b)
      = display_width clink_wcwidth a + display_width clink_wcwidth b := by
  simp [display_width]

/-- The loop of `append_key_macro` from any point of the macro text: `pre` has been
appended to the original `s0`, `count` is its width, and `ellipsis` marks a position at
which the appended width was at most 27 as soon as `count` exceeds 27. -/
theorem append_key_macro_loop_spec (clink_wcwidth : Char → Int) (s0 rest pre : CStr)
    (count ellipsis : Nat)
    (hrest : ∀ c ∈ rest, 0 ≤ clink_wcwidth c ∧ clink_wcwidth c ≤ 2)
    (hcount : (count : Int) = display_width clink_wcwidth pre)
    (hmark : count ≤ 27 ∨ ∃ k, k ≤ pre.length ∧ ellipsis = s0.length + k
      ∧ display_width clink_wcwidth (pre.take k) ≤ 27) :
    (display_width clink_wcwidth (pre ++ rest) ≤ 30 →
      (append_key_macro_loop clink_wcwidth rest (s0 ++ pre) count ellipsis).1
          = s0 ++ (pre ++ rest)
        ∧ (append_key_macro_loop clink_wcwidth rest (s0 ++ pre) count ellipsis).2.1 ≤ 30)
    ∧ (30 < display_width clink_wcwidth (pre ++ rest) →
      30 < (append_key_macro_loop clink_wcwidth rest (s0 ++ pre) count ellipsis).2.1
        ∧ ∃ k,
          (append_key_macro_loop clink_wcwidth rest (s0 ++ pre) count ellipsis).1.take
              (append_key_macro_loop clink_wcwidth rest (s0 ++ pre) count ellipsis).2.2
            = s0 ++ (pre ++ rest).take k
          ∧ display_width clink_wcwidth ((pre ++ rest).take k) ≤ 27) := by
  induction rest generalizing pre count ellipsis with
  | nil =>
    simp only [append_key_macro_loop, List.append_nil]
    constructor
    · intro h
      exact ⟨trivial, by omega⟩
    · intro h
      refine ⟨by omega, ?_⟩
      rcases hmark with h27 | ⟨k, hk, he, hw⟩
      · omega
      · exact ⟨k, by rw [he, List.take_append], hw⟩
  | cons c rest ih =>
    have hc := hrest c (List.mem_cons_self _ _)
    have hnonneg : 0 ≤ display_width clink_wcwidth (c :: rest) :=
      display_width_nonneg _ _ fun x hx => (hrest x hx).1
    have happ := display_width_append clink_wcwidth pre (c :: rest)
    rw [append_key_macro_loop]
    by_cases hbreak : count > 30
    · rw [if_pos hbreak, if_neg (by omega)]
      constructor
      · intro h
        omega
      · intro _
        refine ⟨hbreak, ?_⟩
        rcases hmark with h27 | ⟨k, hk, he, hw⟩
        · omega
        · refine ⟨k, ?_, ?_⟩
          · simp only
            rw [he, List.take_append, List.take_append_of_le_length hk]
          · rw [List.take_append_of_le_length hk]
            exact hw
    · rw [if_neg hbreak]
      have hnext : ((((count : Int) + clink_wcwidth c) % 2 ^ 32).toNat : Int)
          = display_width clink_wcwidth (pre ++ [c]) := by
        rw [display_width_append, ← hcount]
        simp only [display_width, List.map_cons, List.map_nil, List.sum_cons, List.sum_nil,
          add_zero]
        omega
      have hmark' : (((count : Int) + clink_wcwidth c) % 2 ^ 32).toNat ≤ 27
          ∨ ∃ k, k ≤ (pre ++ [c]).length
            ∧ (if count ≤ 27 then (s0 ++ pre).length else ellipsis) = s0.length + k
            ∧ display_width clink_wcwidth ((pre ++ [c]).take k) ≤ 27 := by
        right
        by_cases h27 : count ≤ 27
        · refine ⟨pre.length, by simp, by rw [if_pos h27, List.length_append], ?_⟩
          rw [List.take_left']
          · omega
          · rfl
        · rcases hmark with h | ⟨k, hk, he, hw⟩
          · exact absurd h h27
          · refine ⟨k, by rw [List.length_append]; omega, by rw [if_neg h27, he], ?_⟩
            rw [List.take_append_of_le_length hk]
            exact hw
      have := ih (pre ++ [c]) _ _ (fun x hx => hrest x (List.mem_cons_of_mem _ hx)) hnext hmark'
      simp only [List.append_assoc, List.singleton_append] at this
      simpa only [List.append_assoc, List.singleton_append] using this

/-- A token on which the `..\..` loop of `intercept_directory` succeeds is a chain of `..`
components joined by single path separators. -/
theorem dotdot_chain_true (tok : CStr) (h : dotdot_chain tok = true) :
    ∃ seps : List Char, (∀ s ∈ seps, is_separator s = true)
      ∧ tok = "..".toList ++ seps.flatMap fun s => s :: "..".toList := by
  induction tok using dotdot_chain.induct with
  | case1 => exact ⟨[], by simp, rfl⟩
  | case2 s rest hs ih =>
    rw [dotdot_chain, if_pos hs] at h
    obtain ⟨seps, h1, h2⟩ := ih h
    refine ⟨s :: seps, ?_, ?_⟩
    · intro x hx
      rcases List.mem_cons.1 hx with hx | hx
      · rw [hx]
        exact hs
      · exact h1 x hx
    · rw [h2]
      simp
  | case3 s rest hs =>
    rw [dotdot_chain, if_neg hs] at h
    exact absurd h (by decide)
  | case4 tok h1 h2 =>
    rw [dotdot_chain] at h
    · exact absurd h (by decide)
    · exact h1
    · exact h2

/-- The value of `num_dots` after the counting loop: `-1`, or the number of dots of an
all-dots token, a single trailing separator being allowed. -/
theorem count_dots_cases (tok : CStr) (k : Int) :
    count_dots tok k = -1
    ∨ (∃ n, tok = List.replicate n '.' ∧ count_dots tok k = k + n)
    ∨ ∃ n s, tok = List.replicate n '.' ++ [s] ∧ is_separator s = true
        ∧ count_dots tok k = k + n := by
  induction tok generalizing k with
  | nil => exact Or.inr (Or.inl ⟨0, rfl, by simp [count_dots]⟩)
  | cons c rest ih =>
    rw [count_dots]
    by_cases hc : c = '.'
    · subst hc
      rw [if_neg (by simp)]
      rcases ih (k + 1) with h | ⟨n, h1, h2⟩ | ⟨n, s, h1, h2, h3⟩
      · exact Or.inl h
      · refine Or.inr (Or.inl ⟨n + 1, by rw [h1, List.replicate_succ], ?_⟩)
        rw [h2]
        push_cast
        omega
      · refine Or.inr (Or.inr ⟨n + 1, s, by rw [h1, List.replicate_succ, List.cons_append],
          h2, ?_⟩)
        rw [h3]
        push_cast
        omega
    · rw [if_pos hc]
      by_cases hlast : (!is_separator c || decide (rest ≠ [])) = true
      · rw [if_pos hlast]
        exact Or.inl rfl
      · rw [if_neg hlast]
        simp only [Bool.or_eq_true, Bool.not_eq_true', decide_eq_true_eq, not_or,
          Bool.not_eq_false, not_not] at hlast
        refine Or.inr (Or.inr ⟨0, c, by simp [hlast.2], hlast.1, by simp⟩)

/-- A token that neither ends in a separator nor is a run of two or more dots is not
rewritten by the all-dots step. -/
theorem count_dots_lt_two (tok : CStr)
    (hsep : ∀ c, tok.getLast? = some c → is_separator c = false)
    (hdots : ∀ n, 2 ≤ n → tok ≠ List.replicate n '.') :
    ¬ count_dots tok 0 ≥ 2 := by
  intro h
  rcases count_dots_cases tok 0 with h1 | ⟨n, h1, h2⟩ | ⟨n, s, h1, h2, h3⟩
  · omega
  · exact hdots n (by omega) h1
  · have := hsep s (by rw [h1]; simp)
    rw [h2] at this
    exact absurd this (by decide)

/-- A character whose lower-case form is a blank is that blank. -/
theorem toLower_eq_space (c : Char) (h : c.toLower = ' ') : c = ' ' := by
  by_cases hu : 65 ≤ c.toNat ∧ c.toNat ≤ 90
  · exfalso
    have hc : c = Char.ofNat c.toNat := (Char.ofNat_toNat c).symm
    obtain ⟨h1, h2⟩ := hu
    generalize c.toNat = n at hc h1 h2
    subst hc
    interval_cases n <;> revert h <;> decide
  · unfold Char.toLower at h
    simp only [ge_iff_le] at h
    rw [if_neg] at h
    · exact h
    · simpa [Char.toNat] using hu

/-- A character that is a letter up to case is copied to the token by `parse_line_token`,
whatever the quoting. -/
theorem parse_line_token_loop_letter (c : Char) (rest : CStr) (quoted first_component : Bool)
    (out : CStr) (h : c.toLower.isAlpha = true) :
    parse_line_token_loop (c :: rest) quoted first_component out
      = parse_line_token_loop rest quoted first_component (out ++ [c]) := by
  have hne : ∀ k : Char, k.toLower.isAlpha = false → c ≠ k := by
    rintro k hk rfl
    rw [hk] at h
    exact absurd h (by decide)
  have b1 := hne ' ' (by decide)
  have b2 := hne '\t' (by decide)
  have s1 := hne '^' (by decide)
  have s2 := hne '<' (by decide)
  have s3 := hne '|' (by decide)
  have s4 := hne '>' (by decide)
  have s5 := hne '%' (by decide)
  have q1 := hne '@' (by decide)
  have q2 := hne '(' (by decide)
  have q3 := hne ')' (by decide)
  have q4 := hne '&' (by decide)
  have q5 := hne '+' (by decide)
  have q6 := hne '=' (by decide)
  have q7 := hne ';' (by decide)
  have q8 := hne ',' (by decide)
  have d1 := hne '"' (by decide)
  have e1 := hne '.' (by decide)
  have e2 := hne '/' (by decide)
  have e3 := hne '\\' (by decide)
  rw [parse_line_token_loop]
  simp [is_blank, b1, b2, s1, s2, s3, s4, s5, q1, q2, q3, q4, q5, q6, q7, q8, d1, e1, e2, e3]

/-- A line that is, ignoring case, a word of letters followed by ` -` is not a single
token. -/
theorem parse_line_token_loop_word_dash (word line : CStr) (first_component : Bool)
    (out : CStr) (hword : ∀ x ∈ word, x.toLower.isAlpha = true)
    (h : _stricmp line (word ++ " -".toList) = 0) :
    (parse_line_token_loop line false first_component out).1 = false := by
  induction word generalizing line out with
  | nil =>
    cases line with
    | nil => simp [_stricmp] at h
    | cons c rest =>
      obtain ⟨h1, h2⟩ := (stricmp_cons_cons _ _ _ _).1 h
      cases rest with
      | nil => simp [_stricmp] at h2
      | cons d rest =>
        obtain ⟨h3, h4⟩ := (stricmp_cons_cons _ _ _ _).1 h2
        have hc : c = ' ' := toLower_eq_space c h1
        have hd : is_blank d = false := by
          by_cases hb : is_blank d = true
          · simp only [is_blank, Bool.or_eq_true, decide_eq_true_eq] at hb
            rcases hb with rfl | rfl <;> exact absurd h3 (by decide)
          · simpa using hb
        have hd' : ¬ (d = ' ' ∨ d = '\t') := by simpa [is_blank] using hd
        subst hc
        rw [parse_line_token_loop]
        simp [is_blank, List.dropWhile_cons, hd']
  | cons x word ih =>
    cases line with
    | nil => simp [_stricmp] at h
    | cons c rest =>
      obtain ⟨h1, h2⟩ := (stricmp_cons_cons _ _ _ _).1 h
      have hx := hword x (List.mem_cons_self _ _)
      rw [← h1] at hx
      rw [parse_line_token_loop_letter c rest false first_component out hx]
      exact ih rest _ (fun y hy => hword y (List.mem_cons_of_mem _ hy)) h2

/-- The previous-directory commands `cd -` and `chdir -`, in any letter case, are not
single tokens. -/
theorem parse_line_token_word_dash (word line : CStr) (hne : word ≠ [])
    (hword : ∀ x ∈ word, x.toLower.isAlpha = true)
    (h : _stricmp line (word ++ " -".toList) = 0) :
    (parse_line_token line).1 = false := by
  unfold parse_line_token
  cases word with
  | nil => exact absurd rfl hne
  | cons x word =>
    cases line with
    | nil => simp [_stricmp] at h
    | cons c rest =>
      have h1 := ((stricmp_cons_cons _ _ _ _).1 h).1
      have hx := hword x (List.mem_cons_self _ _)
      rw [← h1] at hx
      have hblank : is_blank c = false := by
        by_cases hb : is_blank c = true
        · simp only [is_blank, Bool.or_eq_true, decide_eq_true_eq] at hb
          rcases hb with rfl | rfl <;> exact absurd hx (by decide)
        · simpa using hb
      rw [List.dropWhile_cons, hblank]
      exact parse_line_token_loop_word_dash (x :: word) (c :: rest) true [] hword h

/-- The loop of `parse_line_token` returns true only with a non-empty token. -/
theorem parse_line_token_loop_true (line : CStr) (quoted first_component : Bool)
    (out : CStr) :
    (parse_line_token_loop line quoted first_component out).1 = false
    ∨ (parse_line_token_loop line quoted first_component out).2 ≠ [] := by
  have hend : ∀ out : CStr, ((out.length != 0, out) : Bool × CStr).1 = false
      ∨ ((out.length != 0, out) : Bool × CStr).2 ≠ [] := by
    intro out
    cases out with
    | nil => exact Or.inl rfl
    | cons c t => exact Or.inr (List.cons_ne_nil _ _)
  induction line generalizing quoted first_component out with
  | nil =>
    rw [parse_line_token_loop]
    exact hend out
  | cons c rest ih =>
    rw [parse_line_token_loop]
    split_ifs <;> first
      | exact Or.inl rfl
      | exact hend out
      | exact ih _ _ _

/-- A line of quotes only yields no token. -/
theorem parse_line_token_loop_quotes (n : Nat) (quoted first_component : Bool) :
    parse_line_token_loop (List.replicate n '"') quoted first_component [] = (false, []) := by
  induction n generalizing quoted first_component with
  | zero => rfl
  | succ n ih =>
    rw [List.replicate_succ, parse_line_token_loop]
    simp [is_blank, ih]

/-- The token that reaches the trailing-separator test has a last character. -/
theorem token_at_separator_test_length (line tmp : CStr)
    (h : token_at_separator_test line = some tmp) : 1 ≤ tmp.length := by
  unfold token_at_separator_test at h
  rcases hparse : parse_line_token line with ⟨flag, tok⟩
  rw [hparse] at h
  cases flag with
  | false => simp at h
  | true =>
    simp only [Option.some.injEq] at h
    subst h
    split_ifs with hdots
    · rw [concat_updirs_eq]
      obtain ⟨k, hk⟩ : ∃ k, (count_dots tok 0 - 1).toNat = k + 1 :=
        ⟨(count_dots tok 0 - 1).toNat - 1, by omega⟩
      rw [hk, List.replicate_succ, List.flatten_cons, List.nil_append, List.length_append]
      have : "..\\".toList.length = 3 := rfl
      omega
    · have hne : tok ≠ [] := by
        have := parse_line_token_loop_true (line.dropWhile is_blank) false true []
        unfold parse_line_token at hparse
        rw [hparse] at this
        rcases this with h1 | h1
        · simp at h1
        · exact h1
      cases tok with
      | nil => exact absurd rfl hne
      | cons c t => simp

/-- Every call of `host::edit_line` leaves the prompt pointers null. -/
theorem edit_line_prompt_null (env : CycleEnv) (s : Session) (prompt rprompt : Option CStr)
    (out : CStr) :
    (edit_line env s prompt rprompt out).session.m_prompt = none
    ∧ (edit_line env s prompt rprompt out).session.m_rprompt = none :=
  ⟨rfl, rfl⟩

/-- Along a run that starts with the prompt pointer null, every call starts with it
null. -/
theorem run_cycles_prompt_null (cycles : List Cycle) (s : Session) (hs : s.m_prompt = none) :
    ∀ r ∈ run_cycles cycles s, r.before.m_prompt = none := by
  induction cycles generalizing s with
  | nil => simp [run_cycles]
  | cons c cs ih =>
    intro r hr
    rw [run_cycles, List.mem_cons] at hr
    rcases hr with rfl | hr
    · exact hs
    · exact ih _ (edit_line_prompt_null c.env s c.prompt c.rprompt c.out).1 r hr

/-- Past the previous-directory check, `intercept_directory` works on the token that
reaches the trailing-separator test. -/
theorem intercept_directory_of_token (env : DirEnv) (ring : List CStr) (line : CStr)
    (hprev : ¬ (strcmp line "-".toList = 0 ∨ _stricmp line "cd -".toList = 0
      ∨ _stricmp line "chdir -".toList = 0)) :
    intercept_directory env ring line
      = match token_at_separator_test line with
        | none => (false, line)
        | some tmp =>
          if (!match tmp.getLast? with
              | some c => is_separator c
              | none => false) && !dotdot_chain tmp then (false, line)
          else if !env.is_dir
              (if '~' ∈ (if (match tmp.getLast? with
                    | some c => is_separator c
                    | none => false) then tmp else tmp ++ "\\".toList) then
                match env.tilde_expand (if (match tmp.getLast? with
                    | some c => is_separator c
                    | none => false) then tmp else tmp ++ "\\".toList) with
                | some expanded_path => expanded_path
                | none => (if (match tmp.getLast? with
                    | some c => is_separator c
                    | none => false) then tmp else tmp ++ "\\".toList)
              else (if (match tmp.getLast? with
                    | some c => is_separator c
                    | none => false) then tmp else tmp ++ "\\".toList)) then (false, line)
          else
            (true, format_cd (normalise_separators
              (if '~' ∈ (if (match tmp.getLast? with
                    | some c => is_separator c
                    | none => false) then tmp else tmp ++ "\\".toList) then
                match env.tilde_expand (if (match tmp.getLast? with
                    | some c => is_separator c
                    | none => false) then tmp else tmp ++ "\\".toList) with
                | some expanded_path => expanded_path
                | none => (if (match tmp.getLast? with
                    | some c => is_separator c
                    | none => false) then tmp else tmp ++ "\\".toList)
              else (if (match tmp.getLast? with
                    | some c => is_separator c
                    | none => false) then tmp else tmp ++ "\\".toList)))) := by
  unfold intercept_directory token_at_separator_test
  simp only
  rw [if_neg hprev]
  rcases parse_line_token line with ⟨flag, tok⟩
  cases flag <;> rfl

/-! ### What the passes of the loop record -/

/-- The additions the editor makes through `host::add_history` are not tested against the
exclusion list: in a cycle whose editor runs `edit_and_execute_command` on the line `exit`,
the command hands `exit` to `host::add_history`, hence to the history store, while
`edit_line` itself skips its own addition of the excluded line. -/
theorem editor_add_history_not_screened :
    exclude_from_history "exit history".toList "exit".toList = true
    ∧ (edit_line (CycleEnv.demo [PassEnv.edit_and_execute "exit".toList]) Session.editing
        none none []).ret = true
    ∧ (edit_line (CycleEnv.demo [PassEnv.edit_and_execute "exit".toList]) Session.editing
        none none []).trace[7]? = some (Event.host_add_history "exit".toList)
    ∧ (edit_line (CycleEnv.demo [PassEnv.edit_and_execute "exit".toList]) Session.editing
        none none []).trace.filterMap Event.added_line = ["exit".toList] := by
  decide

/-! ## Claims -/

/-- C1: starting from an empty directory-history ring, after any finite sequence of
`update_dir_history` calls with arbitrary current directories the ring holds at most
100 entries. -/
theorem C1_dir_history_at_most_100 (cwds : List CStr) :
    (cwds.foldl (fun ring cwd => update_dir_history cwd ring) []).length ≤ 100 := by
  induction cwds using List.reverseRecOn with
  | nil => simp
  | append_singleton init cwd _ =>
    rw [List.foldl_append]
    exact update_dir_history_length_le cwd _

/-- C2: for a non-empty ring (within its capacity of 100) whose last entry equals the
current directory ignoring case, `update_dir_history` leaves the ring unchanged; hence a
second push of the same directory in any letter case adds nothing, and two such pushes of
a directory that is new for the ring add exactly one entry (the ring with the directory
appended, cut to its last 100 entries). -/
theorem C2_same_dir_pushed_once (ring : List CStr) (cwd : CStr)
    (hlen : ring.length ≤ c_max_dir_history) :
    (∀ back, ring.getLast? = some back → _stricmp back cwd = 0 →
      update_dir_history cwd ring = ring)
    ∧ (∀ cwd2, _stricmp cwd cwd2 = 0 →
      update_dir_history cwd2 (update_dir_history cwd ring) = update_dir_history cwd ring)
    ∧ (∀ cwd2, _stricmp cwd cwd2 = 0 →
      (∀ back, ring.getLast? = some back → _stricmp back cwd ≠ 0) →
      update_dir_history cwd2 (update_dir_history cwd ring)
        = (ring ++ [cwd]).drop (ring.length + 1 - c_max_dir_history)) := by
  have twice : ∀ cwd2, _stricmp cwd cwd2 = 0 →
      update_dir_history cwd2 (update_dir_history cwd ring) = update_dir_history cwd ring := by
    intro cwd2 h2
    obtain ⟨back, hb, he⟩ := update_dir_history_back cwd ring
    exact update_dir_history_same cwd2 back _ (update_dir_history_length_le cwd ring) hb
      (stricmp_trans he h2)
  refine ⟨fun back hb he => update_dir_history_same cwd back ring hlen hb he, twice, ?_⟩
  intro cwd2 h2 hnew
  rw [twice cwd2 h2, update_dir_history_new cwd ring hnew]

theorem C2_same_dir_pushed_once_witness :
    update_dir_history "c:\\WORK".toList ["C:\\".toList, "C:\\work".toList]
      = ["C:\\".toList, "C:\\work".toList]
    ∧ update_dir_history "C:\\TMP".toList
        (update_dir_history "c:\\tmp".toList ["C:\\".toList, "C:\\work".toList])
      = ["C:\\".toList, "C:\\work".toList, "c:\\tmp".toList] :=
  ⟨(C2_same_dir_pushed_once ["C:\\".toList, "C:\\work".toList] "c:\\WORK".toList
      (by decide)).1 "C:\\work".toList rfl (by decide),
   (C2_same_dir_pushed_once ["C:\\".toList, "C:\\work".toList] "c:\\tmp".toList
      (by decide)).2.2 "C:\\TMP".toList (by decide)
      (fun back hb => by cases hb; decide)⟩

/-- C3: for a ring of at most 100 entries and a current directory that differs (ignoring
case) from the ring's last entry, or an empty ring, `update_dir_history` yields the old ring
with the directory appended as the new last entry; when the old ring already had 100
entries exactly its first entry is dropped and the other 99 keep their order. -/
theorem C3_new_dir_appended (ring : List CStr) (cwd : CStr)
    (hlen : ring.length ≤ c_max_dir_history)
    (hnew : ∀ back, ring.getLast? = some back → _stricmp back cwd ≠ 0) :
    (ring.length < 100 → update_dir_history cwd ring = ring ++ [cwd])
    ∧ (ring.length = 100 → update_dir_history cwd ring = ring.tail ++ [cwd])
    ∧ (update_dir_history cwd ring).getLast? = some cwd := by
  have hupd := update_dir_history_new cwd ring hnew
  have hlt : ring.length < 100 → update_dir_history cwd ring = ring ++ [cwd] := by
    intro h
    have h0 : ring.length + 1 - c_max_dir_history = 0 := by
      simp only [c_max_dir_history]
      omega
    rw [hupd, h0, List.drop_zero]
  have hfull : ring.length = 100 → update_dir_history cwd ring = ring.tail ++ [cwd] := by
    intro h
    have h1 : ring.length + 1 - c_max_dir_history = 1 := by
      simp only [c_max_dir_history]
      omega
    rw [hupd, h1]
    cases ring with
    | nil => simp at h
    | cons e rest => simp
  refine ⟨hlt, hfull, ?_⟩
  have hcases : ring.length < 100 ∨ ring.length = 100 := by
    simp only [c_max_dir_history] at hlen
    omega
  rcases hcases with h | h
  · rw [hlt h]; simp
  · rw [hfull h]; simp

theorem C3_new_dir_appended_witness :
    update_dir_history "D:\\new".toList (List.replicate 100 "C:\\old".toList)
      = List.replicate 99 "C:\\old".toList ++ ["D:\\new".toList] :=
  (C3_new_dir_appended (List.replicate 100 "C:\\old".toList) "D:\\new".toList (by decide)
    (fun back hb => by
      rw [show (List.replicate 100 "C:\\old".toList).getLast? = some "C:\\old".toList
        from by decide] at hb
      cases hb
      decide)).2.1 (by decide)

/-- C4: when the ring has at least two entries, `intercept_directory` on a line that is
exactly "-", or equals "cd -" or "chdir -" ignoring case, returns true and replaces the
line by the change-directory command ` cd /d "<dir>"` for the second-most-recent entry. -/
theorem C4_prev_dir_rewrite (env : DirEnv) (ring : List CStr) (line : CStr)
    (hring : 2 ≤ ring.length)
    (hline : line = "-".toList ∨ _stricmp line "cd -".toList = 0
      ∨ _stricmp line "chdir -".toList = 0) :
    ∃ dir, ring[ring.length - 2]? = some dir ∧
      intercept_directory env ring line
        = (true, " cd /d \"".toList ++ dir ++ "\"".toList) := by
  obtain ⟨dir, hdir, hprev⟩ := prev_dir_history_of_two_le ring line hring
  refine ⟨dir, hdir, ?_⟩
  have hcond : strcmp line "-".toList = 0 ∨ _stricmp line "cd -".toList = 0
      ∨ _stricmp line "chdir -".toList = 0 := by
    rcases hline with h | h
    · exact Or.inl ((strcmp_eq_zero_iff _ _).2 h)
    · exact Or.inr h
  unfold intercept_directory
  simp only [if_pos hcond, hprev]
  rfl

theorem C4_prev_dir_rewrite_witness :
    ∃ dir, ["C:\\".toList, "C:\\src".toList, "C:\\src\\app".toList][3 - 2]? = some dir ∧
      intercept_directory no_dirs ["C:\\".toList, "C:\\src".toList, "C:\\src\\app".toList]
        "ChDir -".toList = (true, " cd /d \"".toList ++ dir ++ "\"".toList) :=
  C4_prev_dir_rewrite no_dirs ["C:\\".toList, "C:\\src".toList, "C:\\src\\app".toList]
    "ChDir -".toList (by decide) (Or.inr (Or.inr (by decide)))

/-- C5 (as stated, refuted): with a single ring entry the line "-" is not left unchanged
by `intercept_directory`; it is cleared and the call reports a rewrite. -/
theorem C5_line_not_unchanged :
    intercept_directory no_dirs ["C:\\".toList] "-".toList = (true, [])
    ∧ (intercept_directory no_dirs ["C:\\".toList] "-".toList).2 ≠ "-".toList
    ∧ (intercept_directory no_dirs ["C:\\".toList] "cd -".toList).2 ≠ "cd -".toList := by
  decide

/-- C5 (amended): when the ring has fewer than two entries, `intercept_directory` on a line
that is exactly "-", or equals "cd -" or "chdir -" ignoring case, returns true and leaves
the line empty, so no change-directory command is produced. -/
theorem C5_prev_dir_short_ring_clears_line (env : DirEnv) (ring : List CStr) (line : CStr)
    (hring : ring.length < 2)
    (hline : line = "-".toList ∨ _stricmp line "cd -".toList = 0
      ∨ _stricmp line "chdir -".toList = 0) :
    intercept_directory env ring line = (true, []) := by
  have hcond : strcmp line "-".toList = 0 ∨ _stricmp line "cd -".toList = 0
      ∨ _stricmp line "chdir -".toList = 0 := by
    rcases hline with h | h
    · exact Or.inl ((strcmp_eq_zero_iff _ _).2 h)
    · exact Or.inr h
  unfold intercept_directory
  simp only [if_pos hcond, prev_dir_history, if_pos hring]

theorem C5_prev_dir_short_ring_clears_line_witness :
    intercept_directory all_dirs ["C:\\Users".toList] "CD -".toList = (true, []) :=
  C5_prev_dir_short_ring_clears_line all_dirs ["C:\\Users".toList] "CD -".toList
    (by decide) (Or.inr (Or.inl (by decide)))

/-- C6: for every `n ≥ 2`, a line of exactly `n` dots, optionally surrounded by spaces and
tabs, is rewritten by `intercept_directory` to ` cd /d "P"` with `P` the string `..\`
repeated `n - 1` times, provided `P` is reported to be an existing directory. -/
theorem C6_dots_rewrite (env : DirEnv) (ring : List CStr) (n : Nat) (pre post : CStr)
    (hn : 2 ≤ n)
    (hpre : ∀ c ∈ pre, c = ' ' ∨ c = '\t') (hpost : ∀ c ∈ post, c = ' ' ∨ c = '\t')
    (hdir : env.is_dir (List.replicate (n - 1) "..\\".toList).flatten = true) :
    intercept_directory env ring (pre ++ List.replicate n '.' ++ post)
      = (true, " cd /d \"".toList ++ (List.replicate (n - 1) "..\\".toList).flatten
          ++ "\"".toList) := by
  have hblank : ∀ l : CStr, (∀ c ∈ l, c = ' ' ∨ c = '\t') → ∀ c ∈ l, is_blank c = true := by
    intro l hl c hc
    rcases hl c hc with rfl | rfl <;> decide
  have hdot : '.' ∈ pre ++ List.replicate n '.' ++ post := by
    refine List.mem_append_left _ (List.mem_append_right _ ?_)
    exact List.mem_replicate.2 ⟨by omega, rfl⟩
  have hlow : '.' ∈ (pre ++ List.replicate n '.' ++ post).map Char.toLower :=
    List.mem_map.2 ⟨'.', hdot, by decide⟩
  have hcond : ¬ (strcmp (pre ++ List.replicate n '.' ++ post) "-".toList = 0
      ∨ _stricmp (pre ++ List.replicate n '.' ++ post) "cd -".toList = 0
      ∨ _stricmp (pre ++ List.replicate n '.' ++ post) "chdir -".toList = 0) := by
    rintro (h | h | h)
    · rw [(strcmp_eq_zero_iff _ _).1 h] at hdot
      revert hdot
      decide
    · rw [(stricmp_eq_zero_iff _ _).1 h] at hlow
      revert hlow
      decide
    · rw [(stricmp_eq_zero_iff _ _).1 h] at hlow
      revert hlow
      decide
  obtain ⟨k, rfl⟩ : ∃ k, n = k + 2 := ⟨n - 2, by omega⟩
  have hcount : count_dots (List.replicate (k + 2) '.') 0 ≥ 2 := by
    rw [count_dots_replicate]
    push_cast
    omega
  have hiter : (count_dots (List.replicate (k + 2) '.') 0 - 1).toNat = k + 1 := by
    rw [count_dots_replicate]
    push_cast
    omega
  have htilde : '~' ∉ (List.replicate (k + 1) "..\\".toList).flatten := by
    intro h
    rcases mem_updirs h with h | h <;> revert h <;> decide
  unfold intercept_directory
  simp only [if_neg hcond,
    parse_line_token_dots (k + 2) pre post (by omega) (hblank pre hpre) (hblank post hpost),
    if_pos hcount, hiter, concat_updirs_eq, List.nil_append, getLast?_updirs]
  have hsep : is_separator '\\' = true := by decide
  simp only [hsep, Bool.not_true, Bool.false_and, Bool.false_eq_true, if_false, if_true,
    if_neg htilde]
  have hk : k + 2 - 1 = k + 1 := rfl
  rw [hk] at hdir ⊢
  simp only [hdir, Bool.not_true, Bool.false_eq_true, if_false, normalise_separators_updirs,
    format_cd]

theorem C6_dots_rewrite_witness :
    intercept_directory all_dirs [] " \t....  ".toList
      = (true, " cd /d \"..\\..\\..\\\"".toList) :=
  C6_dots_rewrite all_dirs [] 4 " \t".toList "  ".toList (by decide) (by decide) (by decide)
    (by decide)

/-- C8 (as stated, refuted): under the default list the lines `exit\` and `exit/b`, where
a path separator follows the name, are not excluded, while `exit.`, where the name is
followed by neither white space nor a separator, is excluded. -/
theorem C8_separator_not_a_boundary :
    exclude_from_history g_exclude_from_history_cmds "exit\\".toList = false
    ∧ exclude_from_history g_exclude_from_history_cmds "exit/b".toList = false
    ∧ exclude_from_history g_exclude_from_history_cmds "exit.".toList = true := by
  decide

/-- C8 (amended): a line is excluded exactly when, after its leading blanks, it starts
(ignoring case) with some name of the list, the names being separated by spaces, commas or
semicolons, and the character right after that name is neither alphanumeric nor a path
separator (end of line, white space, other punctuation).  A name followed by an
alphanumeric character or by a path separator does not exclude the line: under the default
list a line starting with `exit` or `history` is excluded exactly when the next character
is neither, so that `exit\` and `exit/b` are not excluded. -/
theorem C8_exclusion_boundary (cmds line : CStr) :
    (exclude_from_history cmds line = true
      ↔ ∃ name ∈ str_tokeniser " ,;".toList cmds [], ∃ matched rest,
          line.dropWhile is_blank = matched ++ rest ∧ _stricmp matched name = 0
          ∧ isalnum (char_at rest 0) = false ∧ is_separator (char_at rest 0) = false)
    ∧ (∀ pre name rest : CStr, (∀ c ∈ pre, c = ' ' ∨ c = '\t') →
        (_stricmp name "exit".toList = 0 ∨ _stricmp name "history".toList = 0) →
        line = pre ++ name ++ rest →
        (exclude_from_history g_exclude_from_history_cmds line = true
          ↔ isalnum (char_at rest 0) = false ∧ is_separator (char_at rest 0) = false)) := by
  refine ⟨exclude_from_history_eq_true_iff cmds line, ?_⟩
  intro pre name rest hpre hname hline
  subst hline
  refine exclude_default_iff pre name rest ?_ hname
  intro c hc
  rcases hpre c hc with rfl | rfl <;> decide

theorem C8_exclusion_boundary_witness :
    (exclude_from_history g_exclude_from_history_cmds "  Exit/b".toList = true
      ↔ isalnum (char_at "/b".toList 0) = false ∧ is_separator (char_at "/b".toList 0) = false)
    ∧ (exclude_from_history g_exclude_from_history_cmds "history -c".toList = true
      ↔ isalnum (char_at " -c".toList 0) = false
        ∧ is_separator (char_at " -c".toList 0) = false) :=
  ⟨(C8_exclusion_boundary g_exclude_from_history_cmds "  Exit/b".toList).2
      "  ".toList "Exit".toList "/b".toList (by decide) (Or.inl (by decide)) rfl,
   (C8_exclusion_boundary g_exclude_from_history_cmds "history -c".toList).2
      [] "history".toList " -c".toList (by decide) (Or.inr (by decide)) rfl⟩

/-- C10: with errorlevel retrieval enabled throughout, the cycles of a run that reach the
errorlevel step as interactive alternate strictly, the first one injecting the probe: an
injection cycle becomes non-interactive and returns the hidden command
` echo %errorlevel% 2>nul >"<tmpfile>"` without invoking the editor, and the next such
cycle is a consumption cycle, which opens the temp file and deletes it once read. -/
theorem C10_errorlevel_alternates (cycles : List Cycle) (s : Session)
    (hs : s.s_inspect_errorlevel = true)
    (hon : ∀ c ∈ cycles, c.env.g_get_errorlevel = true) :
    (∀ k r, (errorlevel_cycles cycles s)[k]? = some r →
      r.result.inspect_errorlevel = decide (k % 2 = 0))
    ∧ (∀ r ∈ errorlevel_cycles cycles s,
      (r.result.inspect_errorlevel = true →
        r.result.interactive = false ∧ r.result.ret = true
        ∧ r.result.out = format_probe r.cycle.env.tmp_errfile
        ∧ ∀ buffer, Event.editor_edit buffer ∉ r.result.trace)
      ∧ (r.result.inspect_errorlevel = false →
        Event.fopen r.cycle.env.tmp_errfile ∈ r.result.trace
        ∧ (r.cycle.env.errfile_content ≠ none →
            Event.unlink r.cycle.env.tmp_errfile ∈ r.result.trace))) := by
  constructor
  · intro k r hk
    rw [errorlevel_cycles_alternate cycles s hon k r hk, hs]
    by_cases h : k % 2 = 0 <;> simp [h]
  · intro r hr
    obtain ⟨hrun, hint⟩ := List.mem_filter.1 hr
    obtain ⟨hmem, hres⟩ := mem_run_cycles hrun
    have hget := hon r.cycle hmem
    have hint2 : (autostart_step r.cycle.env r.before r.cycle.out).interactive = true := hint
    have hflag := edit_line_inspect_flag r.cycle.env r.before r.cycle.prompt r.cycle.rprompt
      r.cycle.out
    rw [hget, hint2] at hflag
    simp only [Bool.and_self, Bool.true_and] at hflag
    rw [hres]
    constructor
    · intro h
      exact edit_line_injects _ _ _ _ _ hget hint2 (hflag ▸ h)
    · intro h
      exact edit_line_consumes _ _ _ _ _ hget hint2 (hflag ▸ h)

theorem C10_errorlevel_alternates_witness :
    Session.initial.s_inspect_errorlevel = true
    ∧ (edit_line (CycleEnv.demo [PassEnv.typed "dir".toList]) Session.initial none none
        []).inspect_errorlevel = decide (0 % 2 = 0)
    ∧ (edit_line (CycleEnv.demo [PassEnv.typed "dir".toList])
        (edit_line (CycleEnv.demo [PassEnv.typed "dir".toList]) Session.initial none none
          []).session none none []).inspect_errorlevel = decide (1 % 2 = 0) :=
  ⟨rfl,
   (C10_errorlevel_alternates
      [Cycle.demo [PassEnv.typed "dir".toList], Cycle.demo [PassEnv.typed "dir".toList]]
      Session.initial rfl
      (fun c hc => by
        simp only [List.mem_cons, List.mem_singleton, List.not_mem_nil, or_false, or_self]
          at hc
        rw [hc]
        rfl)).1 0 _ rfl,
   (C10_errorlevel_alternates
      [Cycle.demo [PassEnv.typed "dir".toList], Cycle.demo [PassEnv.typed "dir".toList]]
      Session.initial rfl
      (fun c hc => by
        simp only [List.mem_cons, List.mem_singleton, List.not_mem_nil, or_false, or_self]
          at hc
        rw [hc]
        rfl)).1 1 _ rfl⟩

/-- C11 (the code at the failing input): a probe file that opens but is empty.  The
claim promises the integer parsed from the first line, which is zero; the code leaves
`buffer` as it found it on the stack, because its `memset` clears nothing and `fgets`
stores nothing, and passes `atoi` of that to `os::set_errorlevel`: with `7` on the stack
the recovered exit status is 7.  A file that cannot be opened does resolve to zero. -/
theorem C11_empty_probe_file_reads_stack :
    parsed_exit_status (some []) = 0
    ∧ read_errorlevel
        { CycleEnv.demo [] with errfile_content := some [], stack_buffer := "7".toList } = 7
    ∧ (edit_line
        { CycleEnv.demo [PassEnv.typed "dir".toList] with
          errfile_content := some [], stack_buffer := "7".toList }
        Session.editing none none []).session.errorlevel = 7
    ∧ (edit_line
        { CycleEnv.demo [PassEnv.typed "dir".toList] with
          errfile_content := some [], stack_buffer := "7".toList }
        Session.editing none none []).trace[2]? = some (Event.set_errorlevel 7)
    ∧ read_errorlevel { CycleEnv.demo [] with errfile_content := none } = 0
    ∧ (edit_line { CycleEnv.demo [PassEnv.typed "dir".toList] with errfile_content := none }
        Session.editing none none []).ret = true := by
  decide

/-- C12 (as stated, refuted): with no alias pending and a queue holding exactly the line
`echo hi`, which does not end in a newline, the cycle starts interactive; with exactly the
newline-terminated line `dir`, or with two queued lines, it starts non-interactive. -/
theorem C12_single_unterminated_line_is_interactive :
    initial_interactive { Session.initial with m_queued_lines := ["echo hi".toList] } = true
    ∧ initial_interactive { Session.initial with m_queued_lines := ["dir\n".toList] } = false
    ∧ initial_interactive
        { Session.initial with m_queued_lines := ["dir\n".toList, "echo hi".toList] }
      = false := by
  decide

/-- C12 (amended): at the start of a cycle `interactive` is true exactly when no
doskey-alias continuation is pending and the queue is empty or holds exactly one line that
does not end in a newline (an empty line included); a pending alias, a single
newline-terminated line, or two or more queued lines make the cycle start
non-interactive. -/
theorem C12_initial_interactive_iff (s : Session) :
    initial_interactive s = true
      ↔ s.m_doskey_alias = []
        ∧ (s.m_queued_lines = []
          ∨ ∃ front, s.m_queued_lines = [front] ∧ front.getLast? ≠ some '\n') :=
  initial_interactive_eq_true_iff s

/-- C15: when the line of a cycle is the staged autostart text or the staged
errorlevel-probe command, `edit_line` returns true with exactly the staged text: no
`onfilterinput` event and no alias resolution touch it, the directory shortcut is not
applied to the autostart text, and for every temp-file path the probe command is left
unchanged by `intercept_directory`, which returns false on it. -/
theorem C15_staged_text_returned (env : CycleEnv) (s : Session)
    (prompt rprompt : Option CStr) (out : CStr) :
    ((edit_line env s prompt rprompt out).autostart ≠ [] →
      (edit_line env s prompt rprompt out).ret = true
      ∧ (edit_line env s prompt rprompt out).out = env.autostart_command
      ∧ (edit_line env s prompt rprompt out).autostart = env.autostart_command
      ∧ (∀ l, Event.filter_input l ∉ (edit_line env s prompt rprompt out).trace)
      ∧ (∀ l, Event.doskey_resolve l ∉ (edit_line env s prompt rprompt out).trace)
      ∧ (∀ l, Event.intercept_directory l ∉ (edit_line env s prompt rprompt out).trace))
    ∧ ((edit_line env s prompt rprompt out).inspect_errorlevel = true →
      (edit_line env s prompt rprompt out).ret = true
      ∧ (edit_line env s prompt rprompt out).out = format_probe env.tmp_errfile
      ∧ (∀ l, Event.filter_input l ∉ (edit_line env s prompt rprompt out).trace)
      ∧ (∀ l, Event.doskey_resolve l ∉ (edit_line env s prompt rprompt out).trace))
    ∧ ∀ (dirs : DirEnv) (ring : List CStr) (tmp_errfile : CStr),
        intercept_directory dirs ring (format_probe tmp_errfile)
          = (false, format_probe tmp_errfile) := by
  have hprep := loop_entry_trace env s prompt rprompt out
  obtain ⟨e1, e2, e3, e4, e5⟩ := loop_entry_flags env s prompt rprompt out
  refine ⟨?_, ?_, intercept_directory_probe⟩
  · intro h
    rw [(edit_line_eq env s prompt rprompt out).autostart, e4] at h
    obtain ⟨-, hcmd, -⟩ := autostart_step_staged env s out h
    rw [edit_line_autostart env s prompt rprompt out h]
    rw [← hcmd, ← e4]
    refine ⟨rfl, rfl, rfl, ?_, ?_, ?_⟩ <;> intro l <;>
      exact not_mem_of_preparatory hprep (by simp [Event.preparatory])
  · intro h
    rw [(edit_line_eq env s prompt rprompt out).inspect_errorlevel, e5] at h
    rw [edit_line_probe env s prompt rprompt out h]
    refine ⟨rfl, rfl, ?_, ?_⟩ <;> intro l hl <;>
      rcases List.mem_append.1 hl with h1 | h1
    · exact not_mem_of_preparatory hprep (by simp [Event.preparatory]) h1
    · simp at h1
    · exact not_mem_of_preparatory hprep (by simp [Event.preparatory]) h1
    · simp at h1

theorem C15_staged_text_returned_witness :
    (edit_line { CycleEnv.demo [] with autostart_command := "clinkstart.cmd".toList }
        Session.initial none none []).out = "clinkstart.cmd".toList
    ∧ (edit_line (CycleEnv.demo []) Session.initial none none []).out
      = format_probe "C:\\tmp\\clink_errorlevel_1A2B.txt".toList :=
  ⟨((C15_staged_text_returned
      { CycleEnv.demo [] with autostart_command := "clinkstart.cmd".toList }
      Session.initial none none []).1 (by decide)).2.1,
   ((C15_staged_text_returned (CycleEnv.demo []) Session.initial none none []).2.1
      (by decide)).2.1⟩

/-- C16 (as stated, refuted): the first cycle of a session in `C:\work`, which injects the
errorlevel probe, and a cycle that runs the autostart command both leave the
directory-history ring empty, although a push would have recorded `C:\work`. -/
theorem C16_staged_cycles_skip_dir_history :
    (edit_line (CycleEnv.demo []) Session.initial none none []).inspect_errorlevel = true
    ∧ (edit_line (CycleEnv.demo []) Session.initial none none []).session.s_dir_history = []
    ∧ (edit_line { CycleEnv.demo [] with autostart_command := "clinkstart.cmd".toList }
        Session.initial none none []).out = "clinkstart.cmd".toList
    ∧ (edit_line { CycleEnv.demo [] with autostart_command := "clinkstart.cmd".toList }
        Session.initial none none []).session.s_dir_history = []
    ∧ update_dir_history "C:\\work".toList [] = ["C:\\work".toList] := by
  decide

/-- C16 (amended): a cycle that stages neither the autostart text nor the errorlevel probe
pushes the current working directory onto the directory-history ring (deduplicated against
the last entry), whatever its outcome, a failing editor included; an autostart cycle and a
probe-injection cycle leave the ring as it was. -/
theorem C16_dir_history_bookkeeping (env : CycleEnv) (s : Session)
    (prompt rprompt : Option CStr) (out : CStr) :
    ((edit_line env s prompt rprompt out).autostart ≠ []
        ∨ (edit_line env s prompt rprompt out).inspect_errorlevel = true →
      (edit_line env s prompt rprompt out).session.s_dir_history = s.s_dir_history)
    ∧ ((edit_line env s prompt rprompt out).autostart = [] →
      (edit_line env s prompt rprompt out).inspect_errorlevel = false →
      (edit_line env s prompt rprompt out).session.s_dir_history
        = update_dir_history env.cwd s.s_dir_history) := by
  obtain ⟨-, -, -, hring, -, -⟩ := loop_entry_fields env s prompt rprompt out
  obtain ⟨-, -, -, e4, e5⟩ := loop_entry_flags env s prompt rprompt out
  have ha := (edit_line_eq env s prompt rprompt out).autostart
  have hi := (edit_line_eq env s prompt rprompt out).inspect_errorlevel
  constructor
  · rintro (h | h)
    · rw [ha, e4] at h
      rw [edit_line_autostart env s prompt rprompt out h]
      exact hring
    · rw [hi, e5] at h
      rw [edit_line_probe env s prompt rprompt out h]
      exact hring
  · intro h1 h2
    rw [ha] at h1
    rw [hi] at h2
    unfold edit_line
    rw [(finish_step_fields env _).1, edit_loop_ring env env.passes _ h1 h2, hring]

theorem C16_dir_history_bookkeeping_witness :
    (edit_line (CycleEnv.demo [PassEnv.typed "dir".toList])
        { Session.editing with s_dir_history := ["C:\\".toList] } none none
        []).session.s_dir_history
      = update_dir_history "C:\\work".toList ["C:\\".toList] :=
  (C16_dir_history_bookkeeping (CycleEnv.demo [PassEnv.typed "dir".toList])
    { Session.editing with s_dir_history := ["C:\\".toList] } none none []).2
    (by decide) (by decide)

/-- C17 (as stated, refuted): when the current directory equals the recorded one only up
to letter case, the recorded directory is kept, so afterwards it is not the current
working directory itself. -/
theorem C17_last_cwd_kept_on_case_change :
    (update_last_cwd 2 "c:\\work".toList
        { Session.initial with m_last_cwd := "C:\\Work".toList }).m_last_cwd
      = "C:\\Work".toList
    ∧ (update_last_cwd 2 "c:\\work".toList
        { Session.initial with m_last_cwd := "C:\\Work".toList }).m_last_cwd
      ≠ "c:\\work".toList := by
  decide

/-- C17 (amended): after `update_last_cwd` the transient-prompt eligibility is true in
mode `always` (1), false in mode `off` (0), and in mode `same_dir` (2) true exactly when
the current working directory equals, ignoring case, the one recorded before; afterwards
the recorded directory equals the current one ignoring case: it is replaced by the current
directory when the two differed and kept as it was otherwise. -/
theorem C17_update_last_cwd (cwd : CStr) (s : Session) :
    (update_last_cwd 1 cwd s).m_can_transient = true
    ∧ (update_last_cwd 0 cwd s).m_can_transient = false
    ∧ ((update_last_cwd 2 cwd s).m_can_transient = true ↔ _stricmp cwd s.m_last_cwd = 0)
    ∧ ∀ when,
        _stricmp (update_last_cwd when cwd s).m_last_cwd cwd = 0
        ∧ (_stricmp cwd s.m_last_cwd ≠ 0 → (update_last_cwd when cwd s).m_last_cwd = cwd)
        ∧ (_stricmp cwd s.m_last_cwd = 0
            → (update_last_cwd when cwd s).m_last_cwd = s.m_last_cwd) := by
  unfold update_last_cwd iequals
  by_cases h : _stricmp cwd s.m_last_cwd = 0
  · have hsymm : _stricmp s.m_last_cwd cwd = 0 :=
      (stricmp_eq_zero_iff _ _).2 ((stricmp_eq_zero_iff _ _).1 h).symm
    simp [h, hsymm]
  · simp [h, stricmp_self]

theorem C17_update_last_cwd_witness :
    (update_last_cwd 2 "D:\\tmp".toList
        { Session.initial with m_last_cwd := "C:\\work".toList }).m_last_cwd
      = "D:\\tmp".toList :=
  ((C17_update_last_cwd "D:\\tmp".toList
      { Session.initial with m_last_cwd := "C:\\work".toList }).2.2.2 2).2.1 (by decide)

/-- C18: along a run that starts with `s_autostart` set, the autostart command is looked
up on the first cycle that starts interactive and on no other cycle, hence at most once;
the cycle that looks it up stages it, and when its text is not empty the cycle becomes
non-interactive and returns exactly that text; every other cycle stages no autostart
text. -/
theorem C18_autostart_once (cycles : List Cycle) (s : Session)
    (hs : s.s_autostart = true) :
    (∀ (k : Nat) (r : CycleRun), (run_cycles cycles s)[k]? = some r →
      (r.looks_up_autostart = true
        ↔ initial_interactive r.before = true
          ∧ ∀ (j : Nat) (rj : CycleRun), j < k → (run_cycles cycles s)[j]? = some rj →
              initial_interactive rj.before = false))
    ∧ (∀ (k k' : Nat) (r r' : CycleRun), (run_cycles cycles s)[k]? = some r →
      (run_cycles cycles s)[k']? = some r' →
      r.looks_up_autostart = true → r'.looks_up_autostart = true → k = k')
    ∧ (∀ r ∈ run_cycles cycles s,
      (r.looks_up_autostart = false → r.result.autostart = [])
      ∧ (r.looks_up_autostart = true →
        r.result.autostart = r.cycle.env.autostart_command
        ∧ (r.cycle.env.autostart_command ≠ [] →
          r.result.interactive = false ∧ r.result.ret = true
          ∧ r.result.out = r.cycle.env.autostart_command))) := by
  have hfirst : ∀ (k : Nat) (r : CycleRun), (run_cycles cycles s)[k]? = some r →
      (r.looks_up_autostart = true
        ↔ initial_interactive r.before = true
          ∧ ∀ (j : Nat) (rj : CycleRun), j < k → (run_cycles cycles s)[j]? = some rj →
              initial_interactive rj.before = false) := by
    intro k r hk
    unfold CycleRun.looks_up_autostart
    rw [Bool.and_eq_true, run_cycles_s_autostart cycles s k r hk]
    constructor
    · rintro ⟨h1, -, h2⟩
      exact ⟨h1, h2⟩
    · rintro ⟨h1, h2⟩
      exact ⟨h1, hs, h2⟩
  refine ⟨hfirst, ?_, ?_⟩
  · intro k k' r r' hk hk' hr hr'
    obtain ⟨h1, h2⟩ := (hfirst k r hk).1 hr
    obtain ⟨h1', h2'⟩ := (hfirst k' r' hk').1 hr'
    rcases Nat.lt_trichotomy k k' with h | h | h
    · have := h2' k r h hk
      rw [h1] at this
      exact absurd this (by decide)
    · exact h
    · have := h2 k' r' h hk'
      rw [h1'] at this
      exact absurd this (by decide)
  · intro r hr
    obtain ⟨-, hres⟩ := mem_run_cycles hr
    have hlocal := edit_line_autostart_local r.cycle.env r.before r.cycle.prompt
      r.cycle.rprompt r.cycle.out
    constructor
    · intro h
      have h' : ¬ (initial_interactive r.before && r.before.s_autostart) = true := by
        unfold CycleRun.looks_up_autostart at h
        rw [h]
        decide
      rw [hres, hlocal, if_neg h']
    · intro h
      have h' : (initial_interactive r.before && r.before.s_autostart) = true := h
      rw [if_pos h'] at hlocal
      refine ⟨by rw [hres, hlocal], ?_⟩
      intro hne
      have hstaged : (autostart_step r.cycle.env r.before r.cycle.out).autostart ≠ [] := by
        unfold autostart_step
        rw [if_pos h']
        exact hne
      obtain ⟨hi, hcmd, -⟩ := autostart_step_staged _ _ _ hstaged
      obtain ⟨-, -, e3, e4, -⟩ := loop_entry_flags r.cycle.env r.before r.cycle.prompt
        r.cycle.rprompt r.cycle.out
      rw [(errorlevel_step_not_interactive _ _ hi).1] at e3
      rw [hres, edit_line_autostart _ _ _ _ _ hstaged]
      exact ⟨e3, rfl, e4.trans hcmd⟩

theorem C18_autostart_once_witness :
    Session.initial.s_autostart = true
    ∧ (edit_line { CycleEnv.demo [] with autostart_command := "clinkstart.cmd".toList }
        Session.initial none none []).interactive = false
    ∧ (edit_line { CycleEnv.demo [] with autostart_command := "clinkstart.cmd".toList }
        Session.initial none none []).ret = true
    ∧ (edit_line { CycleEnv.demo [] with autostart_command := "clinkstart.cmd".toList }
        Session.initial none none []).out = "clinkstart.cmd".toList :=
  ⟨rfl,
   (((C18_autostart_once
      [⟨{ CycleEnv.demo [] with autostart_command := "clinkstart.cmd".toList }, none, none, []⟩,
        Cycle.demo [PassEnv.typed "dir".toList]]
      Session.initial rfl).2.2
      ⟨Session.initial,
        ⟨{ CycleEnv.demo [] with autostart_command := "clinkstart.cmd".toList }, none, none, []⟩,
        edit_line { CycleEnv.demo [] with autostart_command := "clinkstart.cmd".toList }
          Session.initial none none []⟩
      (List.mem_cons_self _ _)).2 (by decide)).2 (by decide)⟩

/-- C19: a failed directory shortcut is a no-op: whenever `intercept_directory` returns
false, the line is left exactly as it was. -/
theorem C19_intercept_directory_false_keeps_line (env : DirEnv) (ring : List CStr)
    (line : CStr) (h : (intercept_directory env ring line).1 = false) :
    (intercept_directory env ring line).2 = line := by
  rcases intercept_directory_false_or_true env ring line with h1 | h1
  · rw [h1]
  · rw [h1] at h
    exact absurd h (by decide)

theorem C19_intercept_directory_false_keeps_line_witness :
    (intercept_directory all_dirs ["C:\\".toList] "cd\\".toList).1 = false
    ∧ (intercept_directory all_dirs ["C:\\".toList] "cd\\".toList).2 = "cd\\".toList :=
  ⟨by decide,
   C19_intercept_directory_false_keeps_line all_dirs ["C:\\".toList] "cd\\".toList
    (by decide)⟩

/-- C20: `copy_dir_history` returns no snapshot for an empty ring; for a non-empty ring it
returns the entries oldest first, every slot filled, with a total equal to the size of the
ring, so that the slot at index `total - 1` holds the most recent directory. -/
theorem C20_copy_dir_history (ring : List CStr) :
    (ring = [] → copy_dir_history ring = none)
    ∧ (ring ≠ [] →
      copy_dir_history ring = some (ring.map some, ring.length)
      ∧ (ring.map some)[ring.length - 1]? = some ring.getLast?) := by
  constructor
  · rintro rfl
    rfl
  · intro hne
    have hlen : ring.length ≠ 0 := fun h => hne (List.length_eq_zero.1 h)
    constructor
    · unfold copy_dir_history
      rw [if_neg hlen]
      have := copy_dir_history_loop_eq [] ring
      simp only [List.map_nil, List.nil_append, List.length_nil, Nat.zero_add] at this
      rw [this]
    · rcases List.eq_nil_or_concat ring with rfl | ⟨init, last, rfl⟩
      · exact absurd rfl hne
      · simp

theorem C20_copy_dir_history_witness :
    copy_dir_history ["C:\\".toList, "C:\\work".toList]
      = some (["C:\\".toList, "C:\\work".toList].map some, 2)
    ∧ (["C:\\".toList, "C:\\work".toList].map some)[2 - 1]?
      = some ["C:\\".toList, "C:\\work".toList].getLast? :=
  (C20_copy_dir_history ["C:\\".toList, "C:\\work".toList]).2 (by decide)

/-- C21: the queued-line store is a FIFO.  After any sequence of `enqueue_lines` calls the
queue holds the lines queued before followed by the enqueued lines in the order of the
calls; as many `dequeue_line` calls as there are lines return true with exactly those
lines, front to back, each once, and leave the queue empty; on an empty queue
`dequeue_line` returns false and leaves the queue and the output as they were. -/
theorem C21_queued_lines_fifo (s : Session) (batches : List (List CStr)) (out : CStr) :
    (enqueue_batches batches s).m_queued_lines = s.m_queued_lines ++ batches.flatten
    ∧ (dequeue_lines (s.m_queued_lines ++ batches.flatten).length
          (enqueue_batches batches s) out).1
        = (s.m_queued_lines ++ batches.flatten).map (fun line => (true, line))
    ∧ (dequeue_lines (s.m_queued_lines ++ batches.flatten).length
          (enqueue_batches batches s) out).2.m_queued_lines = []
    ∧ ∀ (e : Session) (buffer : CStr), e.m_queued_lines = [] →
        dequeue_line e buffer = (false, buffer, e) := by
  obtain ⟨h1, h2⟩ := dequeue_lines_queue (s.m_queued_lines ++ batches.flatten)
    (enqueue_batches batches s) out (enqueue_batches_queue batches s)
  refine ⟨enqueue_batches_queue batches s, h1, h2, ?_⟩
  intro e buffer he
  unfold dequeue_line
  rw [he]

theorem C21_queued_lines_fifo_witness :
    dequeue_line Session.initial "dir".toList = (false, "dir".toList, Session.initial) :=
  (C21_queued_lines_fifo Session.initial [] []).2.2.2 Session.initial "dir".toList rfl

/-- C22 (the code at the failing input): `rl_buffer:setcursor(3)` on a buffer of length 10
whose cursor is at 5.  The method moves the cursor and pushes the previous position 5, but
it returns 0, so the Lua caller receives no result value; `getcursor`, which returns 1,
does hand its pushed value over.  The same holds for every object and numeric argument. -/
theorem C22_setcursor_hands_back_nothing :
    ((rl_buffer_lua.create 5 10).set_cursor (some 3)).2.cursor = 2
    ∧ ((rl_buffer_lua.create 5 10).set_cursor (some 3)).1.pushed = [5]
    ∧ ((rl_buffer_lua.create 5 10).set_cursor (some 3)).1.nresults = 0
    ∧ ((rl_buffer_lua.create 5 10).set_cursor (some 3)).1.results = []
    ∧ (rl_buffer_lua.create 5 10).get_cursor.1.results = [5]
    ∧ ∀ (self : rl_buffer_lua) (arg : Int), (self.set_cursor (some arg)).1.results = [] := by
  refine ⟨by decide, by decide, by decide, by decide, by decide, ?_⟩
  intro self arg
  simp [rl_buffer_lua.set_cursor, lua_return.results]

/-- C23: for every sequence of fewer than `2^31` `beginundogroup` and `endundogroup` calls
on a new object followed by its destruction, the buffer has been forwarded as many
`end_undo_group` calls as `begin_undo_group` calls; at no point of the forwarded calls
have there been more ends than begins; the counter stays below `2^31` throughout; and
`endundogroup` with no open group changes nothing. -/
theorem C23_undo_groups_ended (cursor length : Nat) (calls : List undo_method)
    (hlen : calls.length < 2 ^ 31) :
    begins ((rl_buffer_lua.create cursor length).call_methods calls).destroy.forwarded
      = ends ((rl_buffer_lua.create cursor length).call_methods calls).destroy.forwarded
    ∧ (∀ k,
        ends (((rl_buffer_lua.create cursor length).call_methods calls).destroy.forwarded.take k)
          ≤ begins
            (((rl_buffer_lua.create cursor length).call_methods calls).destroy.forwarded.take k))
    ∧ (∀ k, ((rl_buffer_lua.create cursor length).call_methods (calls.take k)).m_num_undo
        < 2 ^ 31)
    ∧ ∀ self : rl_buffer_lua, self.m_num_undo = 0 → self.end_undo_group = self := by
  have h0 : begins (rl_buffer_lua.create cursor length).forwarded
      = ends (rl_buffer_lua.create cursor length).forwarded
        + (rl_buffer_lua.create cursor length).m_num_undo := rfl
  have h0' : ∀ k, ends ((rl_buffer_lua.create cursor length).forwarded.take k)
      ≤ begins ((rl_buffer_lua.create cursor length).forwarded.take k) := by
    intro k
    simp [rl_buffer_lua.create, begins, ends]
  obtain ⟨i1, i2, -, -⟩ := call_methods_balance calls _ h0 h0'
  obtain ⟨d1, d2⟩ := destroy_balance _ i1 i2
  refine ⟨d1, d2, ?_, ?_⟩
  · intro k
    obtain ⟨-, -, j3, -⟩ := call_methods_balance (calls.take k) _ h0 h0'
    have hk : (calls.take k).length ≤ calls.length := by
      rw [List.length_take]
      exact Nat.min_le_right _ _
    have hz : (rl_buffer_lua.create cursor length).m_num_undo = 0 := rfl
    omega
  · intro self hself
    unfold rl_buffer_lua.end_undo_group
    rw [if_neg (by omega)]

theorem C23_undo_groups_ended_witness :
    begins ((rl_buffer_lua.create 0 0).call_methods
        [undo_method.endundogroup, undo_method.beginundogroup,
          undo_method.beginundogroup, undo_method.endundogroup]).destroy.forwarded
      = ends ((rl_buffer_lua.create 0 0).call_methods
        [undo_method.endundogroup, undo_method.beginundogroup,
          undo_method.beginundogroup, undo_method.endundogroup]).destroy.forwarded :=
  (C23_undo_groups_ended 0 0
    [undo_method.endundogroup, undo_method.beginundogroup,
      undo_method.beginundogroup, undo_method.endundogroup] (by decide)).1

/-- C24: over every sequence of keystrokes whose regeneration requests all carry the same
generation key (word index, word offset, word length, cursor position) and the same literal
word text, match generation runs at most once, so that each generator is called at most
once; when that key and text are the cached ones already, no generator is called and the
cache, its matches included, stays as it was. -/
theorem C24_generation_cache_reused (generators : List (CStr → List CStr))
    (cache : generation_cache) (key : key_t) (text : CStr) (requests : List (key_t × CStr))
    (hsame : ∀ r ∈ requests, r.1 = key ∧ word_text r.1 r.2 = text) :
    (update_matches_each generators requests cache).regenerations ≤ cache.regenerations + 1
    ∧ (update_matches_each generators requests cache).generator_calls
        ≤ cache.generator_calls + generators.length
    ∧ ∀ prev_line, cache.m_prev_generate = some prev_line → cache.m_prev_key = key →
        word_text key prev_line = text →
        update_matches_each generators requests cache = cache := by
  have hcached : ∀ prev_line, cache.m_prev_generate = some prev_line →
      cache.m_prev_key = key → word_text key prev_line = text →
      update_matches_each generators requests cache = cache :=
    fun prev_line h1 h2 h3 =>
      update_matches_each_cached generators key text requests cache prev_line h1 h2 h3 hsame
  cases requests with
  | nil => exact ⟨Nat.le_succ _, Nat.le_add_right _ _, hcached⟩
  | cons request requests =>
    obtain ⟨hk, ht⟩ := hsame request (List.mem_cons_self _ _)
    obtain ⟨⟨prev_line, c1, c2⟩, c3, c4, c5⟩ :=
      update_matches_caches generators request.1 request.2 cache
    have hrest := update_matches_each_cached generators key text requests
      (update_matches generators request.1 request.2 cache) prev_line c1 (c3.trans hk)
      (by rw [← hk, c2, ht]) fun r hr => hsame r (List.mem_cons_of_mem _ hr)
    refine ⟨?_, ?_, hcached⟩
    · unfold update_matches_each
      rw [hrest]
      exact c4
    · unfold update_matches_each
      rw [hrest]
      exact c5

theorem C24_generation_cache_reused_witness :
    (update_matches_each [fun line => [line]]
        [(key_t.store 0 0 2 2, "di".toList), (key_t.store 0 0 2 2, "di".toList),
          (key_t.store 0 0 2 2, "di".toList)]
        generation_cache.reset).regenerations ≤ generation_cache.reset.regenerations + 1 :=
  (C24_generation_cache_reused [fun line => [line]] generation_cache.reset
    (key_t.store 0 0 2 2) "di".toList
    [(key_t.store 0 0 2 2, "di".toList), (key_t.store 0 0 2 2, "di".toList),
      (key_t.store 0 0 2 2, "di".toList)]
    (by decide)).1

/-- C25: splitting a paste in `crlf` mode loses nothing but carriage returns.  For every
text with at least one newline `strip_crlf` returns with `done` set; the line buffer keeps
the text before the first newline (without its carriage returns); the pieces it appends to
the overflow list are such that the line, a newline and the pieces in order make up the
text without its carriage returns; every piece is non-empty and has a newline only as its
last character, and every piece but the last ends in a newline. -/
theorem C25_strip_crlf_lossless (text : CStr) (overflow : List CStr) (h : '\n' ∈ text) :
    ∃ line pieces,
      strip_crlf text overflow paste_crlf_crlf = some (line, overflow ++ pieces, true)
      ∧ line = (text.takeWhile (fun c => c ≠ '\n')).filter (fun c => c ≠ '\r')
      ∧ line ++ ['\n'] ++ pieces.flatten = text.filter (fun c => c ≠ '\r')
      ∧ (∀ piece ∈ pieces, piece ≠ [] ∧ '\n' ∉ piece.dropLast)
      ∧ ∀ piece ∈ pieces.dropLast, piece.getLast? = some '\n' := by
  have hcopy := strip_crlf_copy_crlf text [] false
  simp only [List.nil_append, Bool.false_or] at hcopy
  have hany : (text.any fun c => c = '\n' || c = '\r') = true := by
    rw [List.any_eq_true]
    exact ⟨'\n', h, by simp⟩
  have hkept : '\n' ∈ text.filter (fun c => c ≠ '\r') := by
    rw [List.mem_filter]
    exact ⟨h, by decide⟩
  unfold strip_crlf
  rw [hcopy, hany]
  simp only [if_true]
  rw [← takeWhile_filter_cr]
  generalize text.filter (fun c => c ≠ '\r') = kept at hkept ⊢
  cases kept with
  | nil => simp at hkept
  | cons c rest =>
    obtain ⟨-, p2, -, -, p5, -⟩ := scan_to_newline_piece c rest
    have hscan := scan_to_newline_found (c :: rest) hkept
    obtain ⟨pieces, q1, q2, q3, q4⟩ := strip_crlf_split_rest rest.length
      (scan_to_newline (c :: rest)).2.1
      ((c :: rest).takeWhile fun c => c ≠ '\n') overflow true p5
    refine ⟨_, pieces, ?_, rfl, ?_, q3, q4⟩
    · rw [List.length_cons, strip_crlf_split]
      simp only [if_true, Bool.false_or]
      rw [hscan] at q1 ⊢
      simp only [List.dropLast_concat, if_true] at q1 ⊢
      rw [q1]
      simp
    · rw [q2]
      rw [hscan] at p2 ⊢
      exact p2

theorem C25_strip_crlf_lossless_witness :
    ∃ line pieces,
      strip_crlf "dir\r\necho a\r\n\r\necho b".toList [] paste_crlf_crlf
        = some (line, [] ++ pieces, true)
      ∧ line = ("dir\r\necho a\r\n\r\necho b".toList.takeWhile (fun c => c ≠ '\n')).filter
          (fun c => c ≠ '\r')
      ∧ line ++ ['\n'] ++ pieces.flatten
        = "dir\r\necho a\r\n\r\necho b".toList.filter (fun c => c ≠ '\r')
      ∧ (∀ piece ∈ pieces, piece ≠ [] ∧ '\n' ∉ piece.dropLast)
      ∧ ∀ piece ∈ pieces.dropLast, piece.getLast? = some '\n' :=
  C25_strip_crlf_lossless "dir\r\necho a\r\n\r\necho b".toList [] (by decide)

/-- C26 (as stated, refuted): the line `-` parses to the single token `-`, which does not
end in a path separator and has no dot, yet `intercept_directory` returns true and turns
the line into a change-directory command for the previous directory, even in a file system
without directories. -/
theorem C26_dash_becomes_cd :
    parse_line_token "-".toList = (true, "-".toList)
    ∧ "-".toList.getLast? = some '-'
    ∧ is_separator '-' = false
    ∧ '.' ∉ "-".toList
    ∧ intercept_directory no_dirs ["C:\\".toList, "C:\\work".toList] "-".toList
      = (true, " cd /d \"C:\\\"".toList) := by
  decide

/-- C26 (amended): for every line other than `-` whose single parsed token does not end in
a path separator, is not a run of two or more dots and is not a chain of `..` components
joined by single path separators, `intercept_directory` returns false and leaves the line
as it is, whatever the file system and the directory history. -/
theorem C26_bare_name_not_intercepted (env : DirEnv) (ring : List CStr) (line tok : CStr)
    (hline : line ≠ "-".toList) (hparse : parse_line_token line = (true, tok))
    (hsep : ∀ c, tok.getLast? = some c → is_separator c = false)
    (hdots : ∀ n, 2 ≤ n → tok ≠ List.replicate n '.')
    (hchain : ∀ seps : List Char, (∀ s ∈ seps, is_separator s = true) →
      tok ≠ "..".toList ++ seps.flatMap fun s => s :: "..".toList) :
    intercept_directory env ring line = (false, line) := by
  have hprev : ¬ (strcmp line "-".toList = 0 ∨ _stricmp line "cd -".toList = 0
      ∨ _stricmp line "chdir -".toList = 0) := by
    rintro (h | h | h)
    · exact hline ((strcmp_eq_zero_iff _ _).1 h)
    · have := parse_line_token_word_dash "cd".toList line (by decide) (by decide) h
      rw [hparse] at this
      simp at this
    · have := parse_line_token_word_dash "chdir".toList line (by decide) (by decide) h
      rw [hparse] at this
      simp at this
  have htoken : token_at_separator_test line = some tok := by
    unfold token_at_separator_test
    rw [hparse]
    simp only
    rw [if_neg (count_dots_lt_two tok hsep hdots)]
  have hlast : (match tok.getLast? with
      | some c => is_separator c
      | none => false) = false := by
    cases hc : tok.getLast? with
    | none => rfl
    | some c => exact hsep c hc
  have hnochain : dotdot_chain tok = false := by
    by_cases h : dotdot_chain tok = true
    · obtain ⟨seps, h1, h2⟩ := dotdot_chain_true tok h
      exact absurd h2 (hchain seps h1)
    · simpa using h
  rw [intercept_directory_of_token env ring line hprev, htoken]
  simp only [hlast, hnochain]
  rfl

theorem C26_bare_name_not_intercepted_witness :
    intercept_directory all_dirs ["C:\\".toList, "C:\\work".toList] "work".toList
      = (false, "work".toList) :=
  C26_bare_name_not_intercepted all_dirs ["C:\\".toList, "C:\\work".toList] "work".toList
    "work".toList (by decide) (by decide)
    (fun c hc => by
      have hk : 'k' = c := Option.some.inj hc
      rw [← hk]
      decide)
    (fun n _ h => absurd
      (List.eq_of_mem_replicate (h ▸ (by decide : 'w' ∈ "work".toList))) (by decide))
    (fun _ _ h => absurd (List.head_eq_of_cons_eq h) (by decide))

/-- C27 (the code at the failing input): a category run of 4 key bindings shown in 3
columns.  In vertical layout the two rows emitted start at 0 and 1 with counts 3 and 1 and
step 2, so the first row references the entries 0, 2 and 4: entry 4 lies outside the run
and entry 3 is never referenced.  In horizontal layout the rows reference 0, 1, 2, 3, and
for every run and column count they reference each entry of the run once, in order. -/
theorem C27_vertical_rows_leave_the_run :
    category_rows true 4 3 = [⟨0, 3, 2⟩, ⟨1, 1, 2⟩]
    ∧ referenced_entries true 4 3 = [0, 2, 4, 1]
    ∧ 4 ∈ referenced_entries true 4 3
    ∧ 3 ∉ referenced_entries true 4 3
    ∧ referenced_entries false 4 3 = [0, 1, 2, 3]
    ∧ ∀ sub_count columns, 1 ≤ columns →
        referenced_entries false sub_count columns = List.range sub_count := by
  refine ⟨by decide, by decide, by decide, by decide, by decide, ?_⟩
  intro sub_count columns hcolumns
  unfold referenced_entries category_rows
  simp only [Bool.false_eq_true, if_false]
  rw [emit_rows_horizontal columns _ 0 sub_count (rows_hold_run sub_count columns hcolumns)]
  simp [List.range_eq_range']

theorem C27_vertical_rows_leave_the_run_witness :
    referenced_entries false 5 4 = List.range 5 :=
  C27_vertical_rows_leave_the_run.2.2.2.2.2 5 4 (by decide)

/-- C28: the last-character read of `intercept_directory` is in bounds.
`parse_line_token` returns true only with a non-empty token, and returns false for empty,
blank-only and quotes-only lines; the all-dots rewrite yields a non-empty string; so the
token that reaches the trailing-separator test has at least one character and the index
`length - 1` lies inside it. -/
theorem C28_last_character_in_bounds :
    (∀ line tok, parse_line_token line = (true, tok) → tok ≠ [])
    ∧ (∀ line, (∀ c ∈ line, is_blank c = true) → (parse_line_token line).1 = false)
    ∧ (∀ n, (parse_line_token (List.replicate n '"')).1 = false)
    ∧ (∀ num_dots : Int, 2 ≤ num_dots → concat_updirs (num_dots - 1).toNat [] ≠ [])
    ∧ ∀ line tmp, token_at_separator_test line = some tmp →
        1 ≤ tmp.length ∧ tmp.length - 1 < tmp.length
          ∧ tmp.getLast? = some (char_at tmp (tmp.length - 1)) := by
  refine ⟨?_, ?_, ?_, ?_, ?_⟩
  · intro line tok h
    have := parse_line_token_loop_true (line.dropWhile is_blank) false true []
    unfold parse_line_token at h
    rw [h] at this
    rcases this with h1 | h1
    · simp at h1
    · exact h1
  · intro line hblank
    unfold parse_line_token
    rw [dropWhile_is_blank_of_all line hblank]
    rfl
  · intro n
    unfold parse_line_token
    cases n with
    | zero => rfl
    | succ n =>
      rw [List.replicate_succ, List.dropWhile_cons, if_neg (by decide), ← List.replicate_succ,
        parse_line_token_loop_quotes]
  · intro num_dots h
    obtain ⟨k, hk⟩ : ∃ k, (num_dots - 1).toNat = k + 1 :=
      ⟨(num_dots - 1).toNat - 1, by omega⟩
    rw [hk, concat_updirs_eq, List.replicate_succ, List.flatten_cons]
    simp
  · intro line tmp h
    have hlen := token_at_separator_test_length line tmp h
    refine ⟨hlen, by omega, ?_⟩
    rw [List.getLast?_eq_getElem?, char_at, List.getD_eq_getElem?_getD,
      List.getElem?_eq_getElem (by omega)]
    rfl

theorem C28_last_character_in_bounds_witness :
    "notepad".toList ≠ [] ∧ 1 ≤ "..\\..\\".toList.length :=
  ⟨C28_last_character_in_bounds.1 " notepad ".toList "notepad".toList (by decide),
   (C28_last_character_in_bounds.2.2.2.2 "...".toList "..\\..\\".toList (by decide)).1⟩

/-- C29: every call of `host::edit_line`, whatever its path, returns with the prompt
pointers `m_prompt` and `m_rprompt` null; hence along every sequence of calls that starts
with `m_prompt` null the assertion at the start of each call holds. -/
theorem C29_prompt_pointers_null (cycles : List Cycle) (s : Session)
    (hs : s.m_prompt = none) :
    (∀ (env : CycleEnv) (before : Session) (prompt rprompt : Option CStr) (out : CStr),
      (edit_line env before prompt rprompt out).session.m_prompt = none
      ∧ (edit_line env before prompt rprompt out).session.m_rprompt = none)
    ∧ ∀ r ∈ run_cycles cycles s,
        r.before.m_prompt = none ∧ r.result.session.m_prompt = none
          ∧ r.result.session.m_rprompt = none := by
  refine ⟨edit_line_prompt_null, ?_⟩
  intro r hr
  obtain ⟨-, hres⟩ := mem_run_cycles hr
  refine ⟨run_cycles_prompt_null cycles s hs r hr, ?_, ?_⟩
  · rw [hres]
    exact (edit_line_prompt_null _ _ _ _ _).1
  · rw [hres]
    exact (edit_line_prompt_null _ _ _ _ _).2

theorem C29_prompt_pointers_null_witness :
    Session.initial.m_prompt = none
    ∧ (edit_line (CycleEnv.demo [PassEnv.typed "dir".toList]) Session.initial none none
        []).session.m_prompt = none :=
  ⟨rfl,
   ((C29_prompt_pointers_null [Cycle.demo [PassEnv.typed "dir".toList]] Session.initial
      rfl).2
      ⟨Session.initial, Cycle.demo [PassEnv.typed "dir".toList],
        edit_line (CycleEnv.demo [PassEnv.typed "dir".toList]) Session.initial none none []⟩
      (List.mem_cons_self _ _)).2.1⟩

/-- C30: for a macro text whose characters all have a display width from 0 to 2,
`append_key_macro` appends the macro unchanged when its width is at most 30, and otherwise
appends an initial part of it of width at most 27 followed by three dots; with a dot one
cell wide, the appended text is at most 30 cells wide. -/
theorem C30_append_key_macro_width (clink_wcwidth : Char → Int) (s macro_text : CStr)
    (hwidth : ∀ c ∈ macro_text, 0 ≤ clink_wcwidth c ∧ clink_wcwidth c ≤ 2) :
    (display_width clink_wcwidth macro_text ≤ 30 →
      append_key_macro clink_wcwidth s macro_text = s ++ macro_text)
    ∧ (30 < display_width clink_wcwidth macro_text →
      ∃ k, append_key_macro clink_wcwidth s macro_text
          = s ++ macro_text.take k ++ "...".toList
        ∧ display_width clink_wcwidth (macro_text.take k) ≤ 27)
    ∧ (clink_wcwidth '.' = 1 →
      ∃ appended, append_key_macro clink_wcwidth s macro_text = s ++ appended
        ∧ display_width clink_wcwidth appended ≤ 30) := by
  have hloop := append_key_macro_loop_spec clink_wcwidth s macro_text [] 0 0 hwidth
    (by simp [display_width]) (Or.inl (by omega))
  simp only [List.append_nil, List.nil_append] at hloop
  obtain ⟨hfits, hcut⟩ := hloop
  have h1 : display_width clink_wcwidth macro_text ≤ 30 →
      append_key_macro clink_wcwidth s macro_text = s ++ macro_text := by
    intro h
    obtain ⟨a1, a2⟩ := hfits h
    unfold append_key_macro
    rw [if_neg (by omega), a1]
  have h2 : 30 < display_width clink_wcwidth macro_text →
      ∃ k, append_key_macro clink_wcwidth s macro_text
          = s ++ macro_text.take k ++ "...".toList
        ∧ display_width clink_wcwidth (macro_text.take k) ≤ 27 := by
    intro h
    obtain ⟨b1, k, b2, b3⟩ := hcut h
    refine ⟨k, ?_, b3⟩
    unfold append_key_macro
    rw [if_pos b1, b2]
  refine ⟨h1, h2, ?_⟩
  intro hdot
  by_cases h : display_width clink_wcwidth macro_text ≤ 30
  · exact ⟨macro_text, h1 h, h⟩
  · obtain ⟨k, e1, e2⟩ := h2 (by omega)
    refine ⟨macro_text.take k ++ "...".toList, by rw [e1, List.append_assoc], ?_⟩
    rw [display_width_append]
    have : display_width clink_wcwidth "...".toList = 3 := by
      simp [display_width, hdot]
    omega

theorem C30_append_key_macro_width_witness :
    append_key_macro (fun _ => 1) "\"".toList "echo hello".toList
      = "\"".toList ++ "echo hello".toList :=
  (C30_append_key_macro_width (fun _ => 1) "\"".toList "echo hello".toList
    (by decide)).1 (by decide)

end Clink
